import Mathlib

/-!
# I-LAMM (`src/ILAMM.cpp`): a shallow embedding and its verified properties

Conventions of the embedding.

* A `double` is an element of a linearly ordered field `K`; every definition is
  executable at `K = ℚ`.  Rounding, infinities and NaN are outside the model.
* An `arma::vec` of length `m` is a function `Fin m → K`, an `arma::mat` with `n`
  rows and `m` columns is a function `Fin n → Fin m → K`.  The types carry the
  conformance of dimensions that Armadillo checks at run time.  Coefficient
  vectors have length `d + 1`, as in `ncvxReg` (`arma::zeros(d + 1)`).
* `std::string` arguments (`penalty`, `lossType`) are Lean strings.
* `int` counters are integers; `iteMax` is taken below `2^31 - 1`, so that `ite++`
  does not overflow.
* `while (true)` in `LAMM` is unrolled under a fuel argument: `none` means that
  the fuel ran out before the loop left through `break`.
* `std::exp`, `std::log`, `std::sqrt` and `arma::median` are parameters
  (`Prims`); the test `norm(v, 2) / std::sqrt(d + 1) <= eps` is written without
  square roots (`normStop`, justified over the reals by `normStop_iff_real`).
  Theorems state which properties of these functions they use, and are
  instantiated over the reals with `Real.exp`, `Real.log` and `Real.sqrt`.
* In the cross-validation, an `Rcpp::Nullable` argument is an `Option`, `nlambda`
  and `ntau` are natural numbers, and the vectors whose length is computed at run
  time (the grids, `mse`, the index sets of `getIndex`) are lists.  A result `none`
  also stands for an error raised by Armadillo (`index_min` of an empty object, an
  index out of range).
-/

namespace ILAMM

/-- An `arma::vec` of length `m`. -/
abbrev Vec (K : Type) (m : Nat) := Fin m → K

/-- An `arma::mat` with `n` rows and `m` columns. -/
abbrev Mat (K : Type) (n m : Nat) := Fin n → Fin m → K

/-- Library functions of the source that an ordered field does not have. -/
structure Prims (K : Type) where
  /-- The function `std::exp`. -/
  exp : K → K
  /-- The function `std::log`. -/
  log : K → K
  /-- The function `std::sqrt`. -/
  sqrt : K → K
  /-- The function `arma::median`. -/
  median : {n : Nat} → Vec K n → K

/-- The design matrix as the caller passes it, together with `itcpIncluded`. -/
inductive Design (K : Type) (n d : Nat) where
  /-- `itcpIncluded = false`: `d` columns, the column of ones is still to be added. -/
  | raw : Mat K n d → Design K n d
  /-- `itcpIncluded = true`: the `d + 1` columns are used as they are. -/
  | included : Mat K n (d + 1) → Design K n d

/-- The list returned by `ncvxReg`. -/
structure FitResult (K : Type) (d : Nat) where
  beta : Vec K (d + 1)
  phi : K
  penalty : String
  lambda : K
  IteTightening : Int

/-- The list returned by `ncvxHuberReg`. -/
structure HuberFitResult (K : Type) (d : Nat) where
  beta : Vec K (d + 1)
  phi : K
  penalty : String
  lambda : K
  tau : K
  IteTightening : Int

/-- The variables of the loop `while (ite <= iteMax) { ite++; LAMM ...; }`. -/
structure LoopState (K : Type) (d : Nat) where
  ite : Int
  beta : Vec K (d + 1)
  betaNew : Vec K (d + 1)
  phi : K

/-- The list returned by `cvNcvxReg`. -/
structure CVResult (K : Type) (d : Nat) where
  beta : Vec K (d + 1)
  penalty : String
  lambdaSeq : List K
  mse : List K
  lambdaMin : K
  nfolds : Int

/-- The list returned by `cvNcvxHuberReg`; `mse` is the matrix, given by its rows
(one row for each `lambda`, one entry for each `tau`). -/
structure CVHuberResult (K : Type) (d : Nat) where
  beta : Vec K (d + 1)
  penalty : String
  lambdaSeq : List K
  tauSeq : List K
  mse : List (List K)
  lambdaMin : K
  tauMin : K
  nfolds : Int

section Definitions

variable {K : Type} [LinearOrderedField K]

/-- Source `sgn` (lines 7-9): `(x > 0) - (x < 0)`. -/
def sgn (x : K) : Int :=
  (if x > 0 then 1 else 0) - (if x < 0 then 1 else 0)

/-- Armadillo `sign` on one entry: `-1`, `0` or `1`. -/
def sign (x : K) : K :=
  if x < 0 then -1 else if x = 0 then 0 else 1

/-- Source `softThresh` (lines 12-14): `sign(x) % max(abs(x) - lambda, zeros)`. -/
def softThresh {m : Nat} (x lambda : Vec K m) : Vec K m :=
  fun i => sign (x i) * max (|x i| - lambda i) 0

/-- The indices `1, ..., d` visited by `for (int i = 1; i < beta.size(); i++)`. -/
def loopIdx (d : Nat) : List (Fin (d + 1)) :=
  (List.finRange d).map Fin.succ

/-- Source `cmptLambda` (lines 17-42). -/
def cmptLambda {d : Nat} (beta : Vec K (d + 1)) (lambda : K) (penalty : String) :
    Vec K (d + 1) :=
  let rst : Vec K (d + 1) := fun _ => 0
  if penalty = "Lasso" then
    let rst : Vec K (d + 1) := fun _ => lambda * 1
    Function.update rst 0 0
  else if penalty = "SCAD" then
    let a : K := 37 / 10
    (loopIdx d).foldl (fun rst i =>
      let abBeta := |beta i|
      if abBeta ≤ lambda then
        Function.update rst i lambda
      else if abBeta ≤ a * lambda then
        Function.update rst i ((a * lambda - abBeta) / (a - 1))
      else rst) rst
  else if penalty = "MCP" then
    let a : K := 3
    (loopIdx d).foldl (fun rst i =>
      let abBeta := |beta i|
      if abBeta ≤ a * lambda then
        Function.update rst i (lambda - abBeta / a)
      else rst) rst
  else rst

/-- Source `loss` (lines 45-62). -/
def loss {n : Nat} (Y Ynew : Vec K n) (lossType : String) (tau : K) : K :=
  let rst : K := 0
  if lossType = "l2" then
    (∑ i, (Y i - Ynew i) ^ 2) / (n : K) / 2
  else if lossType = "Huber" then
    let res : Vec K n := fun i => Y i - Ynew i
    let rst := (List.finRange n).foldl (fun rst i =>
      if |res i| ≤ tau then
        rst + res i * res i / 2
      else
        rst + (tau * |res i| - tau * tau / 2)) rst
    rst / (n : K)
  else rst

/-- The product `X * beta`. -/
def mulVec {n m : Nat} (X : Mat K n m) (beta : Vec K m) : Vec K n :=
  fun i => ∑ j, X i j * beta j

/-- Source `gradLoss` (lines 65-84). -/
def gradLoss {n d : Nat} (X : Mat K n (d + 1)) (Y : Vec K n) (beta : Vec K (d + 1))
    (lossType : String) (tau : K) (interecept : Bool) : Vec K (d + 1) :=
  let res : Vec K n := fun i => Y i - mulVec X beta i
  let rst : Vec K (d + 1) := fun _ => 0
  let rst : Vec K (d + 1) :=
    if lossType = "l2" then
      fun j => -1 * ∑ i, res i * X i j
    else if lossType = "Huber" then
      (List.finRange n).foldl (fun rst i =>
        if |res i| ≤ tau then
          fun j => rst j - res i * X i j
        else
          fun j => rst j - tau * (sgn (res i) : K) * X i j) rst
    else rst
  let rst : Vec K (d + 1) := if !interecept then Function.update rst 0 0 else rst
  fun j => rst j / (n : K)

/-- Source `updateBeta` (lines 87-93). -/
def updateBeta {n d : Nat} (X : Mat K n (d + 1)) (Y : Vec K n) (beta : Vec K (d + 1))
    (phi : K) (Lambda : Vec K (d + 1)) (lossType : String) (tau : K) (intercept : Bool) :
    Vec K (d + 1) :=
  let first : Vec K (d + 1) := fun j => beta j - gradLoss X Y beta lossType tau intercept j / phi
  let second : Vec K (d + 1) := fun j => Lambda j / phi
  softThresh first second

/-- Source `cmptF` (lines 96-99). -/
def cmptF {n d : Nat} (X : Mat K n (d + 1)) (Y : Vec K n) (betaNew : Vec K (d + 1))
    (lossType : String) (tau : K) : K :=
  loss Y (mulVec X betaNew) lossType tau

/-- Source `cmptPsi` (lines 102-110). -/
def cmptPsi {n d : Nat} (X : Mat K n (d + 1)) (Y : Vec K n) (betaNew beta : Vec K (d + 1))
    (phi : K) (lossType : String) (tau : K) (intercept : Bool) : K :=
  let diff : Vec K (d + 1) := fun j => betaNew j - beta j
  loss Y (mulVec X beta) lossType tau
    + (∑ j, gradLoss X Y beta lossType tau intercept j * diff j)
    + phi * (∑ j, diff j * diff j) / 2

/-- Source `LAMM` (lines 113-128); `fuel` bounds the passes through `while (true)`. -/
def LAMM {n d : Nat} (fuel : Nat) (X : Mat K n (d + 1)) (Y : Vec K n) (Lambda : Vec K (d + 1))
    (beta : Vec K (d + 1)) (phi : K) (lossType : String) (tau : K) (gamma : K)
    (interecept : Bool) : Option (Vec K (d + 1) × K) :=
  match fuel with
  | 0 => none
  | fuel + 1 =>
    let phiNew := phi
    let betaNew := updateBeta X Y beta phiNew Lambda lossType tau interecept
    let FVal := cmptF X Y betaNew lossType tau
    let PsiVal := cmptPsi X Y betaNew beta phiNew lossType tau interecept
    if FVal ≤ PsiVal then
      some (betaNew, phiNew)
    else
      LAMM fuel X Y Lambda beta (phiNew * gamma) lossType tau gamma interecept

/-- The test `norm(v, 2) / std::sqrt(d + 1) <= eps`, free of square roots. -/
def normStop {d : Nat} (v : Vec K (d + 1)) (eps : K) : Bool :=
  decide (0 ≤ eps ∧ ∑ j, v j ^ 2 ≤ eps ^ 2 * ((d : K) + 1))

/-- The loop `while (ite <= iteMax) { ite++; LAMM; phi = max(phi0, phi / gamma);
if (norm(betaNew - beta, 2) / sqrt(d + 1) <= eps) break; beta = betaNew; }` that the
source has at lines 196-206, 218-228, 316-326 and 338-348.  The first argument
bounds the number of passes still possible; `none` also stands for a `LAMM`
that found no curvature within `fuel`. -/
def lammLoop {n d : Nat} (fuel : Nat) (X : Mat K n (d + 1)) (Y : Vec K n)
    (Lambda : Vec K (d + 1)) (lossType : String) (tau gamma phi0 eps : K) (iteMax : Int)
    (intercept : Bool) : Nat → LoopState K d → Option (LoopState K d)
  | 0, s => if s.ite ≤ iteMax then none else some s
  | k + 1, s =>
    if s.ite ≤ iteMax then
      let ite := s.ite + 1
      match LAMM fuel X Y Lambda s.beta s.phi lossType tau gamma intercept with
      | none => none
      | some (betaNew, phi) =>
        let phi := max phi0 (phi / gamma)
        if normStop (fun j => betaNew j - s.beta j) eps then
          some ⟨ite, s.beta, betaNew, phi⟩
        else
          lammLoop fuel X Y Lambda lossType tau gamma phi0 eps iteMax intercept k
            ⟨ite, betaNew, betaNew, phi⟩
    else some s

/-- The tightening loop `while (iteT <= iteMax) { ... }` of lines 211-232 and
331-352, on the variables `iteT`, `betaNew`, `phi`. -/
def tightening {n d : Nat} (fuel : Nat) (X : Mat K n (d + 1)) (Y : Vec K n)
    (lambda : K) (penalty : String) (lossType : String) (tau gamma phi0 epsilon_t : K)
    (iteMax : Int) (intercept : Bool) :
    Nat → Int → Vec K (d + 1) → K → Option (Int × Vec K (d + 1) × K)
  | 0, iteT, betaNew, phi => if iteT ≤ iteMax then none else some (iteT, betaNew, phi)
  | k + 1, iteT, betaNew, phi =>
    if iteT ≤ iteMax then
      let iteT := iteT + 1
      let beta := betaNew
      let beta0 := betaNew
      let Lambda := cmptLambda beta lambda penalty
      let phi := phi0
      let ite : Int := 0
      match lammLoop fuel X Y Lambda lossType tau gamma phi0 epsilon_t iteMax intercept
          (iteMax + 1).toNat ⟨ite, beta, betaNew, phi⟩ with
      | none => none
      | some s =>
        if normStop (fun j => s.betaNew j - beta0 j) epsilon_t then
          some (iteT, s.betaNew, s.phi)
        else
          tightening fuel X Y lambda penalty lossType tau gamma phi0 epsilon_t iteMax
            intercept k iteT s.betaNew s.phi
    else some (iteT, betaNew, phi)

/-- Lines 177-181 (and 288-292): the column of ones is put in front of `X` unless
`itcpIncluded`. -/
def Design.matrix {n d : Nat} : Design K n d → Mat K n (d + 1)
  | .raw X => fun i => Fin.cons 1 (X i)
  | .included X => X

/-- Lines 184-189 (and 295-300): the `lambda` used by the fit. -/
def lambdaUsed {n d : Nat} (P : Prims K) (X : Mat K n (d + 1)) (Y : Vec K n) (lambda : K) : K :=
  if lambda ≤ 0 then
    let lambdaMax : K :=
      Finset.univ.sup' Finset.univ_nonempty (fun j : Fin (d + 1) => |∑ i, Y i * X i j|) / (n : K)
    let lambdaMin : K := 1 / 100 * lambdaMax
    P.exp (7 / 10 * P.log lambdaMax + 3 / 10 * P.log lambdaMin)
  else lambda

/-- Lines 190-237 of `ncvxReg` and 310-357 of `ncvxHuberReg`: contraction, then
tightening, for the loss `lossType` with parameter `tau`.  The result is
`(betaNew, phi, iteT)`. -/
def ilamm {n d : Nat} (fuel : Nat) (X : Mat K n (d + 1)) (Y : Vec K n) (lambda : K)
    (penalty : String) (lossType : String) (tau phi0 gamma epsilon_c epsilon_t : K)
    (iteMax : Int) (intercept : Bool) : Option (Vec K (d + 1) × K × Int) :=
  let beta : Vec K (d + 1) := fun _ => 0
  let betaNew : Vec K (d + 1) := fun _ => 0
  let Lambda := cmptLambda beta lambda penalty
  let phi := phi0
  let ite : Int := 0
  match lammLoop fuel X Y Lambda lossType tau gamma phi0 epsilon_c iteMax intercept
      (iteMax + 1).toNat ⟨ite, beta, betaNew, phi⟩ with
  | none => none
  | some s =>
    let iteT : Int := 0
    if penalty ≠ "Lasso" then
      match tightening fuel X Y lambda penalty lossType tau gamma phi0 epsilon_t iteMax
          intercept (iteMax + 1).toNat iteT s.betaNew s.phi with
      | none => none
      | some (iteT, betaNew, phi) => some (betaNew, phi, iteT)
    else some (s.betaNew, s.phi, iteT)

/-- Source `ncvxReg` (lines 172-237). -/
def ncvxReg {n d : Nat} (P : Prims K) (fuel : Nat) (X : Design K n d) (Y : Vec K n)
    (lambda : K) (penalty : String) (phi0 gamma epsilon_c epsilon_t : K) (iteMax : Int)
    (intercept : Bool) : Option (FitResult K d) :=
  let X := X.matrix
  let lambda := lambdaUsed P X Y lambda
  match ilamm fuel X Y lambda penalty "l2" 1 phi0 gamma epsilon_c epsilon_t iteMax intercept with
  | none => none
  | some (betaNew, phi, iteT) => some ⟨betaNew, phi, penalty, lambda, iteT⟩

/-- Lines 301-309 of `ncvxHuberReg`: the `tau` used by the fit. -/
def tauUsed {n d : Nat} (P : Prims K) (fuel : Nat) (X : Mat K n (d + 1)) (Y : Vec K n)
    (lambda tau phi0 gamma epsilon_c epsilon_t : K) (iteMax : Int) (intercept : Bool) :
    Option K :=
  if tau ≤ 0 then
    match ncvxReg P fuel (Design.included X) Y lambda "Lasso" phi0 gamma epsilon_c epsilon_t
        iteMax intercept with
    | none => none
    | some listILAMM =>
      let betaLasso := listILAMM.beta
      let Yhat := mulVec X betaLasso
      let res : Vec K n := fun i => Y i - Yhat i
      let sigmaHat := P.median (fun i => |res i - P.median res|) / (6745 / 10000)
      some (sigmaHat * P.sqrt ((n : K) / P.log ((n : K) * (d : K))))
  else some tau

/-- Source `ncvxHuberReg` (lines 283-357). -/
def ncvxHuberReg {n d : Nat} (P : Prims K) (fuel : Nat) (X : Design K n d) (Y : Vec K n)
    (lambda : K) (penalty : String) (tau phi0 gamma epsilon_c epsilon_t : K) (iteMax : Int)
    (intercept : Bool) : Option (HuberFitResult K d) :=
  let X := X.matrix
  let lambda := lambdaUsed P X Y lambda
  match tauUsed P fuel X Y lambda tau phi0 gamma epsilon_c epsilon_t iteMax intercept with
  | none => none
  | some tau =>
    match ilamm fuel X Y lambda penalty "Huber" tau phi0 gamma epsilon_c epsilon_t iteMax
        intercept with
    | none => none
    | some (betaNew, phi, iteT) => some ⟨betaNew, phi, penalty, lambda, tau, iteT⟩

/-- The test `FVal <= PsiVal` of `LAMM` (line 122) for the candidate computed with
curvature `phi`. -/
def majorizes {n d : Nat} (X : Mat K n (d + 1)) (Y : Vec K n) (Lambda beta : Vec K (d + 1))
    (lossType : String) (tau : K) (interecept : Bool) (phi : K) : Prop :=
  cmptF X Y (updateBeta X Y beta phi Lambda lossType tau interecept) lossType tau
    ≤ cmptPsi X Y (updateBeta X Y beta phi Lambda lossType tau interecept) beta phi
        lossType tau interecept

/-- Source `getIndex` (lines 360-363): the entries of `0, ..., n - 1` in `[low, up]`. -/
def getIndex (n : Nat) (low up : Int) : List (Fin n) :=
  (List.finRange n).filter (fun seq => decide (low ≤ (seq.val : Int) ∧ (seq.val : Int) ≤ up))

/-- Source `getIndexComp` (lines 366-369): the entries of `0, ..., n - 1` outside
`[low, up]`. -/
def getIndexComp (n : Nat) (low up : Int) : List (Fin n) :=
  (List.finRange n).filter (fun seq => decide ((seq.val : Int) < low ∨ up < (seq.val : Int)))

/-- Armadillo `X.rows(idx)` (also for a vector). -/
def rows {α : Type} {n : Nat} (X : Fin n → α) (idx : List (Fin n)) : Fin idx.length → α :=
  fun k => X (idx.get k)

/-- Armadillo `YPred.rows(idx) = v`. -/
def setRows {n : Nat} (YPred : Vec K n) (idx : List (Fin n)) (v : Vec K idx.length) : Vec K n :=
  (List.finRange idx.length).foldl (fun YPred k => Function.update YPred (idx.get k) (v k)) YPred

/-- The scan of Armadillo `index_min`: `i` is the index of the next entry, `best`
and `bestVal` are the index and the value of the least entry so far; a later entry
replaces it only when strictly smaller. -/
def indexMinLoop : List K → Nat → Nat → K → Nat
  | [], _, best, _ => best
  | x :: xs, i, best, bestVal =>
    if x < bestVal then indexMinLoop xs (i + 1) i x else indexMinLoop xs (i + 1) best bestVal

/-- Armadillo `index_min`: the index of the first least entry; `none` stands for the
error that Armadillo raises on an empty object. -/
def index_min : List K → Option Nat
  | [] => none
  | x :: xs => some (indexMinLoop xs 1 0 x)

/-- Armadillo `linspace(start, end, N)`. -/
def linspace (start stop : K) (N : Nat) : List K :=
  if 2 ≤ N then
    let delta := (stop - start) / ((N : K) - 1)
    (List.range (N - 1)).map (fun (i : Nat) => start + (i : K) * delta) ++ [stop]
  else if N = 1 then [stop]
  else []

/-- Lines 445-454 of `cvNcvxReg` (and 553-562 of `cvNcvxHuberReg`): the grid
`lambdaSeq`. -/
def lambdaGrid {n d : Nat} (P : Prims K) (X : Mat K n (d + 1)) (Y : Vec K n)
    (lSeq : Option (List K)) (nlambda : Nat) : List K :=
  match lSeq with
  | some lSeq => lSeq
  | none =>
    let lambdaMax : K :=
      Finset.univ.sup' Finset.univ_nonempty (fun j : Fin (d + 1) => |∑ i, Y i * X i j|) / (n : K)
    let lambdaMin : K := 1 / 100 * lambdaMax
    (linspace (P.log lambdaMin) (P.log lambdaMax) nlambda).map P.exp

/-- Lines 455-458 (and 577-580): the number of folds after the cap. -/
def foldsUsed (nfolds : Int) (n : Nat) : Int :=
  if nfolds > 10 ∨ nfolds > (n : Int) then
    if (n : Int) < 10 then (n : Int) else 10
  else nfolds

/-- Line 465 (and 588): `low = j * size`. -/
def foldLow (size : Int) (j : Nat) : Int :=
  (j : Int) * size

/-- Line 466 (and 589): `up = (j == nfolds - 1) ? (n - 1) : ((j + 1) * size - 1)`. -/
def foldUp (n : Nat) (nfolds size : Int) (j : Nat) : Int :=
  if (j : Int) = nfolds - 1 then (n : Int) - 1 else ((j : Int) + 1) * size - 1

/-- The loop over the folds, lines 464-473 of `cvNcvxReg` (and 587-597 of
`cvNcvxHuberReg`), on the variable `YPred`; the list holds the values of `j` still
to come.  `fit` stands for the call of `ncvxReg` (of `ncvxHuberReg`) on the rows
outside the fold, and gives its `beta`. -/
def cvFolds {n d : Nat} (fit : (m : Nat) → Mat K m (d + 1) → Vec K m → Option (Vec K (d + 1)))
    (X : Mat K n (d + 1)) (Y : Vec K n) (nfolds size : Int) :
    List Nat → Vec K n → Option (Vec K n)
  | [], YPred => some YPred
  | j :: js, YPred =>
    let low := foldLow size j
    let up := foldUp n nfolds size j
    let idx := getIndex n low up
    let idxComp := getIndexComp n low up
    match fit idxComp.length (rows X idxComp) (rows Y idxComp) with
    | none => none
    | some betaHat =>
      cvFolds fit X Y nfolds size js (setRows YPred idx (mulVec (rows X idx) betaHat))

/-- The loop over a grid, lines 463-475 of `cvNcvxReg` (and, for one `lambda`, the
loop over `tau` at lines 586-599 of `cvNcvxHuberReg`): for each grid point the
folds, then the score `norm(Y - YPred, 2)`.  The result is the list of scores and
the final `YPred`. -/
def cvGrid {n d : Nat} (P : Prims K)
    (fit : K → (m : Nat) → Mat K m (d + 1) → Vec K m → Option (Vec K (d + 1)))
    (X : Mat K n (d + 1)) (Y : Vec K n) (nfolds size : Int) :
    List K → Vec K n → Option (List K × Vec K n)
  | [], YPred => some ([], YPred)
  | g :: gs, YPred =>
    match cvFolds (fit g) X Y nfolds size (List.range nfolds.toNat) YPred with
    | none => none
    | some YPred =>
      let mse_i := P.sqrt (∑ r, (Y r - YPred r) ^ 2)
      match cvGrid P fit X Y nfolds size gs YPred with
      | none => none
      | some (mse, YPred) => some (mse_i :: mse, YPred)

/-- Source `cvNcvxReg` (lines 433-483).  `nlambda` is a natural number. -/
def cvNcvxReg {n d : Nat} (P : Prims K) (fuel : Nat) (X : Design K n d) (Y : Vec K n)
    (lSeq : Option (List K)) (nlambda : Nat) (penalty : String)
    (phi0 gamma epsilon_c epsilon_t : K) (iteMax : Int) (nfolds : Int) (intercept : Bool) :
    Option (CVResult K d) :=
  let X := X.matrix
  let lambdaSeq := lambdaGrid P X Y lSeq nlambda
  let nfolds := foldsUsed nfolds n
  let size := Int.tdiv (n : Int) nfolds
  let YPred : Vec K n := fun _ => 0
  match cvGrid P (fun lambda _ X' Y' =>
      (ncvxReg P fuel (Design.included X') Y' lambda penalty phi0 gamma epsilon_c epsilon_t
        iteMax intercept).map (fun listILAMM => listILAMM.beta))
      X Y nfolds size lambdaSeq YPred with
  | none => none
  | some (mse, _) =>
    match index_min mse with
    | none => none
    | some cvIdx =>
      match lambdaSeq[cvIdx]? with
      | none => none
      | some lambdaMin =>
        match ncvxReg P fuel (Design.included X) Y lambdaMin penalty phi0 gamma epsilon_c
            epsilon_t iteMax intercept with
        | none => none
        | some listILAMM =>
          some ⟨listILAMM.beta, penalty, lambdaSeq, mse, lambdaMin, nfolds⟩

/-- The `int` value of `1 << i`, wrapped to 32 bits (it is `2 ^ i` for `i <= 30`). -/
def shl1 (i : Nat) : Int :=
  ((2 : Int) ^ i + 2 ^ 31) % 2 ^ 32 - 2 ^ 31

/-- Source `tauConst` (lines 372-384): the values written to `rst(0)`, `rst(1)`, ...,
in this order. -/
def tauConst (n : Nat) : List K :=
  let stop : Int := (n : Int) / 2
  let start : Int := if (n : Int) = stop * 2 then stop - 1 else stop
  (((List.range start.toNat).reverse.map (fun i => i + 1)).map
      (fun i => (1 : K) / ((shl1 i : Int) : K)))
    ++ (List.range (stop + 1).toNat).map (fun i => ((shl1 i : Int) : K))

/-- Lines 563-576 of `cvNcvxHuberReg`: the grid `tauSeq`. -/
def tauGrid {n d : Nat} (P : Prims K) (fuel : Nat) (X : Mat K n (d + 1)) (Y : Vec K n)
    (lSeq : Option (List K)) (nlambda : Nat) (tSeq : Option (List K)) (ntau : Nat)
    (phi0 gamma epsilon_c epsilon_t : K) (iteMax : Int) (nfolds : Int) (intercept : Bool) :
    Option (List K) :=
  match tSeq with
  | some tSeq => some tSeq
  | none =>
    match cvNcvxReg P fuel (Design.included X) Y lSeq nlambda "Lasso" phi0 gamma epsilon_c
        epsilon_t iteMax nfolds intercept with
    | none => none
    | some listILAMM =>
      let betaLasso := listILAMM.beta
      let Yhat := mulVec X betaLasso
      let res : Vec K n := fun i => Y i - Yhat i
      let sigmaHat := P.median (fun i => |res i - P.median res|) / (6745 / 10000)
      let tauCon : List K := tauConst ntau
      some (tauCon.map
        (fun c => sigmaHat * P.sqrt ((n : K) / P.log ((n : K) * (d : K))) * c))

/-- The loops over `lambda` and `tau`, lines 585-600 of `cvNcvxHuberReg`: the rows of
`mse` and the final `YPred`. -/
def cvGrid2 {n d : Nat} (P : Prims K)
    (fit : K → K → (m : Nat) → Mat K m (d + 1) → Vec K m → Option (Vec K (d + 1)))
    (X : Mat K n (d + 1)) (Y : Vec K n) (nfolds size : Int) (tauSeq : List K) :
    List K → Vec K n → Option (List (List K) × Vec K n)
  | [], YPred => some ([], YPred)
  | lambda :: ls, YPred =>
    match cvGrid P (fit lambda) X Y nfolds size tauSeq YPred with
    | none => none
    | some (row, YPred) =>
      match cvGrid2 P fit X Y nfolds size tauSeq ls YPred with
      | none => none
      | some (mse, YPred) => some (row :: mse, YPred)

/-- The entry `mse(i, k)` of a matrix given by its rows. -/
def entry (mse : List (List K)) (i k : Nat) : K :=
  (mse.getD i []).getD k 0

/-- The matrix `mse` as Armadillo stores it, column by column: the entry `(i, k)`
is at `i + k * nlambda`. -/
def flatten (mse : List (List K)) (nlambda ntau : Nat) : List K :=
  (List.range (nlambda * ntau)).map (fun c => entry mse (c % nlambda) (c / nlambda))

/-- Line 602: `idxLambda = cvIdx - (cvIdx / nlambda) * nlambda`. -/
def idxLambda (cvIdx nlambda : Nat) : Nat :=
  cvIdx - (cvIdx / nlambda) * nlambda

/-- Line 603: `idxTau = cvIdx / nlambda`. -/
def idxTau (cvIdx nlambda : Nat) : Nat :=
  cvIdx / nlambda

/-- Lines 556 and 566: the size of a grid, that of the sequence passed by the caller
(`nlambda = lambdaSeq.size()`, `ntau = tauSeq.size()`) or else the number asked for. -/
def gridSize (seq : Option (List K)) (k : Nat) : Nat :=
  match seq with
  | some seq => seq.length
  | none => k

/-- Source `cvNcvxHuberReg` (lines 538-611).  `nlambda` and `ntau` are natural
numbers. -/
def cvNcvxHuberReg {n d : Nat} (P : Prims K) (fuel : Nat) (X : Design K n d) (Y : Vec K n)
    (lSeq : Option (List K)) (nlambda : Nat) (penalty : String) (tSeq : Option (List K))
    (ntau : Nat) (phi0 gamma epsilon_c epsilon_t : K) (iteMax : Int) (nfolds : Int)
    (intercept : Bool) : Option (CVHuberResult K d) :=
  let X := X.matrix
  let lambdaSeq := lambdaGrid P X Y lSeq nlambda
  let nlambda := gridSize lSeq nlambda
  match tauGrid P fuel X Y lSeq nlambda tSeq ntau phi0 gamma epsilon_c epsilon_t iteMax nfolds
      intercept with
  | none => none
  | some tauSeq =>
    let ntau := gridSize tSeq ntau
    let nfolds := foldsUsed nfolds n
    let size := Int.tdiv (n : Int) nfolds
    let YPred : Vec K n := fun _ => 0
    match cvGrid2 P (fun lambda tau _ X' Y' =>
        (ncvxHuberReg P fuel (Design.included X') Y' lambda penalty tau phi0 gamma epsilon_c
          epsilon_t iteMax intercept).map (fun listILAMM => listILAMM.beta))
        X Y nfolds size tauSeq lambdaSeq YPred with
    | none => none
    | some (mse, _) =>
      match index_min (flatten mse nlambda ntau) with
      | none => none
      | some cvIdx =>
        match lambdaSeq[idxLambda cvIdx nlambda]?, tauSeq[idxTau cvIdx nlambda]? with
        | some lambdaMin, some tauMin =>
          match ncvxHuberReg P fuel (Design.included X) Y lambdaMin penalty tauMin phi0 gamma
              epsilon_c epsilon_t iteMax intercept with
          | none => none
          | some listILAMM =>
            some ⟨listILAMM.beta, penalty, lambdaSeq, tauSeq, mse, lambdaMin, tauMin, nfolds⟩
        | _, _ => none

/-- The values that `phi` takes in the loop around `LAMM` (see `lammLoop`), in the
order of the run: in each pass the value passed to `LAMM`, the value that `LAMM`
returns (`phi = listLAMM["phi"]`) and the value after
`phi = std::max(phi0, phi / gamma)`. -/
def lammLoopPhis {n d : Nat} (fuel : Nat) (X : Mat K n (d + 1)) (Y : Vec K n)
    (Lambda : Vec K (d + 1)) (lossType : String) (tau gamma phi0 eps : K) (iteMax : Int)
    (intercept : Bool) : Nat → LoopState K d → List K
  | 0, _ => []
  | k + 1, s =>
    if s.ite ≤ iteMax then
      match LAMM fuel X Y Lambda s.beta s.phi lossType tau gamma intercept with
      | none => [s.phi]
      | some (betaNew, phi) =>
        s.phi :: phi :: max phi0 (phi / gamma) ::
          (if normStop (fun j => betaNew j - s.beta j) eps then []
          else lammLoopPhis fuel X Y Lambda lossType tau gamma phi0 eps iteMax intercept k
            ⟨s.ite + 1, betaNew, betaNew, max phi0 (phi / gamma)⟩)
    else []

/-- The values that `phi` takes in the tightening loop (see `tightening`): in each
round the value of `phi = phi0`, then the values of the inner loop. -/
def tighteningPhis {n d : Nat} (fuel : Nat) (X : Mat K n (d + 1)) (Y : Vec K n)
    (lambda : K) (penalty : String) (lossType : String) (tau gamma phi0 epsilon_t : K)
    (iteMax : Int) (intercept : Bool) : Nat → Int → Vec K (d + 1) → List K
  | 0, _, _ => []
  | k + 1, iteT, betaNew =>
    if iteT ≤ iteMax then
      phi0 :: (lammLoopPhis fuel X Y (cmptLambda betaNew lambda penalty) lossType tau gamma phi0
          epsilon_t iteMax intercept (iteMax + 1).toNat ⟨0, betaNew, betaNew, phi0⟩
        ++ match lammLoop fuel X Y (cmptLambda betaNew lambda penalty) lossType tau gamma phi0
            epsilon_t iteMax intercept (iteMax + 1).toNat ⟨0, betaNew, betaNew, phi0⟩ with
          | none => []
          | some s =>
            if normStop (fun j => s.betaNew j - betaNew j) epsilon_t then []
            else tighteningPhis fuel X Y lambda penalty lossType tau gamma phi0 epsilon_t
              iteMax intercept k (iteT + 1) s.betaNew)
    else []

/-- The values that `phi` takes in a run of `ilamm`, that is of lines 194-233 of
`ncvxReg` and of lines 314-353 of `ncvxHuberReg`. -/
def ilammPhis {n d : Nat} (fuel : Nat) (X : Mat K n (d + 1)) (Y : Vec K n) (lambda : K)
    (penalty : String) (lossType : String) (tau phi0 gamma epsilon_c epsilon_t : K)
    (iteMax : Int) (intercept : Bool) : List K :=
  phi0 :: (lammLoopPhis fuel X Y (cmptLambda (fun _ => 0) lambda penalty) lossType tau gamma
      phi0 epsilon_c iteMax intercept (iteMax + 1).toNat ⟨0, fun _ => 0, fun _ => 0, phi0⟩
    ++ match lammLoop fuel X Y (cmptLambda (fun _ => 0) lambda penalty) lossType tau gamma phi0
        epsilon_c iteMax intercept (iteMax + 1).toNat ⟨0, fun _ => 0, fun _ => 0, phi0⟩ with
      | none => []
      | some s =>
        if penalty ≠ "Lasso" then
          tighteningPhis fuel X Y lambda penalty lossType tau gamma phi0 epsilon_t iteMax
            intercept (iteMax + 1).toNat 0 s.betaNew
        else [])

/-- Line 185 (and 296, 450, 558): `lambdaMax = max(abs(Y.t() * X)) / n`. -/
def lambdaMax {n d : Nat} (X : Mat K n (d + 1)) (Y : Vec K n) : K :=
  Finset.univ.sup' Finset.univ_nonempty (fun j : Fin (d + 1) => |∑ i, Y i * X i j|) / (n : K)

/-- Example data: one sample, intercept column and one variable with value 2. -/
def exX : Mat ℚ 1 2 := ![![1, 2]]

/-- Example data: one sample, intercept column and one variable with value 1. -/
def exX1 : Mat ℚ 1 2 := ![![1, 1]]

/-- Example data: the response of the one sample. -/
def exY : Vec ℚ 1 := ![1]

/-- Example data: stand-ins for the library functions, for runs that call none. -/
def exPrims : Prims ℚ :=
  { exp := fun x => x, log := fun x => x, sqrt := fun x => x, median := fun _ => 0 }

end Definitions

section Lemmas

variable {K : Type} [LinearOrderedField K]

theorem sign_eq_sgn (x : K) : sign x = ((sgn x : Int) : K) := by
  unfold sign sgn
  rcases lt_trichotomy x 0 with h | h | h
  · simp [h, not_lt.mpr h.le]
  · simp [h]
  · simp [h, not_lt.mpr h.le, h.ne']

theorem abs_sign_le_one (x : K) : |sign x| ≤ 1 := by
  unfold sign
  split_ifs <;> simp

theorem mem_loopIdx {d : Nat} (j : Fin (d + 1)) : j ∈ loopIdx d ↔ j ≠ 0 := by
  unfold loopIdx
  constructor
  · intro h
    obtain ⟨i, -, rfl⟩ := List.mem_map.mp h
    exact Fin.succ_ne_zero i
  · intro h
    obtain ⟨i, rfl⟩ := Fin.exists_succ_eq.mpr h
    exact List.mem_map.mpr ⟨i, List.mem_finRange i, rfl⟩

theorem nodup_loopIdx (d : Nat) : (loopIdx d).Nodup :=
  (List.nodup_finRange d).map (Fin.succ_injective d)

/-- A loop whose pass for index `i` rewrites entry `i` only, as a function of
that entry, computes entry by entry. -/
theorem foldl_update_apply {α : Type} {m : Nat} (f : Vec α m → Fin m → Vec α m)
    (h : Fin m → α → α) (hf : ∀ rst i, f rst i = Function.update rst i (h i (rst i))) :
    ∀ (l : List (Fin m)), l.Nodup → ∀ (init : Vec α m) (j : Fin m),
      l.foldl f init j = if j ∈ l then h j (init j) else init j := by
  intro l
  induction l with
  | nil => intro _ init j; simp
  | cons a l ih =>
    intro hl init j
    obtain ⟨ha, hl'⟩ := List.nodup_cons.mp hl
    rw [List.foldl_cons, ih hl', hf]
    by_cases hja : j = a
    · subst hja
      simp [ha]
    · by_cases hjl : j ∈ l
      · simp [hjl, hja, Function.update_noteq hja]
      · simp [hjl, hja, Function.update_noteq hja]

theorem cmptLambda_zero {d : Nat} (beta : Vec K (d + 1)) (lambda : K) (penalty : String) :
    cmptLambda beta lambda penalty 0 = 0 := by
  have h0 : (0 : Fin (d + 1)) ∉ loopIdx d := fun h => (mem_loopIdx 0).mp h rfl
  unfold cmptLambda
  split_ifs
  · simp
  · simp only []
    rw [foldl_update_apply _
      (fun i x => if |beta i| ≤ lambda then lambda
        else if |beta i| ≤ 37 / 10 * lambda then (37 / 10 * lambda - |beta i|) / (37 / 10 - 1)
        else x) _ _ (nodup_loopIdx d)]
    · simp [h0]
    · intro rst i
      split_ifs <;> simp [*]
  · simp only []
    rw [foldl_update_apply _
      (fun i x => if |beta i| ≤ 3 * lambda then lambda - |beta i| / 3 else x) _ _
      (nodup_loopIdx d)]
    · simp [h0]
    · intro rst i
      split_ifs <;> simp [*]
  · rfl

theorem cmptLambda_Lasso_apply {d : Nat} (beta : Vec K (d + 1)) (lambda : K)
    (i : Fin (d + 1)) : cmptLambda beta lambda "Lasso" i = if i = 0 then 0 else lambda := by
  unfold cmptLambda
  by_cases hi : i = 0
  · simp [hi]
  · simp [hi, Function.update_noteq hi]

theorem cmptLambda_SCAD_apply {d : Nat} (beta : Vec K (d + 1)) (lambda : K)
    (i : Fin (d + 1)) (hi : i ≠ 0) :
    cmptLambda beta lambda "SCAD" i =
      if |beta i| ≤ lambda then lambda
      else if |beta i| ≤ 37 / 10 * lambda then (37 / 10 * lambda - |beta i|) / (37 / 10 - 1)
      else 0 := by
  have hi' : i ∈ loopIdx d := (mem_loopIdx i).mpr hi
  unfold cmptLambda
  rw [if_neg (by decide), if_pos rfl]
  simp only []
  rw [foldl_update_apply _
    (fun i x => if |beta i| ≤ lambda then lambda
      else if |beta i| ≤ 37 / 10 * lambda then (37 / 10 * lambda - |beta i|) / (37 / 10 - 1)
      else x) _ _ (nodup_loopIdx d)]
  · simp [hi']
  · intro rst i
    split_ifs <;> simp [*]

theorem cmptLambda_MCP_apply {d : Nat} (beta : Vec K (d + 1)) (lambda : K)
    (i : Fin (d + 1)) (hi : i ≠ 0) :
    cmptLambda beta lambda "MCP" i =
      if |beta i| ≤ 3 * lambda then lambda - |beta i| / 3 else 0 := by
  have hi' : i ∈ loopIdx d := (mem_loopIdx i).mpr hi
  unfold cmptLambda
  rw [if_neg (by decide), if_neg (by decide), if_pos rfl]
  simp only []
  rw [foldl_update_apply _
    (fun i x => if |beta i| ≤ 3 * lambda then lambda - |beta i| / 3 else x) _ _
    (nodup_loopIdx d)]
  · simp [hi']
  · intro rst i
    split_ifs <;> simp [*]

theorem sign_mul_abs (x : K) : sign x * |x| = x := by
  unfold sign
  rcases lt_trichotomy x 0 with h | h | h
  · simp [h, abs_of_neg h]
  · simp [h]
  · simp [not_lt.mpr h.le, h.ne', abs_of_pos h]

theorem gradLoss_zero {n d : Nat} (X : Mat K n (d + 1)) (Y : Vec K n) (beta : Vec K (d + 1))
    (lossType : String) (tau : K) : gradLoss X Y beta lossType tau false 0 = 0 := by
  simp [gradLoss]

/-- With the intercept frozen and no weight on it, `updateBeta` keeps entry 0. -/
theorem updateBeta_zero {n d : Nat} (X : Mat K n (d + 1)) (Y : Vec K n)
    (beta Lambda : Vec K (d + 1)) (phi : K) (lossType : String) (tau : K)
    (hL : Lambda 0 = 0) : updateBeta X Y beta phi Lambda lossType tau false 0 = beta 0 := by
  unfold updateBeta softThresh
  simp only [gradLoss_zero, hL, zero_div, sub_zero]
  rw [max_eq_left (abs_nonneg _), sign_mul_abs]

theorem LAMM_succ {n d : Nat} (fuel : Nat) (X : Mat K n (d + 1)) (Y : Vec K n)
    (Lambda beta : Vec K (d + 1)) (phi : K) (lossType : String) (tau gamma : K) (ic : Bool) :
    LAMM (fuel + 1) X Y Lambda beta phi lossType tau gamma ic =
      if cmptF X Y (updateBeta X Y beta phi Lambda lossType tau ic) lossType tau
          ≤ cmptPsi X Y (updateBeta X Y beta phi Lambda lossType tau ic) beta phi lossType tau ic
      then some (updateBeta X Y beta phi Lambda lossType tau ic, phi)
      else LAMM fuel X Y Lambda beta (phi * gamma) lossType tau gamma ic := by
  rw [LAMM]

/-- What a returning `LAMM` returns: the first curvature `phi * gamma ^ k` whose
candidate passes the test, with its candidate. -/
theorem LAMM_some {n d : Nat} (X : Mat K n (d + 1)) (Y : Vec K n)
    (Lambda beta : Vec K (d + 1)) (lossType : String) (tau gamma : K) (ic : Bool) :
    ∀ (fuel : Nat) (phi : K) (r : Vec K (d + 1) × K),
      LAMM fuel X Y Lambda beta phi lossType tau gamma ic = some r →
      ∃ k, k < fuel ∧ r.2 = phi * gamma ^ k ∧
        r.1 = updateBeta X Y beta r.2 Lambda lossType tau ic ∧
        majorizes X Y Lambda beta lossType tau ic (phi * gamma ^ k) ∧
        ∀ j, j < k → ¬ majorizes X Y Lambda beta lossType tau ic (phi * gamma ^ j) := by
  intro fuel
  induction fuel with
  | zero => intro phi r h; simp [LAMM] at h
  | succ fuel ih =>
    intro phi r h
    rw [LAMM_succ] at h
    split_ifs at h with hc
    · refine ⟨0, Nat.succ_pos _, ?_, ?_, ?_, ?_⟩
      · simp [← Option.some.inj h]
      · simp [← Option.some.inj h]
      · simpa [majorizes] using hc
      · intro j hj; exact absurd hj (Nat.not_lt_zero j)
    · obtain ⟨k, hk, h2, h1, hm, hmin⟩ := ih (phi * gamma) r h
      refine ⟨k + 1, Nat.succ_lt_succ hk, ?_, h1, ?_, ?_⟩
      · rw [h2, pow_succ]; ring
      · rw [pow_succ]; rw [show phi * (gamma ^ k * gamma) = phi * gamma * gamma ^ k by ring]
        exact hm
      · intro j hj
        cases j with
        | zero => simpa [majorizes] using hc
        | succ j =>
          rw [pow_succ, show phi * (gamma ^ j * gamma) = phi * gamma * gamma ^ j by ring]
          exact hmin j (Nat.lt_of_succ_lt_succ hj)

/-- Enough fuel: if some curvature `phi * gamma ^ k` passes the test, `LAMM`
returns as soon as `k < fuel`. -/
theorem LAMM_isSome {n d : Nat} (X : Mat K n (d + 1)) (Y : Vec K n)
    (Lambda beta : Vec K (d + 1)) (lossType : String) (tau gamma : K) (ic : Bool) :
    ∀ (k : Nat) (phi : K), majorizes X Y Lambda beta lossType tau ic (phi * gamma ^ k) →
      ∀ fuel, k < fuel → ∃ r, LAMM fuel X Y Lambda beta phi lossType tau gamma ic = some r := by
  intro k
  induction k with
  | zero =>
    intro phi hm fuel hf
    obtain ⟨f, rfl⟩ := Nat.exists_eq_succ_of_ne_zero (Nat.pos_iff_ne_zero.mp hf)
    rw [LAMM_succ]
    rw [pow_zero, mul_one] at hm
    exact ⟨_, if_pos hm⟩
  | succ k ih =>
    intro phi hm fuel hf
    obtain ⟨f, rfl⟩ := Nat.exists_eq_succ_of_ne_zero
      (Nat.pos_iff_ne_zero.mp (lt_of_le_of_lt (Nat.zero_le _) hf))
    rw [LAMM_succ]
    split_ifs with hc
    · exact ⟨_, rfl⟩
    · rw [pow_succ, show phi * (gamma ^ k * gamma) = phi * gamma * gamma ^ k by ring] at hm
      exact ih (phi * gamma) hm f (Nat.lt_of_succ_lt_succ hf)

/-- The inner product of the `l2` gradient with a step that leaves a frozen
intercept alone. -/
theorem gradLoss_l2_dot {n d : Nat} (X : Mat K n (d + 1)) (Y : Vec K n)
    (beta diff : Vec K (d + 1)) (tau : K) (ic : Bool) (h0 : ic = false → diff 0 = 0) :
    ∑ j, gradLoss X Y beta "l2" tau ic j * diff j
      = -(∑ i, (Y i - mulVec X beta i) * mulVec X diff i) / (n : K) := by
  have hswap : ∑ j, (∑ i, (Y i - mulVec X beta i) * X i j) * diff j
      = ∑ i, (Y i - mulVec X beta i) * mulVec X diff i := by
    simp only [mulVec, Finset.sum_mul, Finset.mul_sum]
    rw [Finset.sum_comm]
    refine Finset.sum_congr rfl fun i _ => Finset.sum_congr rfl fun j _ => ?_
    ring
  have hterm : ∀ j, gradLoss X Y beta "l2" tau ic j * diff j
      = -((∑ i, (Y i - mulVec X beta i) * X i j) * diff j) / (n : K) := by
    intro j
    cases ic with
    | true => simp [gradLoss]; ring
    | false =>
      by_cases hj : j = 0
      · subst hj
        simp [gradLoss, h0 rfl]
      · simp [gradLoss, Function.update_noteq hj]; ring
  rw [Finset.sum_congr rfl fun j _ => hterm j, ← Finset.sum_div, Finset.sum_neg_distrib, hswap]

/-- For the squared-error loss the gap between `cmptPsi` and `cmptF` is the
curvature term minus the quadratic form of `X`. -/
theorem cmptPsi_sub_cmptF_l2 {n d : Nat} (X : Mat K n (d + 1)) (Y : Vec K n)
    (betaNew beta : Vec K (d + 1)) (phi tau : K) (ic : Bool)
    (h0 : ic = false → betaNew 0 = beta 0) :
    cmptPsi X Y betaNew beta phi "l2" tau ic - cmptF X Y betaNew "l2" tau
      = phi * (∑ j, (betaNew j - beta j) ^ 2) / 2
        - (∑ i, (mulVec X (fun j => betaNew j - beta j) i) ^ 2) / (n : K) / 2 := by
  have hdot := gradLoss_l2_dot X Y beta (fun j => betaNew j - beta j) tau ic
    (fun h => by simp [h0 h])
  have hres : ∀ i, Y i - mulVec X betaNew i
      = (Y i - mulVec X beta i) - mulVec X (fun j => betaNew j - beta j) i := by
    intro i
    simp only [mulVec, mul_sub, Finset.sum_sub_distrib]
    ring
  have hsq : ∑ i, (Y i - mulVec X betaNew i) ^ 2
      = ∑ i, (Y i - mulVec X beta i) ^ 2
        - 2 * ∑ i, (Y i - mulVec X beta i) * mulVec X (fun j => betaNew j - beta j) i
        + ∑ i, (mulVec X (fun j => betaNew j - beta j) i) ^ 2 := by
    rw [Finset.mul_sum, ← Finset.sum_sub_distrib, ← Finset.sum_add_distrib]
    refine Finset.sum_congr rfl fun i _ => ?_
    rw [hres i]; ring
  have hdd : ∑ j, (betaNew j - beta j) * (betaNew j - beta j)
      = ∑ j, (betaNew j - beta j) ^ 2 :=
    Finset.sum_congr rfl fun j _ => (sq _).symm
  unfold cmptPsi cmptF
  simp only [loss, if_true, hdot, hsq, hdd]
  ring

/-- Cauchy-Schwarz, row by row: `|X v|^2 <= |X|_F^2 |v|^2`. -/
theorem sum_mulVec_sq_le {n m : Nat} (X : Mat K n m) (v : Vec K m) :
    ∑ i, (mulVec X v i) ^ 2 ≤ (∑ i, ∑ j, X i j ^ 2) * ∑ j, v j ^ 2 := by
  rw [Finset.sum_mul]
  exact Finset.sum_le_sum fun i _ => Finset.sum_mul_sq_le_sq_mul_sq Finset.univ (X i) v

/-- A curvature of at least `|X|_F^2 / n` passes the test of `LAMM` for the
squared-error loss. -/
theorem majorizes_l2_of_le {n d : Nat} (X : Mat K n (d + 1)) (Y : Vec K n)
    (Lambda beta : Vec K (d + 1)) (tau : K) (ic : Bool) (phi : K)
    (hL : ic = false → Lambda 0 = 0) (hphi : (∑ i, ∑ j, X i j ^ 2) / (n : K) ≤ phi) :
    majorizes X Y Lambda beta "l2" tau ic phi := by
  have h0 : ic = false → updateBeta X Y beta phi Lambda "l2" tau ic 0 = beta 0 := by
    intro h; subst h; exact updateBeta_zero X Y beta Lambda phi "l2" tau (hL rfl)
  have hgap := cmptPsi_sub_cmptF_l2 X Y (updateBeta X Y beta phi Lambda "l2" tau ic) beta
    phi tau ic h0
  have hcs := sum_mulVec_sq_le X (fun j => updateBeta X Y beta phi Lambda "l2" tau ic j - beta j)
  have hD : 0 ≤ ∑ j, (updateBeta X Y beta phi Lambda "l2" tau ic j - beta j) ^ 2 :=
    Finset.sum_nonneg fun j _ => sq_nonneg _
  have hn : (0 : K) ≤ (n : K) := Nat.cast_nonneg n
  have h1 : (∑ i, (mulVec X (fun j => updateBeta X Y beta phi Lambda "l2" tau ic j - beta j) i) ^ 2)
      / (n : K) ≤ phi * ∑ j, (updateBeta X Y beta phi Lambda "l2" tau ic j - beta j) ^ 2 := by
    calc _ ≤ ((∑ i, ∑ j, X i j ^ 2) * ∑ j,
              (updateBeta X Y beta phi Lambda "l2" tau ic j - beta j) ^ 2) / (n : K) :=
            div_le_div_of_nonneg_right hcs hn
      _ = (∑ i, ∑ j, X i j ^ 2) / (n : K) * ∑ j,
              (updateBeta X Y beta phi Lambda "l2" tau ic j - beta j) ^ 2 := by ring
      _ ≤ _ := mul_le_mul_of_nonneg_right hphi hD
  unfold majorizes
  linarith

/-- Some power of `gamma > 1` lifts `phi > 0` above any bound. -/
theorem exists_pow_curvature [Archimedean K] (L phi gamma : K) (hphi : 0 < phi)
    (hgamma : 1 < gamma) : ∃ k : Nat, L ≤ phi * gamma ^ k := by
  obtain ⟨k, hk⟩ := pow_unbounded_of_one_lt (L / phi) hgamma
  exact ⟨k, by rw [div_lt_iff₀ hphi] at hk; linarith⟩

/-- Invariants of the loop around `LAMM`: a property that holds on entry and
that every pass re-establishes (on both ways out of the pass) holds on exit. -/
theorem lammLoop_induct {n d : Nat} (fuel : Nat) (X : Mat K n (d + 1)) (Y : Vec K n)
    (Lambda : Vec K (d + 1)) (lossType : String) (tau gamma phi0 eps : K) (iteMax : Int)
    (ic : Bool) (P : LoopState K d → Prop)
    (hstep : ∀ (s : LoopState K d) (r : Vec K (d + 1) × K), P s → s.ite ≤ iteMax →
      LAMM fuel X Y Lambda s.beta s.phi lossType tau gamma ic = some r →
      P ⟨s.ite + 1, s.beta, r.1, max phi0 (r.2 / gamma)⟩ ∧
      P ⟨s.ite + 1, r.1, r.1, max phi0 (r.2 / gamma)⟩) :
    ∀ (k : Nat) (s s' : LoopState K d), P s →
      lammLoop fuel X Y Lambda lossType tau gamma phi0 eps iteMax ic k s = some s' → P s' := by
  intro k
  induction k with
  | zero =>
    intro s s' hs h
    rw [lammLoop] at h
    split_ifs at h
    rw [← Option.some.inj h]; exact hs
  | succ k ih =>
    intro s s' hs h
    rw [lammLoop] at h
    split_ifs at h with hle
    · cases hL : LAMM fuel X Y Lambda s.beta s.phi lossType tau gamma ic with
      | none => simp [hL] at h
      | some r =>
        obtain ⟨b, p⟩ := r
        simp only [hL] at h
        have hP := hstep s (b, p) hs hle hL
        split_ifs at h
        · rw [← Option.some.inj h]; exact hP.1
        · exact ih _ _ hP.2 h
    · rw [← Option.some.inj h]; exact hs

/-- The loop around `LAMM` returns when each of its calls of `LAMM` does: the
bound `k` on the passes is never what stops it. -/
theorem lammLoop_isSome {n d : Nat} (fuel : Nat) (X : Mat K n (d + 1)) (Y : Vec K n)
    (Lambda : Vec K (d + 1)) (lossType : String) (tau gamma phi0 eps : K) (iteMax : Int)
    (ic : Bool) (P : LoopState K d → Prop)
    (hstep : ∀ (s : LoopState K d), P s → s.ite ≤ iteMax →
      ∃ r, LAMM fuel X Y Lambda s.beta s.phi lossType tau gamma ic = some r ∧
        P ⟨s.ite + 1, r.1, r.1, max phi0 (r.2 / gamma)⟩) :
    ∀ (k : Nat) (s : LoopState K d), P s → (iteMax + 1 - s.ite).toNat ≤ k →
      ∃ s', lammLoop fuel X Y Lambda lossType tau gamma phi0 eps iteMax ic k s = some s' := by
  intro k
  induction k with
  | zero =>
    intro s _ hk
    rw [lammLoop]
    have : ¬ s.ite ≤ iteMax := by omega
    exact ⟨s, if_neg this⟩
  | succ k ih =>
    intro s hs hk
    rw [lammLoop]
    split_ifs with hle
    · obtain ⟨r, hL, hP⟩ := hstep s hs hle
      obtain ⟨b, p⟩ := r
      simp only [hL]
      split_ifs
      · exact ⟨_, rfl⟩
      · exact ih _ hP (by simp only []; omega)
    · exact ⟨s, rfl⟩

/-- Invariants of the tightening loop, on its variables `iteT`, `betaNew`, `phi`. -/
theorem tightening_induct {n d : Nat} (fuel : Nat) (X : Mat K n (d + 1)) (Y : Vec K n)
    (lambda : K) (penalty lossType : String) (tau gamma phi0 epsilon_t : K) (iteMax : Int)
    (ic : Bool) (Q : Int → Vec K (d + 1) → K → Prop)
    (hstep : ∀ (iteT : Int) (betaNew : Vec K (d + 1)) (phi : K) (s : LoopState K d),
      Q iteT betaNew phi → iteT ≤ iteMax →
      lammLoop fuel X Y (cmptLambda betaNew lambda penalty) lossType tau gamma phi0 epsilon_t
        iteMax ic (iteMax + 1).toNat ⟨0, betaNew, betaNew, phi0⟩ = some s →
      Q (iteT + 1) s.betaNew s.phi) :
    ∀ (k : Nat) (iteT : Int) (betaNew : Vec K (d + 1)) (phi : K)
      (r : Int × Vec K (d + 1) × K), Q iteT betaNew phi →
      tightening fuel X Y lambda penalty lossType tau gamma phi0 epsilon_t iteMax ic k
        iteT betaNew phi = some r → Q r.1 r.2.1 r.2.2 := by
  intro k
  induction k with
  | zero =>
    intro iteT betaNew phi r hQ h
    rw [tightening] at h
    split_ifs at h
    rw [← Option.some.inj h]; exact hQ
  | succ k ih =>
    intro iteT betaNew phi r hQ h
    rw [tightening] at h
    split_ifs at h with hle
    · cases hL : lammLoop fuel X Y (cmptLambda betaNew lambda penalty) lossType tau gamma phi0
          epsilon_t iteMax ic (iteMax + 1).toNat ⟨0, betaNew, betaNew, phi0⟩ with
      | none => simp [hL] at h
      | some s =>
        simp only [hL] at h
        have hQ' := hstep iteT betaNew phi s hQ hle hL
        split_ifs at h
        · rw [← Option.some.inj h]; exact hQ'
        · exact ih _ _ _ _ hQ' h
    · rw [← Option.some.inj h]; exact hQ

/-- The tightening loop returns when each of its inner loops does. -/
theorem tightening_isSome {n d : Nat} (fuel : Nat) (X : Mat K n (d + 1)) (Y : Vec K n)
    (lambda : K) (penalty lossType : String) (tau gamma phi0 epsilon_t : K) (iteMax : Int)
    (ic : Bool)
    (hinner : ∀ betaNew : Vec K (d + 1), ∃ s,
      lammLoop fuel X Y (cmptLambda betaNew lambda penalty) lossType tau gamma phi0 epsilon_t
        iteMax ic (iteMax + 1).toNat ⟨0, betaNew, betaNew, phi0⟩ = some s) :
    ∀ (k : Nat) (iteT : Int) (betaNew : Vec K (d + 1)) (phi : K),
      (iteMax + 1 - iteT).toNat ≤ k →
      ∃ r, tightening fuel X Y lambda penalty lossType tau gamma phi0 epsilon_t iteMax ic k
        iteT betaNew phi = some r := by
  intro k
  induction k with
  | zero =>
    intro iteT betaNew phi hk
    rw [tightening]
    have : ¬ iteT ≤ iteMax := by omega
    exact ⟨_, if_neg this⟩
  | succ k ih =>
    intro iteT betaNew phi hk
    rw [tightening]
    split_ifs with hle
    · obtain ⟨s, hs⟩ := hinner betaNew
      simp only [hs]
      split_ifs
      · exact ⟨_, rfl⟩
      · exact ih _ _ _ (by omega)
    · exact ⟨_, rfl⟩

/-- The loop around `LAMM` with a frozen, unweighted intercept keeps entry 0 of
`beta` and `betaNew` at 0. -/
theorem lammLoop_zero {n d : Nat} (fuel : Nat) (X : Mat K n (d + 1)) (Y : Vec K n)
    (Lambda : Vec K (d + 1)) (lossType : String) (tau gamma phi0 eps : K) (iteMax : Int)
    (hL : Lambda 0 = 0) (k : Nat) (s s' : LoopState K d)
    (hs : s.beta 0 = 0 ∧ s.betaNew 0 = 0)
    (h : lammLoop fuel X Y Lambda lossType tau gamma phi0 eps iteMax false k s = some s') :
    s'.beta 0 = 0 ∧ s'.betaNew 0 = 0 := by
  refine lammLoop_induct fuel X Y Lambda lossType tau gamma phi0 eps iteMax false
    (fun s => s.beta 0 = 0 ∧ s.betaNew 0 = 0) ?_ k s s' hs h
  intro s r hs _ hr
  obtain ⟨_, _, _, h1, _, _⟩ := LAMM_some X Y Lambda s.beta lossType tau gamma false fuel s.phi r hr
  have hr0 : r.1 0 = 0 := by
    rw [h1, updateBeta_zero X Y s.beta Lambda r.2 lossType tau hL]; exact hs.1
  exact ⟨⟨hs.1, hr0⟩, ⟨hr0, hr0⟩⟩

/-- Contraction followed by tightening, with a frozen intercept, returns a
`beta` whose entry 0 is 0. -/
theorem ilamm_zero {n d : Nat} (fuel : Nat) (X : Mat K n (d + 1)) (Y : Vec K n) (lambda : K)
    (penalty lossType : String) (tau phi0 gamma epsilon_c epsilon_t : K) (iteMax : Int)
    (r : Vec K (d + 1) × K × Int)
    (h : ilamm fuel X Y lambda penalty lossType tau phi0 gamma epsilon_c epsilon_t iteMax false
      = some r) : r.1 0 = 0 := by
  unfold ilamm at h
  simp only [] at h
  cases hc : lammLoop fuel X Y (cmptLambda (fun _ => 0) lambda penalty) lossType tau gamma phi0
      epsilon_c iteMax false (iteMax + 1).toNat ⟨0, fun _ => 0, fun _ => 0, phi0⟩ with
  | none => simp [hc] at h
  | some s =>
    have hs := lammLoop_zero fuel X Y _ lossType tau gamma phi0 epsilon_c iteMax
      (cmptLambda_zero _ lambda penalty) _ _ s ⟨rfl, rfl⟩ hc
    simp only [hc] at h
    split_ifs at h with hp
    · cases ht : tightening fuel X Y lambda penalty lossType tau gamma phi0 epsilon_t iteMax
          false (iteMax + 1).toNat 0 s.betaNew s.phi with
      | none => simp [ht] at h
      | some t =>
        simp only [ht] at h
        rw [← Option.some.inj h]
        refine tightening_induct fuel X Y lambda penalty lossType tau gamma phi0 epsilon_t
          iteMax false (fun _ b _ => b 0 = 0) ?_ _ _ _ _ t hs.2 ht
        intro iteT betaNew phi s' hb _ hl
        exact (lammLoop_zero fuel X Y _ lossType tau gamma phi0 epsilon_t iteMax
          (cmptLambda_zero _ lambda penalty) _ _ s' ⟨hb, hb⟩ hl).2
    · rw [← Option.some.inj h]; exact hs.2

/-- For the squared-error loss, `LAMM` returns from every `beta` and every
curvature `phi >= phi0`, once the fuel exceeds an exponent `k0` that lifts `phi0`
above `|X|_F^2 / n`. -/
theorem LAMM_l2_isSome {n d : Nat} (X : Mat K n (d + 1)) (Y : Vec K n)
    (Lambda : Vec K (d + 1)) (tau gamma phi0 : K) (ic : Bool) (k0 fuel : Nat)
    (hL : ic = false → Lambda 0 = 0) (hgamma : 0 ≤ gamma)
    (hk0 : (∑ i, ∑ j, X i j ^ 2) / (n : K) ≤ phi0 * gamma ^ k0) (hfuel : k0 < fuel)
    (beta : Vec K (d + 1)) (phi : K) (hphi : phi0 ≤ phi) :
    ∃ r, LAMM fuel X Y Lambda beta phi "l2" tau gamma ic = some r :=
  LAMM_isSome X Y Lambda beta "l2" tau gamma ic k0 phi
    (majorizes_l2_of_le X Y Lambda beta tau ic _ hL
      (le_trans hk0 (mul_le_mul_of_nonneg_right hphi (pow_nonneg hgamma k0)))) fuel hfuel

theorem lammLoop_l2_isSome {n d : Nat} (X : Mat K n (d + 1)) (Y : Vec K n)
    (Lambda : Vec K (d + 1)) (tau gamma phi0 eps : K) (iteMax : Int) (ic : Bool)
    (k0 fuel : Nat) (hL : ic = false → Lambda 0 = 0) (hgamma : 0 ≤ gamma)
    (hk0 : (∑ i, ∑ j, X i j ^ 2) / (n : K) ≤ phi0 * gamma ^ k0) (hfuel : k0 < fuel)
    (beta betaNew : Vec K (d + 1)) :
    ∃ s, lammLoop fuel X Y Lambda "l2" tau gamma phi0 eps iteMax ic (iteMax + 1).toNat
      ⟨0, beta, betaNew, phi0⟩ = some s := by
  refine lammLoop_isSome fuel X Y Lambda "l2" tau gamma phi0 eps iteMax ic
    (fun s => phi0 ≤ s.phi) ?_ _ _ (le_refl phi0) (by simp)
  intro s hs _
  obtain ⟨r, hr⟩ := LAMM_l2_isSome X Y Lambda tau gamma phi0 ic k0 fuel hL hgamma hk0 hfuel
    s.beta s.phi hs
  exact ⟨r, hr, le_max_left _ _⟩

/-- For the squared-error loss, contraction followed by tightening returns. -/
theorem ilamm_l2_isSome {n d : Nat} (X : Mat K n (d + 1)) (Y : Vec K n) (lambda : K)
    (penalty : String) (tau phi0 gamma epsilon_c epsilon_t : K) (iteMax : Int) (ic : Bool)
    (k0 fuel : Nat) (hgamma : 0 ≤ gamma)
    (hk0 : (∑ i, ∑ j, X i j ^ 2) / (n : K) ≤ phi0 * gamma ^ k0) (hfuel : k0 < fuel) :
    ∃ r, ilamm fuel X Y lambda penalty "l2" tau phi0 gamma epsilon_c epsilon_t iteMax ic
      = some r := by
  unfold ilamm
  simp only []
  obtain ⟨s, hs⟩ := lammLoop_l2_isSome X Y (cmptLambda (fun _ => 0) lambda penalty) tau gamma
    phi0 epsilon_c iteMax ic k0 fuel (fun _ => cmptLambda_zero _ lambda penalty) hgamma hk0 hfuel
    (fun _ => 0) (fun _ => 0)
  rw [hs]
  simp only []
  split_ifs with hp
  · obtain ⟨t, ht⟩ := tightening_isSome fuel X Y lambda penalty "l2" tau gamma phi0 epsilon_t
      iteMax ic (fun b => lammLoop_l2_isSome X Y (cmptLambda b lambda penalty) tau gamma phi0
        epsilon_t iteMax ic k0 fuel (fun _ => cmptLambda_zero _ lambda penalty) hgamma hk0 hfuel
        b b) (iteMax + 1).toNat 0 s.betaNew s.phi (by simp)
    rw [ht]
    exact ⟨_, rfl⟩
  · exact ⟨_, rfl⟩

/-- The function `ncvxReg` returns once the fuel of its `LAMM` calls exceeds an
exponent `k0` that lifts `phi0` above `|X|_F^2 / n`. -/
theorem ncvxReg_isSome {n d : Nat} (P : Prims K) (X : Design K n d) (Y : Vec K n) (lambda : K)
    (penalty : String) (phi0 gamma epsilon_c epsilon_t : K) (iteMax : Int) (ic : Bool)
    (k0 fuel : Nat) (hgamma : 0 ≤ gamma)
    (hk0 : (∑ i, ∑ j, X.matrix i j ^ 2) / (n : K) ≤ phi0 * gamma ^ k0) (hfuel : k0 < fuel) :
    ∃ r, ncvxReg P fuel X Y lambda penalty phi0 gamma epsilon_c epsilon_t iteMax ic = some r := by
  unfold ncvxReg
  simp only []
  obtain ⟨r, hr⟩ := ilamm_l2_isSome X.matrix Y (lambdaUsed P X.matrix Y lambda) penalty 1 phi0
    gamma epsilon_c epsilon_t iteMax ic k0 fuel hgamma hk0 hfuel
  rw [hr]
  exact ⟨_, rfl⟩

theorem ncvxReg_some {n d : Nat} (P : Prims K) (fuel : Nat) (X : Design K n d) (Y : Vec K n)
    (lambda : K) (penalty : String) (phi0 gamma epsilon_c epsilon_t : K) (iteMax : Int)
    (ic : Bool) (r : FitResult K d)
    (h : ncvxReg P fuel X Y lambda penalty phi0 gamma epsilon_c epsilon_t iteMax ic = some r) :
    ∃ t, ilamm fuel X.matrix Y (lambdaUsed P X.matrix Y lambda) penalty "l2" 1 phi0 gamma
        epsilon_c epsilon_t iteMax ic = some t ∧
      r = ⟨t.1, t.2.1, penalty, lambdaUsed P X.matrix Y lambda, t.2.2⟩ := by
  unfold ncvxReg at h
  simp only [] at h
  cases ht : ilamm fuel X.matrix Y (lambdaUsed P X.matrix Y lambda) penalty "l2" 1 phi0 gamma
      epsilon_c epsilon_t iteMax ic with
  | none => simp [ht] at h
  | some t =>
    simp only [ht] at h
    exact ⟨t, rfl, (Option.some.inj h).symm⟩

theorem ncvxHuberReg_some {n d : Nat} (P : Prims K) (fuel : Nat) (X : Design K n d)
    (Y : Vec K n) (lambda : K) (penalty : String) (tau phi0 gamma epsilon_c epsilon_t : K)
    (iteMax : Int) (ic : Bool) (r : HuberFitResult K d)
    (h : ncvxHuberReg P fuel X Y lambda penalty tau phi0 gamma epsilon_c epsilon_t iteMax ic
      = some r) :
    ∃ tau' t, tauUsed P fuel X.matrix Y (lambdaUsed P X.matrix Y lambda) tau phi0 gamma
        epsilon_c epsilon_t iteMax ic = some tau' ∧
      ilamm fuel X.matrix Y (lambdaUsed P X.matrix Y lambda) penalty "Huber" tau' phi0 gamma
        epsilon_c epsilon_t iteMax ic = some t ∧
      r = ⟨t.1, t.2.1, penalty, lambdaUsed P X.matrix Y lambda, tau', t.2.2⟩ := by
  unfold ncvxHuberReg at h
  simp only [] at h
  cases hu : tauUsed P fuel X.matrix Y (lambdaUsed P X.matrix Y lambda) tau phi0 gamma
      epsilon_c epsilon_t iteMax ic with
  | none => simp [hu] at h
  | some tau' =>
    simp only [hu] at h
    cases ht : ilamm fuel X.matrix Y (lambdaUsed P X.matrix Y lambda) penalty "Huber" tau' phi0
        gamma epsilon_c epsilon_t iteMax ic with
    | none => simp [ht] at h
    | some t =>
      simp only [ht] at h
      exact ⟨tau', t, rfl, ht, (Option.some.inj h).symm⟩

/-- With `penalty = "Lasso"` the tightening stage is skipped and `iteT` stays 0. -/
theorem ilamm_Lasso {n d : Nat} (fuel : Nat) (X : Mat K n (d + 1)) (Y : Vec K n) (lambda : K)
    (lossType : String) (tau phi0 gamma epsilon_c epsilon_t : K) (iteMax : Int) (ic : Bool)
    (r : Vec K (d + 1) × K × Int)
    (h : ilamm fuel X Y lambda "Lasso" lossType tau phi0 gamma epsilon_c epsilon_t iteMax ic
      = some r) : r.2.2 = 0 := by
  unfold ilamm at h
  simp only [] at h
  cases hc : lammLoop fuel X Y (cmptLambda (fun _ => 0) lambda "Lasso") lossType tau gamma phi0
      epsilon_c iteMax ic (iteMax + 1).toNat ⟨0, fun _ => 0, fun _ => 0, phi0⟩ with
  | none => simp [hc] at h
  | some s =>
    simp only [hc, ne_eq, not_true_eq_false, if_false] at h
    rw [← Option.some.inj h]

theorem LAMM_of_majorizes {n d : Nat} (fuel : Nat) (X : Mat K n (d + 1)) (Y : Vec K n)
    (Lambda beta : Vec K (d + 1)) (phi : K) (lossType : String) (tau gamma : K) (ic : Bool)
    (h : majorizes X Y Lambda beta lossType tau ic phi) :
    LAMM (fuel + 1) X Y Lambda beta phi lossType tau gamma ic
      = some (updateBeta X Y beta phi Lambda lossType tau ic, phi) := by
  rw [LAMM_succ]; exact if_pos h

theorem LAMM_of_not_majorizes {n d : Nat} (fuel : Nat) (X : Mat K n (d + 1)) (Y : Vec K n)
    (Lambda beta : Vec K (d + 1)) (phi : K) (lossType : String) (tau gamma : K) (ic : Bool)
    (h : ¬ majorizes X Y Lambda beta lossType tau ic phi) :
    LAMM (fuel + 1) X Y Lambda beta phi lossType tau gamma ic
      = LAMM fuel X Y Lambda beta (phi * gamma) lossType tau gamma ic := by
  rw [LAMM_succ]; exact if_neg h

/-- A curvature whose candidate is `beta` itself passes the test of `LAMM`. -/
theorem majorizes_of_fixed {n d : Nat} (X : Mat K n (d + 1)) (Y : Vec K n)
    (Lambda beta : Vec K (d + 1)) (lossType : String) (tau : K) (ic : Bool) (phi : K)
    (h : updateBeta X Y beta phi Lambda lossType tau ic = beta) :
    majorizes X Y Lambda beta lossType tau ic phi := by
  unfold majorizes
  rw [h]
  simp [cmptF, cmptPsi]

theorem softThresh_eq_zero {m : Nat} (x t : Vec K m) (i : Fin m) (h : |x i| ≤ t i) :
    softThresh x t i = 0 := by
  unfold softThresh
  rw [max_eq_right (sub_nonpos.mpr h), mul_zero]

theorem normStop_self {d : Nat} (beta : Vec K (d + 1)) (eps : K) (heps : 0 ≤ eps) :
    normStop (fun j => beta j - beta j) eps = true := by
  unfold normStop
  simp only [sub_self, decide_eq_true_eq]
  refine ⟨heps, ?_⟩
  simp only [ne_eq, OfNat.ofNat_ne_zero, not_false_eq_true, zero_pow, Finset.sum_const_zero]
  positivity

theorem toNat_succ_of_nonneg (iteMax : Int) (h : 0 ≤ iteMax) :
    ∃ k : Nat, (iteMax + 1).toNat = k + 1 :=
  ⟨iteMax.toNat, by omega⟩

/-- A pass of the loop around `LAMM` that starts at a fixed point of `updateBeta`
is the last one. -/
theorem lammLoop_fixed {n d : Nat} (fuel : Nat) (X : Mat K n (d + 1)) (Y : Vec K n)
    (Lambda : Vec K (d + 1)) (lossType : String) (tau gamma phi0 eps : K) (iteMax : Int)
    (ic : Bool) (k : Nat) (s : LoopState K d) (hle : s.ite ≤ iteMax) (heps : 0 ≤ eps)
    (hfix : updateBeta X Y s.beta s.phi Lambda lossType tau ic = s.beta) :
    lammLoop (fuel + 1) X Y Lambda lossType tau gamma phi0 eps iteMax ic (k + 1) s
      = some ⟨s.ite + 1, s.beta, s.beta, max phi0 (s.phi / gamma)⟩ := by
  rw [lammLoop, if_pos hle,
    LAMM_of_majorizes fuel X Y Lambda s.beta s.phi lossType tau gamma ic
      (majorizes_of_fixed X Y Lambda s.beta lossType tau ic s.phi hfix), hfix]
  simp only [normStop_self s.beta eps heps, if_true]

/-- A tightening round that starts at a fixed point of `updateBeta` for the
recomputed weights is the last one. -/
theorem tightening_fixed {n d : Nat} (fuel : Nat) (X : Mat K n (d + 1)) (Y : Vec K n)
    (lambda : K) (penalty lossType : String) (tau gamma phi0 epsilon_t : K) (iteMax : Int)
    (ic : Bool) (k : Nat) (iteT : Int) (beta : Vec K (d + 1)) (phi : K)
    (hle : iteT ≤ iteMax) (hMax : 0 ≤ iteMax) (heps : 0 ≤ epsilon_t)
    (hfix : updateBeta X Y beta phi0 (cmptLambda beta lambda penalty) lossType tau ic = beta) :
    tightening (fuel + 1) X Y lambda penalty lossType tau gamma phi0 epsilon_t iteMax ic (k + 1)
      iteT beta phi = some (iteT + 1, beta, max phi0 (phi0 / gamma)) := by
  obtain ⟨k', hk'⟩ := toNat_succ_of_nonneg iteMax hMax
  rw [tightening, if_pos hle]
  simp only []
  rw [hk', lammLoop_fixed fuel X Y _ lossType tau gamma phi0 epsilon_t iteMax ic k'
    ⟨0, beta, beta, phi0⟩ hMax heps hfix]
  simp only [normStop_self beta epsilon_t heps, if_true]

/-- When the zero vector is a fixed point of `updateBeta` at curvature `phi0`,
both stages stop on their first round and the fit is the zero vector. -/
theorem ilamm_fixed {n d : Nat} (fuel : Nat) (X : Mat K n (d + 1)) (Y : Vec K n) (lambda : K)
    (penalty lossType : String) (tau phi0 gamma epsilon_c epsilon_t : K) (iteMax : Int)
    (ic : Bool) (hMax : 0 ≤ iteMax) (hc : 0 ≤ epsilon_c) (ht : 0 ≤ epsilon_t)
    (hfix : updateBeta X Y (fun _ => 0) phi0 (cmptLambda (fun _ => 0) lambda penalty)
      lossType tau ic = fun _ => 0) :
    ilamm (fuel + 1) X Y lambda penalty lossType tau phi0 gamma epsilon_c epsilon_t iteMax ic
      = some (fun _ => 0, max phi0 (phi0 / gamma), if penalty = "Lasso" then 0 else 1) := by
  obtain ⟨k, hk⟩ := toNat_succ_of_nonneg iteMax hMax
  unfold ilamm
  simp only []
  rw [hk, lammLoop_fixed fuel X Y _ lossType tau gamma phi0 epsilon_c iteMax ic k
    ⟨0, fun _ => 0, fun _ => 0, phi0⟩ hMax hc hfix]
  simp only []
  by_cases hp : penalty = "Lasso"
  · simp [hp]
  · rw [if_pos hp, tightening_fixed fuel X Y lambda penalty lossType tau gamma phi0 epsilon_t
      iteMax ic k 0 (fun _ => 0) _ hMax hMax ht hfix]
    simp [hp]

/-- The counter of the loop around `LAMM` ends at most at `iteMax + 1`. -/
theorem lammLoop_ite_le {n d : Nat} (fuel : Nat) (X : Mat K n (d + 1)) (Y : Vec K n)
    (Lambda : Vec K (d + 1)) (lossType : String) (tau gamma phi0 eps : K) (iteMax : Int)
    (ic : Bool) (k : Nat) (s s' : LoopState K d) (hs : s.ite ≤ iteMax + 1)
    (h : lammLoop fuel X Y Lambda lossType tau gamma phi0 eps iteMax ic k s = some s') :
    s'.ite ≤ iteMax + 1 := by
  refine lammLoop_induct fuel X Y Lambda lossType tau gamma phi0 eps iteMax ic
    (fun s => s.ite ≤ iteMax + 1) ?_ k s s' hs h
  intro s r _ hle _
  exact ⟨by simp only []; omega, by simp only []; omega⟩

/-- The counter `iteT` of the tightening loop ends at most at `iteMax + 1`. -/
theorem ilamm_iteT_le {n d : Nat} (fuel : Nat) (X : Mat K n (d + 1)) (Y : Vec K n) (lambda : K)
    (penalty lossType : String) (tau phi0 gamma epsilon_c epsilon_t : K) (iteMax : Int)
    (ic : Bool) (hMax : 0 ≤ iteMax) (r : Vec K (d + 1) × K × Int)
    (h : ilamm fuel X Y lambda penalty lossType tau phi0 gamma epsilon_c epsilon_t iteMax ic
      = some r) : r.2.2 ≤ iteMax + 1 := by
  unfold ilamm at h
  simp only [] at h
  cases hc : lammLoop fuel X Y (cmptLambda (fun _ => 0) lambda penalty) lossType tau gamma phi0
      epsilon_c iteMax ic (iteMax + 1).toNat ⟨0, fun _ => 0, fun _ => 0, phi0⟩ with
  | none => simp [hc] at h
  | some s =>
    simp only [hc] at h
    split_ifs at h with hp
    · cases ht : tightening fuel X Y lambda penalty lossType tau gamma phi0 epsilon_t iteMax
          ic (iteMax + 1).toNat 0 s.betaNew s.phi with
      | none => simp [ht] at h
      | some t =>
        simp only [ht] at h
        rw [← Option.some.inj h]
        refine tightening_induct fuel X Y lambda penalty lossType tau gamma phi0 epsilon_t
          iteMax ic (fun i _ _ => i ≤ iteMax + 1) ?_ _ _ _ _ t (by omega) ht
        intro iteT _ _ _ _ hle _
        omega
    · rw [← Option.some.inj h]; simp only []; omega

/-- Over the reals, `normStop` is the test `norm(v, 2) / sqrt(d + 1) <= eps` of the
source. -/
theorem normStop_iff_real {d : Nat} (v : Vec ℝ (d + 1)) (eps : ℝ) :
    normStop v eps = true ↔ Real.sqrt (∑ j, v j ^ 2) / Real.sqrt ((d : ℝ) + 1) ≤ eps := by
  have hd : (0 : ℝ) < (d : ℝ) + 1 := by positivity
  have hsd : 0 < Real.sqrt ((d : ℝ) + 1) := Real.sqrt_pos.mpr hd
  have hS : 0 ≤ ∑ j, v j ^ 2 := Finset.sum_nonneg fun j _ => sq_nonneg _
  unfold normStop
  rw [decide_eq_true_eq, div_le_iff₀ hsd]
  constructor
  · rintro ⟨he, h⟩
    calc Real.sqrt (∑ j, v j ^ 2) ≤ Real.sqrt (eps ^ 2 * ((d : ℝ) + 1)) := Real.sqrt_le_sqrt h
      _ = eps * Real.sqrt ((d : ℝ) + 1) := by
        rw [Real.sqrt_mul (sq_nonneg eps), Real.sqrt_sq he]
  · intro h
    have he : 0 ≤ eps := by
      by_contra hneg
      have : eps * Real.sqrt ((d : ℝ) + 1) < 0 := mul_neg_of_neg_of_pos (not_le.mp hneg) hsd
      linarith [Real.sqrt_nonneg (∑ j, v j ^ 2)]
    refine ⟨he, ?_⟩
    have h2 := mul_self_le_mul_self (Real.sqrt_nonneg _) h
    rw [Real.mul_self_sqrt hS] at h2
    calc ∑ j, v j ^ 2 ≤ eps * Real.sqrt ((d : ℝ) + 1) * (eps * Real.sqrt ((d : ℝ) + 1)) := h2
      _ = eps ^ 2 * (Real.sqrt ((d : ℝ) + 1) * Real.sqrt ((d : ℝ) + 1)) := by ring
      _ = eps ^ 2 * ((d : ℝ) + 1) := by rw [Real.mul_self_sqrt hd.le]

theorem exX_LAMM : LAMM 4 exX exY (fun _ => 0) (fun _ => 0) 1 "l2" 1 2 true
    = some (updateBeta exX exY (fun _ => 0) (1 * 2 * 2 * 2) (fun _ => 0) "l2" 1 true,
        1 * 2 * 2 * 2) := by
  have e1 : ¬ majorizes exX exY (fun _ => 0) (fun _ => 0) "l2" 1 true 1 := by
    simp [majorizes, updateBeta, cmptF, cmptPsi, loss, gradLoss, mulVec, softThresh, sign, exX,
      exY, Fin.sum_univ_two, abs_div]
    norm_num
  have e2 : ¬ majorizes exX exY (fun _ => 0) (fun _ => 0) "l2" 1 true (1 * 2) := by
    simp [majorizes, updateBeta, cmptF, cmptPsi, loss, gradLoss, mulVec, softThresh, sign, exX,
      exY, Fin.sum_univ_two, abs_div]
    norm_num
  have e3 : ¬ majorizes exX exY (fun _ => 0) (fun _ => 0) "l2" 1 true (1 * 2 * 2) := by
    simp [majorizes, updateBeta, cmptF, cmptPsi, loss, gradLoss, mulVec, softThresh, sign, exX,
      exY, Fin.sum_univ_two, abs_div]
    norm_num
  have e4 : majorizes exX exY (fun _ => 0) (fun _ => 0) "l2" 1 true (1 * 2 * 2 * 2) := by
    simp [majorizes, updateBeta, cmptF, cmptPsi, loss, gradLoss, mulVec, softThresh, sign, exX,
      exY, Fin.sum_univ_two, abs_div]
    norm_num
  rw [LAMM_of_not_majorizes _ _ _ _ _ _ _ _ _ _ e1, LAMM_of_not_majorizes _ _ _ _ _ _ _ _ _ _ e2,
    LAMM_of_not_majorizes _ _ _ _ _ _ _ _ _ _ e3, LAMM_of_majorizes _ _ _ _ _ _ _ _ _ _ e4]

theorem exX1_gradLoss (lossType : String) (h : lossType = "l2" ∨ lossType = "Huber") :
    gradLoss exX1 exY (fun _ => 0) lossType 1 false 1 = -1 := by
  rcases h with h | h <;> subst h <;>
    simp [gradLoss, mulVec, exX1, exY, sgn, List.finRange_succ_eq_map]

/-- On the example `exX1`, `exY` with `lambda = 1` the zero vector is a fixed
point of `updateBeta`. -/
theorem exX1_fixed (phi : ℚ) (hphi : 0 < phi) (penalty lossType : String)
    (hp : penalty = "Lasso" ∨ penalty = "SCAD")
    (hl : lossType = "l2" ∨ lossType = "Huber") :
    updateBeta exX1 exY (fun _ => 0) phi (cmptLambda (fun _ => 0) 1 penalty) lossType 1 false
      = fun _ => 0 := by
  funext j
  by_cases hj : j = 0
  · subst hj
    exact updateBeta_zero exX1 exY _ _ phi lossType 1 (cmptLambda_zero _ 1 penalty)
  · have hj1 : j = 1 := by
      fin_cases j
      · exact absurd rfl hj
      · rfl
    subst hj1
    have hw : cmptLambda (fun _ => (0 : ℚ)) 1 penalty (1 : Fin 2) = 1 := by
      rcases hp with hp | hp <;> subst hp
      · rw [cmptLambda_Lasso_apply, if_neg hj]
      · rw [cmptLambda_SCAD_apply _ _ _ hj]; simp
    unfold updateBeta
    apply softThresh_eq_zero
    simp only [exX1_gradLoss lossType hl, hw]
    rw [zero_sub, neg_div, neg_neg, abs_of_pos (by positivity)]

theorem exX1_ncvxReg (penalty : String) (hp : penalty = "Lasso" ∨ penalty = "SCAD")
    (iteMax : Int) (hMax : 0 ≤ iteMax) :
    ncvxReg exPrims 1 (Design.included exX1) exY 1 penalty (1 / 1000) (3 / 2) (1 / 10000)
        (1 / 10000) iteMax false
      = some ⟨fun _ => 0, 1 / 1000, penalty, 1, if penalty = "Lasso" then 0 else 1⟩ := by
  have hlam : lambdaUsed exPrims exX1 exY 1 = 1 := by simp [lambdaUsed]
  unfold ncvxReg
  simp only [Design.matrix, hlam]
  rw [ilamm_fixed 0 exX1 exY 1 penalty "l2" 1 _ _ _ _ iteMax false hMax (by norm_num)
    (by norm_num) (exX1_fixed _ (by norm_num) penalty "l2" hp (Or.inl rfl))]
  norm_num

theorem exX1_ncvxHuberReg (iteMax : Int) (hMax : 0 ≤ iteMax) :
    ncvxHuberReg exPrims 1 (Design.included exX1) exY 1 "Lasso" 1 (1 / 1000) (3 / 2) (1 / 10000)
        (1 / 10000) iteMax false
      = some ⟨fun _ => 0, 1 / 1000, "Lasso", 1, 1, 0⟩ := by
  have hlam : lambdaUsed exPrims exX1 exY 1 = 1 := by simp [lambdaUsed]
  have htau : tauUsed exPrims 1 exX1 exY 1 1 (1 / 1000) (3 / 2) (1 / 10000) (1 / 10000) iteMax
      false = some 1 := by simp [tauUsed]
  unfold ncvxHuberReg
  simp only [Design.matrix, hlam, htau]
  rw [ilamm_fixed 0 exX1 exY 1 "Lasso" "Huber" 1 _ _ _ _ iteMax false hMax (by norm_num)
    (by norm_num) (exX1_fixed _ (by norm_num) "Lasso" "Huber" (Or.inl rfl) (Or.inr rfl))]
  norm_num

theorem lambdaUsed_of_nonpos {n d : Nat} (P : Prims K) (X : Mat K n (d + 1)) (Y : Vec K n)
    (lambda : K) (h : lambda ≤ 0) :
    lambdaUsed P X Y lambda
      = P.exp (7 / 10 * P.log (lambdaMax X Y) + 3 / 10 * P.log (1 / 100 * lambdaMax X Y)) := by
  unfold lambdaUsed lambdaMax
  rw [if_pos h]

theorem lambdaUsed_of_pos {n d : Nat} (P : Prims K) (X : Mat K n (d + 1)) (Y : Vec K n)
    (lambda : K) (h : 0 < lambda) : lambdaUsed P X Y lambda = lambda := by
  unfold lambdaUsed
  rw [if_neg (not_le.mpr h)]

/-- The default `lambda` lies strictly between `lambdaMin` and `lambdaMax`, for
an increasing `exp` that inverts `log` on the positive numbers. -/
theorem default_between (P : Prims K) (hexp : StrictMono P.exp)
    (hlog : ∀ x : K, 0 < x → P.exp (P.log x) = x) (M : K) (hM : 0 < M) :
    1 / 100 * M < P.exp (7 / 10 * P.log M + 3 / 10 * P.log (1 / 100 * M)) ∧
    P.exp (7 / 10 * P.log M + 3 / 10 * P.log (1 / 100 * M)) < M := by
  have hm : 0 < 1 / 100 * M := by positivity
  have hlt : P.log (1 / 100 * M) < P.log M := by
    rw [← hexp.lt_iff_lt, hlog _ hm, hlog _ hM]
    linarith
  constructor
  · calc 1 / 100 * M = P.exp (P.log (1 / 100 * M)) := (hlog _ hm).symm
      _ < _ := hexp (by linarith)
  · calc _ < P.exp (P.log M) := hexp (by linarith)
      _ = M := hlog _ hM

/-- On the one-row design with entries 1 and response 1 over the reals,
`lambdaMax` is positive. -/
theorem lambdaMax_ones_pos :
    0 < lambdaMax (fun _ _ => 1 : Mat ℝ 1 2) (fun _ => 1) := by
  unfold lambdaMax
  refine div_pos ?_ (by norm_num)
  rw [Finset.lt_sup'_iff]
  exact ⟨0, Finset.mem_univ _, by simp⟩

/-- On the one-row design with entries 1 over the reals `ncvxReg` returns with
fuel 20 for the default `phi0` and `gamma`. -/
theorem ncvxReg_ones_isSome (P : Prims ℝ) (Y : Vec ℝ 1) (lambda : ℝ) (penalty : String)
    (intercept : Bool) :
    ∃ r, ncvxReg P 20 (Design.included (fun _ _ => 1 : Mat ℝ 1 2)) Y lambda penalty (1 / 1000)
      (3 / 2) (1 / 10000) (1 / 10000) 500 intercept = some r := by
  refine ncvxReg_isSome P _ Y lambda penalty _ _ _ _ 500 intercept 19 20 (by norm_num) ?_
    (by norm_num)
  simp [Design.matrix, Fin.sum_univ_two]
  norm_num

theorem mem_getIndex {n : Nat} (low up : Int) (r : Fin n) :
    r ∈ getIndex n low up ↔ low ≤ (r.val : Int) ∧ (r.val : Int) ≤ up := by
  simp [getIndex, List.mem_filter, List.mem_finRange]

theorem mem_getIndexComp {n : Nat} (low up : Int) (r : Fin n) :
    r ∈ getIndexComp n low up ↔ (r.val : Int) < low ∨ up < (r.val : Int) := by
  simp [getIndexComp, List.mem_filter, List.mem_finRange]

theorem nodup_getIndex (n : Nat) (low up : Int) : (getIndex n low up).Nodup :=
  (List.nodup_finRange n).filter _

theorem nodup_getIndexComp (n : Nat) (low up : Int) : (getIndexComp n low up).Nodup :=
  (List.nodup_finRange n).filter _

theorem tdiv_natCast (n N : Nat) : Int.tdiv (n : Int) (N : Int) = ((n / N : Nat) : Int) := by
  rw [Int.tdiv_eq_ediv (Int.natCast_nonneg n) (Int.natCast_nonneg N)]
  norm_cast

/-- Every row lies in one of the ranges of the folds. -/
theorem fold_cover (n N : Nat) (hN : 1 ≤ N) (hNn : N ≤ n) (r : Nat) (hr : r < n) :
    ∃ j : Nat, j < N ∧ foldLow ((n / N : Nat) : Int) j ≤ (r : Int) ∧
      (r : Int) ≤ foldUp n (N : Int) ((n / N : Nat) : Int) j := by
  have hs : 0 < n / N := Nat.div_pos hNn hN
  have hdm := Nat.div_add_mod r (n / N)
  have hmod := Nat.mod_lt r hs
  by_cases h : r / (n / N) < N - 1
  · refine ⟨r / (n / N), by omega, ?_, ?_⟩
    · unfold foldLow
      have : r / (n / N) * (n / N) ≤ r := Nat.div_mul_le_self r (n / N)
      exact_mod_cast this
    · unfold foldUp
      rw [if_neg (by omega)]
      have : r < (r / (n / N) + 1) * (n / N) := by
        calc r = n / N * (r / (n / N)) + r % (n / N) := hdm.symm
          _ < n / N * (r / (n / N)) + n / N := by omega
          _ = (r / (n / N) + 1) * (n / N) := by ring
      have h' : (r : Int) < ((r / (n / N) : Nat) + 1) * ((n / N : Nat) : Int) := by
        exact_mod_cast this
      omega
  · refine ⟨N - 1, by omega, ?_, ?_⟩
    · unfold foldLow
      have h1 : (N - 1) * (n / N) ≤ r / (n / N) * (n / N) :=
        Nat.mul_le_mul_right _ (by omega)
      have h2 : r / (n / N) * (n / N) ≤ r := Nat.div_mul_le_self r (n / N)
      have : (N - 1) * (n / N) ≤ r := le_trans h1 h2
      exact_mod_cast this
    · unfold foldUp
      rw [if_pos (by omega)]
      omega

/-- The ranges of two different folds do not meet. -/
theorem fold_disjoint (n N : Nat) (size : Int) (hsize : 0 ≤ size) (j j' : Nat) (hjj : j < j')
    (hj' : j' < N) (r : Int) (h1 : r ≤ foldUp n (N : Int) size j)
    (h2 : foldLow size j' ≤ r) : False := by
  unfold foldUp at h1
  unfold foldLow at h2
  rw [if_neg (by omega)] at h1
  have h3 : ((j : Int) + 1) * size ≤ (j' : Int) * size :=
    mul_le_mul_of_nonneg_right (by omega) hsize
  omega

/-- The scan of `index_min` keeps the index of the first least entry: `v` is the
whole list, `pre` the part already seen. -/
theorem indexMinLoop_spec (v : List K) :
    ∀ (xs pre : List K) (best : Nat) (bestVal : K), v = pre ++ xs → best < pre.length →
      v.getD best 0 = bestVal →
      (∀ s, s < pre.length → bestVal ≤ v.getD s 0 ∧ (s < best → bestVal < v.getD s 0)) →
      indexMinLoop xs pre.length best bestVal < v.length ∧
      ∀ s, s < v.length →
        v.getD (indexMinLoop xs pre.length best bestVal) 0 ≤ v.getD s 0 ∧
        (s < indexMinLoop xs pre.length best bestVal →
          v.getD (indexMinLoop xs pre.length best bestVal) 0 < v.getD s 0) := by
  intro xs
  induction xs with
  | nil =>
    intro pre best bestVal hv hb hbv hinv
    simp only [List.append_nil] at hv
    subst hv
    simp only [indexMinLoop]
    refine ⟨hb, fun s hs => ?_⟩
    rw [hbv]
    exact hinv s hs
  | cons x xs ih =>
    intro pre best bestVal hv hb hbv hinv
    have hv' : v = (pre ++ [x]) ++ xs := by simp [hv]
    have hlen : (pre ++ [x]).length = pre.length + 1 := by simp
    have hx : v.getD pre.length 0 = x := by
      rw [hv, List.getD_append_right _ _ _ _ (le_refl _)]
      simp
    simp only [indexMinLoop]
    split_ifs with hlt
    · have := ih (pre ++ [x]) pre.length x hv' (by omega) hx (by
        intro s hs
        rw [hlen] at hs
        rcases Nat.lt_succ_iff_lt_or_eq.mp hs with h | h
        · exact ⟨le_of_lt (lt_of_lt_of_le hlt (hinv s h).1),
            fun _ => lt_of_lt_of_le hlt (hinv s h).1⟩
        · subst h
          exact ⟨by rw [hx], fun h' => absurd h' (lt_irrefl _)⟩)
      rwa [hlen] at this
    · have := ih (pre ++ [x]) best bestVal hv' (by omega) hbv (by
        intro s hs
        rw [hlen] at hs
        rcases Nat.lt_succ_iff_lt_or_eq.mp hs with h | h
        · exact hinv s h
        · subst h
          exact ⟨by rw [hx]; exact not_lt.mp hlt, fun h' => by omega⟩)
      rwa [hlen] at this

/-- The function `index_min` returns the index of the first least entry. -/
theorem index_min_spec (v : List K) (k : Nat) (h : index_min v = some k) :
    k < v.length ∧ ∀ s, s < v.length →
      v.getD k 0 ≤ v.getD s 0 ∧ (s < k → v.getD k 0 < v.getD s 0) := by
  cases v with
  | nil => simp [index_min] at h
  | cons x xs =>
    simp only [index_min, Option.some.injEq] at h
    subst h
    have := indexMinLoop_spec (x :: xs) xs [x] 0 x rfl (by simp) (by simp) (by
      intro s hs
      simp only [List.length_singleton, Nat.lt_one_iff] at hs
      subst hs
      exact ⟨by simp, fun h' => absurd h' (lt_irrefl _)⟩)
    simpa using this

theorem index_min_isSome (v : List K) (h : v ≠ []) : ∃ k, index_min v = some k := by
  cases v with
  | nil => exact absurd rfl h
  | cons x xs => exact ⟨_, rfl⟩

/-- The loop over a grid gives one score for each grid point, and each score is
a value of `sqrt` at a sum of squares. -/
theorem cvGrid_scores {n d : Nat} (P : Prims K)
    (fit : K → (m : Nat) → Mat K m (d + 1) → Vec K m → Option (Vec K (d + 1)))
    (X : Mat K n (d + 1)) (Y : Vec K n) (nfolds size : Int) :
    ∀ (gs : List K) (YPred : Vec K n) (r : List K × Vec K n),
      cvGrid P fit X Y nfolds size gs YPred = some r →
      r.1.length = gs.length ∧ ∀ x ∈ r.1, ∃ YP : Vec K n, x = P.sqrt (∑ i, (Y i - YP i) ^ 2) := by
  intro gs
  induction gs with
  | nil =>
    intro YPred r h
    simp only [cvGrid, Option.some.injEq] at h
    subst h
    simp
  | cons g gs ih =>
    intro YPred r h
    rw [cvGrid] at h
    cases hf : cvFolds (fit g) X Y nfolds size (List.range nfolds.toNat) YPred with
    | none => simp [hf] at h
    | some YP =>
      simp only [hf] at h
      cases hg : cvGrid P fit X Y nfolds size gs YP with
      | none => simp [hg] at h
      | some t =>
        obtain ⟨mse, YP'⟩ := t
        simp only [hg, Option.some.injEq] at h
        subst h
        obtain ⟨hlen, hall⟩ := ih YP (mse, YP') hg
        refine ⟨by simp [hlen], ?_⟩
        intro x hx
        rcases List.mem_cons.mp hx with hx | hx
        · exact ⟨YP, hx⟩
        · exact hall x hx

theorem cvNcvxReg_some {n d : Nat} (P : Prims K) (fuel : Nat) (X : Design K n d) (Y : Vec K n)
    (lSeq : Option (List K)) (nlambda : Nat) (penalty : String)
    (phi0 gamma epsilon_c epsilon_t : K) (iteMax : Int) (nfolds : Int) (intercept : Bool)
    (r : CVResult K d)
    (h : cvNcvxReg P fuel X Y lSeq nlambda penalty phi0 gamma epsilon_c epsilon_t iteMax nfolds
      intercept = some r) :
    ∃ (YPred : Vec K n) (cvIdx : Nat) (listILAMM : FitResult K d),
      cvGrid P (fun lambda _ X' Y' =>
          (ncvxReg P fuel (Design.included X') Y' lambda penalty phi0 gamma epsilon_c epsilon_t
            iteMax intercept).map (fun listILAMM => listILAMM.beta))
          X.matrix Y (foldsUsed nfolds n) (Int.tdiv (n : Int) (foldsUsed nfolds n))
          (lambdaGrid P X.matrix Y lSeq nlambda) (fun _ => 0) = some (r.mse, YPred) ∧
      index_min r.mse = some cvIdx ∧
      (lambdaGrid P X.matrix Y lSeq nlambda)[cvIdx]? = some r.lambdaMin ∧
      ncvxReg P fuel (Design.included X.matrix) Y r.lambdaMin penalty phi0 gamma epsilon_c
        epsilon_t iteMax intercept = some listILAMM ∧
      r = ⟨listILAMM.beta, penalty, lambdaGrid P X.matrix Y lSeq nlambda, r.mse, r.lambdaMin,
        foldsUsed nfolds n⟩ := by
  unfold cvNcvxReg at h
  simp only [] at h
  split at h
  · exact absurd h (by simp)
  · rename_i mse YPred hg
    split at h
    · exact absurd h (by simp)
    · rename_i cvIdx hi
      split at h
      · exact absurd h (by simp)
      · rename_i lambdaMin hl
        split at h
        · exact absurd h (by simp)
        · rename_i listILAMM hfit
          rw [← Option.some.inj h]
          exact ⟨YPred, cvIdx, listILAMM, hg, hi, hl, hfit, rfl⟩

/-- The zero vector is a fixed point of `updateBeta` when, away from the frozen
intercept, the gradient at zero is within the weights. -/
theorem updateBeta_zero_fixed {n d : Nat} (X : Mat K n (d + 1)) (Y : Vec K n)
    (Lambda : Vec K (d + 1)) (phi : K) (lossType : String) (tau : K) (hphi : 0 < phi)
    (hL : Lambda 0 = 0)
    (hg : ∀ j : Fin (d + 1), j ≠ 0 →
      |gradLoss X Y (fun _ => 0) lossType tau false j| ≤ Lambda j) :
    updateBeta X Y (fun _ => 0) phi Lambda lossType tau false = fun _ => 0 := by
  funext j
  by_cases hj : j = 0
  · subst hj
    exact updateBeta_zero X Y _ Lambda phi lossType tau hL
  · unfold updateBeta
    apply softThresh_eq_zero
    simp only [zero_sub, abs_neg, abs_div, abs_of_pos hphi]
    exact div_le_div_of_nonneg_right (hg j hj) hphi.le

/-- At `beta = 0` every penalty gives the weight `lambda` away from the intercept. -/
theorem cmptLambda_at_zero {d : Nat} (lambda : K) (hlam : 0 ≤ lambda) (penalty : String)
    (hp : penalty = "Lasso" ∨ penalty = "SCAD" ∨ penalty = "MCP") (j : Fin (d + 1))
    (hj : j ≠ 0) : cmptLambda (fun _ => (0 : K)) lambda penalty j = lambda := by
  rcases hp with hp | hp | hp <;> subst hp
  · rw [cmptLambda_Lasso_apply, if_neg hj]
  · rw [cmptLambda_SCAD_apply _ _ _ hj]
    simp [hlam]
  · rw [cmptLambda_MCP_apply _ _ _ hj]
    simp [hlam]

/-- The loop of `gradLoss` for the Huber loss, entry by entry. -/
theorem huber_foldl_apply {n m : Nat} (X : Mat K n m) (res : Vec K n) (tau : K) (j : Fin m) :
    ∀ (l : List (Fin n)) (init : Vec K m),
      l.foldl (fun rst i =>
        if |res i| ≤ tau then fun j => rst j - res i * X i j
        else fun j => rst j - tau * (sgn (res i) : K) * X i j) init j
      = init j - (l.map (fun i =>
          (if |res i| ≤ tau then res i else tau * (sgn (res i) : K)) * X i j)).sum := by
  intro l
  induction l with
  | nil => intro init; simp
  | cons a l ih =>
    intro init
    rw [List.foldl_cons, ih, List.map_cons, List.sum_cons]
    split_ifs <;> ring

theorem abs_sgn_le_one (x : K) : |((sgn x : Int) : K)| ≤ 1 := by
  rw [← sign_eq_sgn]
  exact abs_sign_le_one x

/-- The Huber gradient in closed form, away from a frozen intercept. -/
theorem gradLoss_Huber_apply {n d : Nat} (X : Mat K n (d + 1)) (Y : Vec K n)
    (beta : Vec K (d + 1)) (tau : K) (j : Fin (d + 1)) (hj : j ≠ 0) :
    gradLoss X Y beta "Huber" tau false j
      = (-∑ i, (if |Y i - mulVec X beta i| ≤ tau then Y i - mulVec X beta i
          else tau * (sgn (Y i - mulVec X beta i) : K)) * X i j) / (n : K) := by
  unfold gradLoss
  simp only [Bool.not_false, if_true]
  have key := huber_foldl_apply X (fun i => Y i - mulVec X beta i) tau j (List.finRange n)
    (fun _ => 0)
  simp only [] at key
  rw [Function.update_noteq hj, if_neg (by decide), key, Fin.sum_univ_def, zero_sub]

/-- The squared-error gradient in closed form, away from a frozen intercept. -/
theorem gradLoss_l2_apply {n d : Nat} (X : Mat K n (d + 1)) (Y : Vec K n)
    (beta : Vec K (d + 1)) (tau : K) (j : Fin (d + 1)) (hj : j ≠ 0) :
    gradLoss X Y beta "l2" tau false j
      = (-∑ i, (Y i - mulVec X beta i) * X i j) / (n : K) := by
  unfold gradLoss
  simp only [Bool.not_false, if_true]
  rw [Function.update_noteq hj, neg_one_mul]

theorem mulVec_zero {n m : Nat} (X : Mat K n m) : mulVec X (fun _ => 0) = fun _ => 0 := by
  funext i
  simp [mulVec]

/-- On a design with entries 1, the gradient at zero is bounded by a bound on the
responses, for both losses. -/
theorem ones_gradLoss_le {n d : Nat} (Y : Vec K n) (B : K) (hB : 0 ≤ B)
    (hY : ∀ i, |Y i| ≤ B) (lossType : String) (hl : lossType = "l2" ∨ lossType = "Huber")
    (tau : K) (htau : 0 ≤ tau) (j : Fin (d + 1)) (hj : j ≠ 0) :
    |gradLoss (fun _ _ => 1 : Mat K n (d + 1)) Y (fun _ => 0) lossType tau false j| ≤ B := by
  have hsum : ∀ w : Vec K n, (∀ i, |w i| ≤ B) → |(-∑ i, w i * 1) / (n : K)| ≤ B := by
    intro w hw
    have hn : (0 : K) ≤ (n : K) := Nat.cast_nonneg n
    simp only [mul_one]
    rw [abs_div, abs_neg, abs_of_nonneg hn]
    rcases Nat.eq_zero_or_pos n with h0 | hpos
    · subst h0
      simpa using hB
    · have hn' : (0 : K) < (n : K) := by exact_mod_cast hpos
      rw [div_le_iff₀ hn']
      calc |∑ i, w i| ≤ ∑ i, |w i| := Finset.abs_sum_le_sum_abs _ _
        _ ≤ ∑ _i : Fin n, B := Finset.sum_le_sum fun i _ => hw i
        _ = B * (n : K) := by simp [mul_comm]
  rcases hl with hl | hl <;> subst hl
  · rw [gradLoss_l2_apply _ _ _ _ _ hj, mulVec_zero]
    simp only [sub_zero]
    exact hsum Y hY
  · rw [gradLoss_Huber_apply _ _ _ _ _ hj, mulVec_zero]
    simp only [sub_zero]
    refine hsum _ fun i => ?_
    split_ifs with h
    · exact hY i
    · rw [abs_mul, abs_of_nonneg htau]
      calc tau * |((sgn (Y i) : Int) : K)| ≤ tau * 1 :=
            mul_le_mul_of_nonneg_left (abs_sgn_le_one _) htau
        _ ≤ B := by linarith [hY i, not_le.mp h]

/-- On a design with entries 1 and responses bounded by `lambda`, contraction and
tightening stop on their first round at the zero vector. -/
theorem ones_ilamm {n d : Nat} (fuel : Nat) (Y : Vec K n) (lambda : K) (hlam : 0 ≤ lambda)
    (hY : ∀ i, |Y i| ≤ lambda) (penalty lossType : String)
    (hp : penalty = "Lasso" ∨ penalty = "SCAD" ∨ penalty = "MCP")
    (hl : lossType = "l2" ∨ lossType = "Huber") (tau phi0 gamma epsilon_c epsilon_t : K)
    (htau : 0 ≤ tau) (hphi0 : 0 < phi0) (hc : 0 ≤ epsilon_c) (ht : 0 ≤ epsilon_t)
    (iteMax : Int) (hMax : 0 ≤ iteMax) :
    ilamm (fuel + 1) (fun _ _ => 1 : Mat K n (d + 1)) Y lambda penalty lossType tau phi0 gamma
        epsilon_c epsilon_t iteMax false
      = some (fun _ => 0, max phi0 (phi0 / gamma), if penalty = "Lasso" then 0 else 1) := by
  refine ilamm_fixed fuel _ Y lambda penalty lossType tau phi0 gamma epsilon_c epsilon_t iteMax
    false hMax hc ht ?_
  refine updateBeta_zero_fixed _ Y _ phi0 lossType tau hphi0 (cmptLambda_zero _ _ _) ?_
  intro j hj
  rw [cmptLambda_at_zero lambda hlam penalty hp j hj]
  exact ones_gradLoss_le Y lambda hlam hY lossType hl tau htau j hj

theorem setRows_zero {n : Nat} (idx : List (Fin n)) :
    setRows (fun _ => (0 : K)) idx (fun _ => 0) = fun _ => 0 := by
  unfold setRows
  generalize List.finRange idx.length = l
  induction l with
  | nil => rfl
  | cons a l ih =>
    rw [List.foldl_cons]
    have : Function.update (fun _ : Fin n => (0 : K)) (idx.get a) 0 = fun _ => 0 :=
      Function.update_eq_self (idx.get a) (fun _ : Fin n => (0 : K))
    rw [this]
    exact ih

/-- When the fit on the rows outside every fold is the zero vector, the loop over
the folds leaves a zero `YPred` at zero. -/
theorem cvFolds_zero {n d : Nat}
    (fit : (m : Nat) → Mat K m (d + 1) → Vec K m → Option (Vec K (d + 1)))
    (X : Mat K n (d + 1)) (Y : Vec K n) (nfolds size : Int)
    (hfit : ∀ low up : Int, fit (getIndexComp n low up).length (rows X (getIndexComp n low up))
      (rows Y (getIndexComp n low up)) = some (fun _ => 0)) :
    ∀ js : List Nat, cvFolds fit X Y nfolds size js (fun _ => 0) = some (fun _ => 0) := by
  intro js
  induction js with
  | nil => rfl
  | cons j js ih =>
    rw [cvFolds]
    simp only [hfit, mulVec_zero, setRows_zero]
    exact ih

/-- When every fold fit of every grid point is the zero vector, each score is
`sqrt` of the sum of the squared responses. -/
theorem cvGrid_zero {n d : Nat} (P : Prims K)
    (fit : K → (m : Nat) → Mat K m (d + 1) → Vec K m → Option (Vec K (d + 1)))
    (X : Mat K n (d + 1)) (Y : Vec K n) (nfolds size : Int) :
    ∀ gs : List K,
      (∀ g ∈ gs, ∀ low up : Int, fit g (getIndexComp n low up).length
        (rows X (getIndexComp n low up)) (rows Y (getIndexComp n low up)) = some (fun _ => 0)) →
      cvGrid P fit X Y nfolds size gs (fun _ => 0)
        = some (gs.map (fun _ => P.sqrt (∑ r, (Y r - 0) ^ 2)), fun _ => 0) := by
  intro gs
  induction gs with
  | nil => intro _; rfl
  | cons g gs ih =>
    intro hfit
    rw [cvGrid, cvFolds_zero (fit g) X Y nfolds size (hfit g (List.mem_cons_self g gs))]
    simp only []
    rw [ih fun g' hg' => hfit g' (List.mem_cons_of_mem g hg')]
    rfl

/-- The same for the two loops of `cvNcvxHuberReg`. -/
theorem cvGrid2_zero {n d : Nat} (P : Prims K)
    (fit : K → K → (m : Nat) → Mat K m (d + 1) → Vec K m → Option (Vec K (d + 1)))
    (X : Mat K n (d + 1)) (Y : Vec K n) (nfolds size : Int) (tauSeq : List K) :
    ∀ ls : List K,
      (∀ l ∈ ls, ∀ t ∈ tauSeq, ∀ low up : Int, fit l t (getIndexComp n low up).length
        (rows X (getIndexComp n low up)) (rows Y (getIndexComp n low up)) = some (fun _ => 0)) →
      cvGrid2 P fit X Y nfolds size tauSeq ls (fun _ => 0)
        = some (ls.map (fun _ => tauSeq.map (fun _ => P.sqrt (∑ r, (Y r - 0) ^ 2))),
            fun _ => 0) := by
  intro ls
  induction ls with
  | nil => intro _; rfl
  | cons l ls ih =>
    intro hfit
    rw [cvGrid2, cvGrid_zero P (fit l) X Y nfolds size tauSeq
      (hfit l (List.mem_cons_self l ls))]
    simp only []
    rw [ih fun l' hl' => hfit l' (List.mem_cons_of_mem l hl')]
    rfl

/-- On a design with entries 1 and responses bounded by `lambda`, `ncvxReg` returns
the zero vector. -/
theorem ones_ncvxReg {n d : Nat} (P : Prims K) (fuel : Nat) (Y : Vec K n) (lambda : K)
    (hlam : 0 < lambda) (hY : ∀ i, |Y i| ≤ lambda) (penalty : String)
    (hp : penalty = "Lasso" ∨ penalty = "SCAD" ∨ penalty = "MCP")
    (phi0 gamma epsilon_c epsilon_t : K) (hphi0 : 0 < phi0) (hc : 0 ≤ epsilon_c)
    (ht : 0 ≤ epsilon_t) (iteMax : Int) (hMax : 0 ≤ iteMax) :
    ncvxReg P (fuel + 1) (Design.included (fun _ _ => 1 : Mat K n (d + 1))) Y lambda penalty
        phi0 gamma epsilon_c epsilon_t iteMax false
      = some ⟨fun _ => 0, max phi0 (phi0 / gamma), penalty, lambda,
          if penalty = "Lasso" then 0 else 1⟩ := by
  unfold ncvxReg
  simp only [Design.matrix, lambdaUsed_of_pos P _ Y lambda hlam]
  rw [ones_ilamm fuel Y lambda hlam.le hY penalty "l2" hp (Or.inl rfl) 1 phi0 gamma epsilon_c
    epsilon_t zero_le_one hphi0 hc ht iteMax hMax]

/-- On a design with entries 1 and responses bounded by `lambda`, `ncvxHuberReg`
called with a positive `tau` returns the zero vector. -/
theorem ones_ncvxHuberReg {n d : Nat} (P : Prims K) (fuel : Nat) (Y : Vec K n) (lambda : K)
    (hlam : 0 < lambda) (hY : ∀ i, |Y i| ≤ lambda) (penalty : String)
    (hp : penalty = "Lasso" ∨ penalty = "SCAD" ∨ penalty = "MCP")
    (tau phi0 gamma epsilon_c epsilon_t : K) (htau : 0 < tau) (hphi0 : 0 < phi0)
    (hc : 0 ≤ epsilon_c) (ht : 0 ≤ epsilon_t) (iteMax : Int) (hMax : 0 ≤ iteMax) :
    ncvxHuberReg P (fuel + 1) (Design.included (fun _ _ => 1 : Mat K n (d + 1))) Y lambda
        penalty tau phi0 gamma epsilon_c epsilon_t iteMax false
      = some ⟨fun _ => 0, max phi0 (phi0 / gamma), penalty, lambda, tau,
          if penalty = "Lasso" then 0 else 1⟩ := by
  have hu : tauUsed P (fuel + 1) (fun _ _ => 1 : Mat K n (d + 1)) Y lambda tau phi0 gamma
      epsilon_c epsilon_t iteMax false = some tau := by
    unfold tauUsed
    rw [if_neg (not_le.mpr htau)]
  unfold ncvxHuberReg
  simp only [Design.matrix, lambdaUsed_of_pos P _ Y lambda hlam, hu]
  rw [ones_ilamm fuel Y lambda hlam.le hY penalty "Huber" hp (Or.inr rfl) tau phi0 gamma
    epsilon_c epsilon_t htau.le hphi0 hc ht iteMax hMax]

/-- On a design with entries 1, responses bounded by `lambda` and the one-point grid
`[lambda]`, `cvNcvxReg` returns the zero vector, with the norm of `Y` as its score. -/
theorem ones_cvNcvxReg {n d : Nat} (P : Prims K) (fuel : Nat) (Y : Vec K n) (lambda : K)
    (hlam : 0 < lambda) (hY : ∀ i, |Y i| ≤ lambda) (nlambda : Nat) (penalty : String)
    (hp : penalty = "Lasso" ∨ penalty = "SCAD" ∨ penalty = "MCP")
    (phi0 gamma epsilon_c epsilon_t : K) (hphi0 : 0 < phi0) (hc : 0 ≤ epsilon_c)
    (ht : 0 ≤ epsilon_t) (iteMax : Int) (hMax : 0 ≤ iteMax) (nfolds : Int) :
    cvNcvxReg P (fuel + 1) (Design.included (fun _ _ => 1 : Mat K n (d + 1))) Y (some [lambda])
        nlambda penalty phi0 gamma epsilon_c epsilon_t iteMax nfolds false
      = some ⟨fun _ => 0, penalty, [lambda], [P.sqrt (∑ r, (Y r - 0) ^ 2)], lambda,
          foldsUsed nfolds n⟩ := by
  have hfit : ∀ g ∈ [lambda], ∀ low up : Int,
      (fun (lambda : K) (m : Nat) (X' : Mat K m (d + 1)) (Y' : Vec K m) =>
        (ncvxReg P (fuel + 1) (Design.included X') Y' lambda penalty phi0 gamma epsilon_c
          epsilon_t iteMax false).map (fun listILAMM => listILAMM.beta)) g
        (getIndexComp n low up).length
        (rows (fun _ _ => 1 : Mat K n (d + 1)) (getIndexComp n low up))
        (rows Y (getIndexComp n low up)) = some (fun _ => 0) := by
    intro g hg low up
    rw [List.mem_singleton.mp hg]
    have h1 : rows (fun _ _ => 1 : Mat K n (d + 1)) (getIndexComp n low up) = fun _ _ => 1 := rfl
    simp only [h1]
    rw [ones_ncvxReg P fuel (rows Y (getIndexComp n low up)) lambda hlam (fun k => hY _) penalty
      hp phi0 gamma epsilon_c epsilon_t hphi0 hc ht iteMax hMax]
    rfl
  have hgrid := cvGrid_zero P
    (fun (lambda : K) (m : Nat) (X' : Mat K m (d + 1)) (Y' : Vec K m) =>
      (ncvxReg P (fuel + 1) (Design.included X') Y' lambda penalty phi0 gamma epsilon_c
        epsilon_t iteMax false).map (fun listILAMM => listILAMM.beta))
    (fun _ _ => 1 : Mat K n (d + 1)) Y (foldsUsed nfolds n)
    (Int.tdiv (n : Int) (foldsUsed nfolds n)) [lambda] hfit
  unfold cvNcvxReg
  simp only [Design.matrix, lambdaGrid]
  rw [hgrid]
  simp only [List.map_cons, List.map_nil, index_min, indexMinLoop, List.getElem?_cons_zero]
  rw [ones_ncvxReg P fuel Y lambda hlam hY penalty hp phi0 gamma epsilon_c epsilon_t hphi0 hc ht
    iteMax hMax]

theorem abs_three_four_le (i : Fin 2) : |(![3, 4] : Vec ℝ 2) i| ≤ 10 := by
  fin_cases i <;> norm_num

theorem sqrt_three_four : Real.sqrt (∑ r, ((![3, 4] : Vec ℝ 2) r - 0) ^ 2) = 5 := by
  rw [Fin.sum_univ_two]
  have : (((![3, 4] : Vec ℝ 2) 0 - 0) ^ 2 + ((![3, 4] : Vec ℝ 2) 1 - 0) ^ 2 : ℝ) = 5 ^ 2 := by
    norm_num
  rw [this]
  exact Real.sqrt_sq (by norm_num)

/-- The run of `cvNcvxReg` over the reals on two rows with entries 1, the responses
3 and 4, the grid `[10]` and two folds. -/
theorem ones_cvNcvxReg_three_four (penalty : String)
    (hp : penalty = "Lasso" ∨ penalty = "SCAD" ∨ penalty = "MCP") (nfolds : Int) :
    cvNcvxReg (Prims.mk Real.exp Real.log Real.sqrt (fun _ => 1)) 1
        (Design.included (fun _ _ => 1 : Mat ℝ 2 2)) (![3, 4] : Vec ℝ 2) (some [10]) 1 penalty
        (1 / 1000) (3 / 2) (1 / 10000) (1 / 10000) 500 nfolds false
      = some ⟨fun _ => 0, penalty, [10], [5], 10, foldsUsed nfolds 2⟩ := by
  rw [ones_cvNcvxReg (Prims.mk Real.exp Real.log Real.sqrt (fun _ => 1)) 0 (![3, 4] : Vec ℝ 2) 10
    (by norm_num) abs_three_four_le 1 penalty hp (1 / 1000) (3 / 2) (1 / 10000) (1 / 10000)
    (by norm_num) (by norm_num) (by norm_num) 500 (by norm_num) nfolds]
  simp only [sqrt_three_four]

theorem cvNcvxHuberReg_some {n d : Nat} (P : Prims K) (fuel : Nat) (X : Design K n d)
    (Y : Vec K n) (lSeq : Option (List K)) (nlambda : Nat) (penalty : String)
    (tSeq : Option (List K)) (ntau : Nat) (phi0 gamma epsilon_c epsilon_t : K) (iteMax : Int)
    (nfolds : Int) (intercept : Bool) (r : CVHuberResult K d)
    (h : cvNcvxHuberReg P fuel X Y lSeq nlambda penalty tSeq ntau phi0 gamma epsilon_c epsilon_t
      iteMax nfolds intercept = some r) :
    ∃ (YPred : Vec K n) (cvIdx : Nat) (listILAMM : HuberFitResult K d),
      tauGrid P fuel X.matrix Y lSeq (gridSize lSeq nlambda) tSeq ntau phi0 gamma epsilon_c
        epsilon_t iteMax nfolds intercept = some r.tauSeq ∧
      cvGrid2 P (fun lambda tau _ X' Y' =>
          (ncvxHuberReg P fuel (Design.included X') Y' lambda penalty tau phi0 gamma epsilon_c
            epsilon_t iteMax intercept).map (fun listILAMM => listILAMM.beta))
          X.matrix Y (foldsUsed nfolds n) (Int.tdiv (n : Int) (foldsUsed nfolds n)) r.tauSeq
          (lambdaGrid P X.matrix Y lSeq nlambda) (fun _ => 0) = some (r.mse, YPred) ∧
      index_min (flatten r.mse (gridSize lSeq nlambda) (gridSize tSeq ntau)) = some cvIdx ∧
      (lambdaGrid P X.matrix Y lSeq nlambda)[idxLambda cvIdx (gridSize lSeq nlambda)]?
        = some r.lambdaMin ∧
      r.tauSeq[idxTau cvIdx (gridSize lSeq nlambda)]? = some r.tauMin ∧
      ncvxHuberReg P fuel (Design.included X.matrix) Y r.lambdaMin penalty r.tauMin phi0 gamma
        epsilon_c epsilon_t iteMax intercept = some listILAMM ∧
      r = ⟨listILAMM.beta, penalty, lambdaGrid P X.matrix Y lSeq nlambda, r.tauSeq, r.mse,
        r.lambdaMin, r.tauMin, foldsUsed nfolds n⟩ := by
  unfold cvNcvxHuberReg at h
  simp only [] at h
  split at h
  · exact absurd h (by simp)
  · rename_i tauSeq htau
    split at h
    · exact absurd h (by simp)
    · rename_i mse YPred hg
      split at h
      · exact absurd h (by simp)
      · rename_i cvIdx hi
        split at h
        · rename_i lambdaMin tauMin hl ht
          split at h
          · exact absurd h (by simp)
          · rename_i listILAMM hfit
            rw [← Option.some.inj h]
            exact ⟨YPred, cvIdx, listILAMM, htau, hg, hi, hl, ht, hfit, rfl⟩
        · exact absurd h (by simp)

theorem idxLambda_eq_mod (c nlambda : Nat) : idxLambda c nlambda = c % nlambda := by
  unfold idxLambda
  have := Nat.div_add_mod c nlambda
  have h2 : c / nlambda * nlambda = nlambda * (c / nlambda) := Nat.mul_comm _ _
  omega

theorem flatten_length (mse : List (List K)) (nlambda ntau : Nat) :
    (flatten mse nlambda ntau).length = nlambda * ntau := by
  simp [flatten]

/-- For `n >= 1` the loops of `tauConst` write exactly `n` values. -/
theorem tauConst_length (n : Nat) (hn : 1 ≤ n) : (tauConst n : List K).length = n := by
  unfold tauConst
  simp only [List.length_append, List.length_map, List.length_reverse, List.length_range]
  split_ifs <;> omega

/-- On a design with entries 1, responses bounded by `lambda`, the one-point grid
`[lambda]` and a non-empty grid of positive `tau`, `cvNcvxHuberReg` returns. -/
theorem ones_cvNcvxHuberReg_isSome {n d : Nat} (P : Prims K) (fuel : Nat) (Y : Vec K n)
    (lambda : K) (hlam : 0 < lambda) (hY : ∀ i, |Y i| ≤ lambda) (nlambda : Nat)
    (penalty : String) (hp : penalty = "Lasso" ∨ penalty = "SCAD" ∨ penalty = "MCP")
    (tSeq : Option (List K)) (ntau : Nat) (phi0 gamma epsilon_c epsilon_t : K)
    (hphi0 : 0 < phi0) (hc : 0 ≤ epsilon_c) (ht : 0 ≤ epsilon_t) (iteMax : Int)
    (hMax : 0 ≤ iteMax) (nfolds : Int) (ts : List K)
    (htg : tauGrid P (fuel + 1) (fun _ _ => 1 : Mat K n (d + 1)) Y (some [lambda])
      (gridSize (some [lambda]) nlambda) tSeq ntau phi0 gamma epsilon_c epsilon_t iteMax nfolds
      false = some ts)
    (hlen : ts.length = gridSize tSeq ntau) (hne : ts ≠ []) (hpos : ∀ t ∈ ts, 0 < t) :
    ∃ r, cvNcvxHuberReg P (fuel + 1) (Design.included (fun _ _ => 1 : Mat K n (d + 1))) Y
      (some [lambda]) nlambda penalty tSeq ntau phi0 gamma epsilon_c epsilon_t iteMax nfolds
      false = some r := by
  have hfit : ∀ l ∈ [lambda], ∀ t ∈ ts, ∀ low up : Int,
      (fun (lambda tau : K) (m : Nat) (X' : Mat K m (d + 1)) (Y' : Vec K m) =>
        (ncvxHuberReg P (fuel + 1) (Design.included X') Y' lambda penalty tau phi0 gamma
          epsilon_c epsilon_t iteMax false).map (fun listILAMM => listILAMM.beta)) l t
        (getIndexComp n low up).length
        (rows (fun _ _ => 1 : Mat K n (d + 1)) (getIndexComp n low up))
        (rows Y (getIndexComp n low up)) = some (fun _ => 0) := by
    intro l hl t htm low up
    rw [List.mem_singleton.mp hl]
    have h1 : rows (fun _ _ => 1 : Mat K n (d + 1)) (getIndexComp n low up) = fun _ _ => 1 := rfl
    simp only [h1]
    rw [ones_ncvxHuberReg P fuel (rows Y (getIndexComp n low up)) lambda hlam (fun k => hY _)
      penalty hp t phi0 gamma epsilon_c epsilon_t (hpos t htm) hphi0 hc ht iteMax hMax]
    rfl
  have hgrid := cvGrid2_zero P
    (fun (lambda tau : K) (m : Nat) (X' : Mat K m (d + 1)) (Y' : Vec K m) =>
      (ncvxHuberReg P (fuel + 1) (Design.included X') Y' lambda penalty tau phi0 gamma
        epsilon_c epsilon_t iteMax false).map (fun listILAMM => listILAMM.beta))
    (fun _ _ => 1 : Mat K n (d + 1)) Y (foldsUsed nfolds n)
    (Int.tdiv (n : Int) (foldsUsed nfolds n)) ts [lambda] hfit
  have hnt : 0 < gridSize tSeq ntau := by
    rw [← hlen]
    exact List.length_pos.mpr hne
  obtain ⟨cvIdx, hidx⟩ := index_min_isSome
    (flatten ([lambda].map (fun _ => ts.map (fun _ => P.sqrt (∑ r, (Y r - 0) ^ 2))))
      (gridSize (some [lambda]) nlambda) (gridSize tSeq ntau))
    (by
      intro hnil
      have := flatten_length ([lambda].map (fun _ => ts.map (fun _ => P.sqrt (∑ r, (Y r - 0) ^ 2))))
        (gridSize (some [lambda]) nlambda) (gridSize tSeq ntau)
      rw [hnil, List.length_nil, show gridSize (some [lambda]) nlambda = 1 from rfl,
        one_mul] at this
      omega)
  have hlt := (index_min_spec _ cvIdx hidx).1
  rw [flatten_length] at hlt
  have hgs : gridSize (some [lambda]) nlambda = 1 := rfl
  rw [hgs, one_mul] at hlt
  rw [hgs] at hidx
  have hl0 : ([lambda] : List K)[idxLambda cvIdx 1]? = some lambda := by
    rw [idxLambda_eq_mod, Nat.mod_one]
    rfl
  have hti : idxTau cvIdx 1 < ts.length := by
    unfold idxTau
    rw [Nat.div_one, hlen]
    exact hlt
  have ht0 : ts[idxTau cvIdx 1]? = some (ts[idxTau cvIdx 1]) := List.getElem?_eq_getElem hti
  unfold cvNcvxHuberReg
  rw [hgs] at htg
  simp only [Design.matrix, lambdaGrid, hgs]
  rw [htg]
  simp only []
  rw [hgrid]
  simp only [hidx, hl0, ht0]
  rw [ones_ncvxHuberReg P fuel Y lambda hlam hY penalty hp _ phi0 gamma epsilon_c epsilon_t
    (hpos _ (List.getElem_mem hti)) hphi0 hc ht iteMax hMax]
  exact ⟨_, rfl⟩

/-- The run of `cvNcvxHuberReg` over the reals on two rows with entries 1, the
responses 3 and 4, the grids `[10]` and `[1]` returns. -/
theorem ones_cvNcvxHuberReg_three_four (nfolds : Int) :
    ∃ r, cvNcvxHuberReg (Prims.mk Real.exp Real.log Real.sqrt (fun _ => 1)) 1
      (Design.included (fun _ _ => 1 : Mat ℝ 2 2)) (![3, 4] : Vec ℝ 2) (some [10]) 1 "SCAD"
      (some [1]) 1 (1 / 1000) (3 / 2) (1 / 10000) (1 / 10000) 500 nfolds false = some r :=
  ones_cvNcvxHuberReg_isSome (Prims.mk Real.exp Real.log Real.sqrt (fun _ => 1)) 0
    (![3, 4] : Vec ℝ 2) 10 (by norm_num) abs_three_four_le 1 "SCAD" (Or.inr (Or.inl rfl))
    (some [1]) 1 (1 / 1000) (3 / 2) (1 / 10000) (1 / 10000) (by norm_num) (by norm_num)
    (by norm_num) 500 (by norm_num) nfolds [1] rfl rfl (by simp) (by simp)

/-- The curvature that `LAMM` returns is at least the one it was called with. -/
theorem LAMM_phi_ge {n d : Nat} (fuel : Nat) (X : Mat K n (d + 1)) (Y : Vec K n)
    (Lambda beta : Vec K (d + 1)) (phi : K) (lossType : String) (tau gamma : K) (ic : Bool)
    (hphi : 0 ≤ phi) (hgamma : 1 ≤ gamma) (r : Vec K (d + 1) × K)
    (h : LAMM fuel X Y Lambda beta phi lossType tau gamma ic = some r) : phi ≤ r.2 := by
  obtain ⟨k, _, h2, _⟩ := LAMM_some X Y Lambda beta lossType tau gamma ic fuel phi r h
  rw [h2]
  exact le_mul_of_one_le_right hphi (one_le_pow₀ hgamma)

/-- Every value of `phi` in the loop around `LAMM` is at least `phi0`. -/
theorem lammLoopPhis_ge {n d : Nat} (fuel : Nat) (X : Mat K n (d + 1)) (Y : Vec K n)
    (Lambda : Vec K (d + 1)) (lossType : String) (tau gamma phi0 eps : K) (iteMax : Int)
    (ic : Bool) (hphi0 : 0 ≤ phi0) (hgamma : 1 ≤ gamma) :
    ∀ (k : Nat) (s : LoopState K d), phi0 ≤ s.phi →
      ∀ p ∈ lammLoopPhis fuel X Y Lambda lossType tau gamma phi0 eps iteMax ic k s,
        phi0 ≤ p := by
  intro k
  induction k with
  | zero => intro s _ p hp; simp [lammLoopPhis] at hp
  | succ k ih =>
    intro s hs p hp
    rw [lammLoopPhis] at hp
    split_ifs at hp with hle
    · cases hL : LAMM fuel X Y Lambda s.beta s.phi lossType tau gamma ic with
      | none =>
        simp only [hL, List.mem_singleton] at hp
        rw [hp]; exact hs
      | some r =>
        obtain ⟨b, q⟩ := r
        have hq : s.phi ≤ q := LAMM_phi_ge fuel X Y Lambda s.beta s.phi lossType tau gamma ic
          (le_trans hphi0 hs) hgamma (b, q) hL
        simp only [hL, List.mem_cons] at hp
        rcases hp with hp | hp | hp | hp
        · rw [hp]; exact hs
        · rw [hp]; exact le_trans hs hq
        · rw [hp]; exact le_max_left _ _
        · split_ifs at hp
          · simp at hp
          · exact ih _ (le_max_left _ _) p hp
    · simp at hp

/-- The `phi` with which the loop around `LAMM` ends is the one it started with or
one of the values listed by `lammLoopPhis`. -/
theorem lammLoop_phi_mem {n d : Nat} (fuel : Nat) (X : Mat K n (d + 1)) (Y : Vec K n)
    (Lambda : Vec K (d + 1)) (lossType : String) (tau gamma phi0 eps : K) (iteMax : Int)
    (ic : Bool) :
    ∀ (k : Nat) (s s' : LoopState K d),
      lammLoop fuel X Y Lambda lossType tau gamma phi0 eps iteMax ic k s = some s' →
      s'.phi = s.phi ∨
        s'.phi ∈ lammLoopPhis fuel X Y Lambda lossType tau gamma phi0 eps iteMax ic k s := by
  intro k
  induction k with
  | zero =>
    intro s s' h
    rw [lammLoop] at h
    split_ifs at h
    rw [← Option.some.inj h]; exact Or.inl rfl
  | succ k ih =>
    intro s s' h
    rw [lammLoop] at h
    rw [lammLoopPhis]
    split_ifs at h with hle
    · rw [if_pos hle]
      cases hL : LAMM fuel X Y Lambda s.beta s.phi lossType tau gamma ic with
      | none => simp [hL] at h
      | some r =>
        obtain ⟨b, q⟩ := r
        simp only [hL] at h ⊢
        right
        split_ifs at h with hstop
        · rw [← Option.some.inj h]
          simp
        · rw [if_neg hstop]
          rcases ih _ _ h with h' | h'
          · rw [h']; simp
          · exact List.mem_cons_of_mem _ (List.mem_cons_of_mem _ (List.mem_cons_of_mem _ h'))
    · rw [← Option.some.inj h]; exact Or.inl rfl

/-- Every value of `phi` in the tightening loop is at least `phi0`. -/
theorem tighteningPhis_ge {n d : Nat} (fuel : Nat) (X : Mat K n (d + 1)) (Y : Vec K n)
    (lambda : K) (penalty lossType : String) (tau gamma phi0 epsilon_t : K) (iteMax : Int)
    (ic : Bool) (hphi0 : 0 ≤ phi0) (hgamma : 1 ≤ gamma) :
    ∀ (k : Nat) (iteT : Int) (betaNew : Vec K (d + 1)),
      ∀ p ∈ tighteningPhis fuel X Y lambda penalty lossType tau gamma phi0 epsilon_t iteMax ic k
        iteT betaNew, phi0 ≤ p := by
  intro k
  induction k with
  | zero => intro iteT betaNew p hp; simp [tighteningPhis] at hp
  | succ k ih =>
    intro iteT betaNew p hp
    rw [tighteningPhis] at hp
    split_ifs at hp with hle
    · rcases List.mem_cons.mp hp with hp | hp
      · rw [hp]
      · rcases List.mem_append.mp hp with hp | hp
        · exact lammLoopPhis_ge fuel X Y _ lossType tau gamma phi0 epsilon_t iteMax ic hphi0
            hgamma _ _ (le_refl phi0) p hp
        · split at hp
          · simp at hp
          · split_ifs at hp
            · simp at hp
            · exact ih _ _ p hp
    · simp at hp

/-- The `phi` with which the tightening loop ends is the one it started with or one
of the values listed by `tighteningPhis`. -/
theorem tightening_phi_mem {n d : Nat} (fuel : Nat) (X : Mat K n (d + 1)) (Y : Vec K n)
    (lambda : K) (penalty lossType : String) (tau gamma phi0 epsilon_t : K) (iteMax : Int)
    (ic : Bool) :
    ∀ (k : Nat) (iteT : Int) (betaNew : Vec K (d + 1)) (phi : K)
      (r : Int × Vec K (d + 1) × K),
      tightening fuel X Y lambda penalty lossType tau gamma phi0 epsilon_t iteMax ic k iteT
        betaNew phi = some r →
      r.2.2 = phi ∨ r.2.2 ∈ tighteningPhis fuel X Y lambda penalty lossType tau gamma phi0
        epsilon_t iteMax ic k iteT betaNew := by
  intro k
  induction k with
  | zero =>
    intro iteT betaNew phi r h
    rw [tightening] at h
    split_ifs at h
    rw [← Option.some.inj h]; exact Or.inl rfl
  | succ k ih =>
    intro iteT betaNew phi r h
    rw [tightening] at h
    rw [tighteningPhis]
    split_ifs at h with hle
    · rw [if_pos hle]
      right
      cases hL : lammLoop fuel X Y (cmptLambda betaNew lambda penalty) lossType tau gamma phi0
          epsilon_t iteMax ic (iteMax + 1).toNat ⟨0, betaNew, betaNew, phi0⟩ with
      | none => simp [hL] at h
      | some s =>
        simp only [hL] at h ⊢
        have hs : s.phi ∈ phi0 :: lammLoopPhis fuel X Y (cmptLambda betaNew lambda penalty)
            lossType tau gamma phi0 epsilon_t iteMax ic (iteMax + 1).toNat
            ⟨0, betaNew, betaNew, phi0⟩ := by
          rcases lammLoop_phi_mem fuel X Y _ lossType tau gamma phi0 epsilon_t iteMax ic _ _ _
            hL with h' | h'
          · rw [h']; exact List.mem_cons_self _ _
          · exact List.mem_cons_of_mem _ h'
        split_ifs at h with hstop
        · rw [← Option.some.inj h]
          rw [← List.cons_append]
          exact List.mem_append_left _ hs
        · rw [if_neg hstop]
          rcases ih _ _ _ _ h with h' | h'
          · rw [h', ← List.cons_append]
            exact List.mem_append_left _ hs
          · exact List.mem_cons_of_mem _ (List.mem_append_right _ h')
    · rw [← Option.some.inj h]; exact Or.inl rfl

/-- Every value of `phi` in a run of `ilamm` is at least `phi0`. -/
theorem ilammPhis_ge {n d : Nat} (fuel : Nat) (X : Mat K n (d + 1)) (Y : Vec K n) (lambda : K)
    (penalty lossType : String) (tau phi0 gamma epsilon_c epsilon_t : K) (iteMax : Int)
    (ic : Bool) (hphi0 : 0 ≤ phi0) (hgamma : 1 ≤ gamma) :
    ∀ p ∈ ilammPhis fuel X Y lambda penalty lossType tau phi0 gamma epsilon_c epsilon_t iteMax
      ic, phi0 ≤ p := by
  intro p hp
  unfold ilammPhis at hp
  rcases List.mem_cons.mp hp with hp | hp
  · rw [hp]
  · rcases List.mem_append.mp hp with hp | hp
    · exact lammLoopPhis_ge fuel X Y _ lossType tau gamma phi0 epsilon_c iteMax ic hphi0 hgamma
        _ _ (le_refl phi0) p hp
    · split at hp
      · simp at hp
      · split_ifs at hp
        · exact tighteningPhis_ge fuel X Y lambda penalty lossType tau gamma phi0 epsilon_t
            iteMax ic hphi0 hgamma _ _ _ p hp
        · simp at hp

/-- The `phi` that `ilamm` returns is one of the values listed by `ilammPhis`. -/
theorem ilamm_phi_mem {n d : Nat} (fuel : Nat) (X : Mat K n (d + 1)) (Y : Vec K n) (lambda : K)
    (penalty lossType : String) (tau phi0 gamma epsilon_c epsilon_t : K) (iteMax : Int)
    (ic : Bool) (r : Vec K (d + 1) × K × Int)
    (h : ilamm fuel X Y lambda penalty lossType tau phi0 gamma epsilon_c epsilon_t iteMax ic
      = some r) :
    r.2.1 ∈ ilammPhis fuel X Y lambda penalty lossType tau phi0 gamma epsilon_c epsilon_t iteMax
      ic := by
  unfold ilamm at h
  unfold ilammPhis
  simp only [] at h
  cases hc : lammLoop fuel X Y (cmptLambda (fun _ => 0) lambda penalty) lossType tau gamma phi0
      epsilon_c iteMax ic (iteMax + 1).toNat ⟨0, fun _ => 0, fun _ => 0, phi0⟩ with
  | none => simp [hc] at h
  | some s =>
    simp only [hc] at h ⊢
    have hs : s.phi ∈ phi0 :: lammLoopPhis fuel X Y (cmptLambda (fun _ => 0) lambda penalty)
        lossType tau gamma phi0 epsilon_c iteMax ic (iteMax + 1).toNat
        ⟨0, fun _ => 0, fun _ => 0, phi0⟩ := by
      rcases lammLoop_phi_mem fuel X Y _ lossType tau gamma phi0 epsilon_c iteMax ic _ _ _
        hc with h' | h'
      · rw [h']; exact List.mem_cons_self _ _
      · exact List.mem_cons_of_mem _ h'
    split_ifs at h with hp
    · rw [if_pos hp]
      cases ht : tightening fuel X Y lambda penalty lossType tau gamma phi0 epsilon_t iteMax ic
          (iteMax + 1).toNat 0 s.betaNew s.phi with
      | none => simp [ht] at h
      | some t =>
        simp only [ht] at h
        rw [← Option.some.inj h]
        rcases tightening_phi_mem fuel X Y lambda penalty lossType tau gamma phi0 epsilon_t
          iteMax ic _ _ _ _ t ht with h' | h'
        · simp only []
          rw [h', ← List.cons_append]
          exact List.mem_append_left _ hs
        · exact List.mem_cons_of_mem _ (List.mem_append_right _ h')
    · rw [← Option.some.inj h, ← List.cons_append]
      exact List.mem_append_left _ hs

/-- On a design with entries 1, `lambdaMax` is `|sum Y| / n`. -/
theorem lambdaMax_ones {n d : Nat} (Y : Vec K n) :
    lambdaMax (fun _ _ => 1 : Mat K n (d + 1)) Y = |∑ i, Y i| / (n : K) := by
  unfold lambdaMax
  simp only [mul_one, Finset.sup'_const]

theorem lambdaMax_ones_one_one :
    lambdaMax (fun _ _ => 1 : Mat ℝ 2 2) (![1, 1] : Vec ℝ 2) = 1 := by
  rw [lambdaMax_ones, Fin.sum_univ_two]
  norm_num

/-- The default grid with two points over the reals, on two rows with entries 1
and responses 1: it starts at `lambdaMin` and ends at `lambdaMax`. -/
theorem lambdaGrid_ones_two :
    lambdaGrid (Prims.mk Real.exp Real.log Real.sqrt (fun _ => 1))
      (fun _ _ => 1 : Mat ℝ 2 2) (![1, 1] : Vec ℝ 2) none 2 = [1 / 100, 1] := by
  have h := lambdaMax_ones_one_one
  unfold lambdaMax at h
  unfold lambdaGrid
  simp only [h, linspace]
  norm_num [List.range_succ, Real.exp_log]

/-- Up to `i = 30` the shift `1 << i` does not overflow. -/
theorem shl1_eq (i : Nat) (hi : i ≤ 30) : shl1 i = 2 ^ i := by
  unfold shl1
  have h1 : (2 : Int) ^ i ≤ 2 ^ 30 := pow_le_pow_right₀ (by norm_num) hi
  have h0 : (0 : Int) < 2 ^ i := by positivity
  rw [Int.emod_eq_of_lt (by omega) (by omega)]
  omega

/-- The first loop of `tauConst`: the values `2 ^ (-start), ..., 2 ^ (-1)`. -/
theorem tauConst_first (S : Nat) (hS : S ≤ 30) :
    ((List.range S).reverse.map (fun i => i + 1)).map
        (fun i => (1 : K) / ((shl1 i : Int) : K))
      = (List.range S).map (fun t : Nat => (2 : K) ^ ((t : Int) - (S : Int))) := by
  induction S with
  | zero => rfl
  | succ S ih =>
    rw [List.range_succ, List.reverse_append, List.reverse_singleton, List.singleton_append,
      List.map_cons, List.map_cons, ih (by omega), ← List.range_succ, List.range_succ_eq_map,
      List.map_cons, List.map_map]
    congr 1
    · rw [shl1_eq (S + 1) hS]
      push_cast
      rw [zero_sub, zpow_neg, one_div]
      norm_cast
    · refine List.map_congr_left fun t _ => ?_
      simp only [Function.comp]
      congr 1
      push_cast
      ring

/-- The second loop of `tauConst`: the values `2 ^ 0, ..., 2 ^ end`. -/
theorem tauConst_second (S E : Nat) (hE : E ≤ 30) :
    (List.range (E + 1)).map (fun i => ((shl1 i : Int) : K))
      = ((List.range (E + 1)).map (fun i => S + i)).map
          (fun t : Nat => (2 : K) ^ ((t : Int) - (S : Int))) := by
  rw [List.map_map]
  refine List.map_congr_left fun i hi => ?_
  have hi' : i ≤ 30 := by
    have := List.mem_range.mp hi
    omega
  simp only [Function.comp]
  rw [shl1_eq i hi']
  push_cast
  rw [add_sub_cancel_left, zpow_natCast]

/-- For `1 <= n <= 61`, `tauConst n` is the list of the `n` powers `2 ^ (t - start)`,
`t = 0, ..., n - 1`, with `start = n / 2 - 1` for even `n` and `start = n / 2` for odd `n`. -/
theorem tauConst_eq (n : Nat) (h1 : 1 ≤ n) (h61 : n ≤ 61) :
    (tauConst n : List K) = (List.range n).map (fun t : Nat =>
      (2 : K) ^ ((t : Int) - (if n % 2 = 0 then (n : Int) / 2 - 1 else (n : Int) / 2))) := by
  unfold tauConst
  simp only []
  by_cases hpar : n % 2 = 0
  · have hS : ((n : Int) / 2 - 1).toNat = n / 2 - 1 := by omega
    have hE : ((n : Int) / 2 + 1).toNat = n / 2 + 1 := by omega
    have hc : ((n / 2 - 1 : Nat) : Int) = (n : Int) / 2 - 1 := by omega
    rw [if_pos (by omega), if_pos hpar, hS, hE, tauConst_first (n / 2 - 1) (by omega),
      tauConst_second (n / 2 - 1) (n / 2) (by omega), ← List.map_append, ← List.range_add, hc]
    congr 2
    omega
  · have hS : ((n : Int) / 2).toNat = n / 2 := by omega
    have hE : ((n : Int) / 2 + 1).toNat = n / 2 + 1 := by omega
    have hc : ((n / 2 : Nat) : Int) = (n : Int) / 2 := by omega
    rw [if_neg (by omega), if_neg hpar, hS, hE, tauConst_first (n / 2) (by omega),
      tauConst_second (n / 2) (n / 2) (by omega), ← List.map_append, ← List.range_add, hc]
    congr 2
    omega

theorem tauConst_five : (tauConst 5 : List ℚ) = [1 / 4, 1 / 2, 1, 2, 4] := by
  rw [tauConst_eq 5 (by norm_num) (by norm_num)]
  norm_num [List.range_succ]

theorem tauConst_four : (tauConst 4 : List ℚ) = [1 / 2, 1, 2, 4] := by
  rw [tauConst_eq 4 (by norm_num) (by norm_num)]
  norm_num [List.range_succ]

/-- With `tSeq` absent, `tauGrid` is the Lasso cross-validation followed by the
scaling of `tauConst`. -/
theorem tauGrid_none {n d : Nat} (P : Prims K) (fuel : Nat) (X : Mat K n (d + 1))
    (Y : Vec K n) (lSeq : Option (List K)) (nlambda ntau : Nat)
    (phi0 gamma epsilon_c epsilon_t : K) (iteMax : Int) (nfolds : Int) (intercept : Bool)
    (tauSeq : List K)
    (h : tauGrid P fuel X Y lSeq nlambda none ntau phi0 gamma epsilon_c epsilon_t iteMax nfolds
      intercept = some tauSeq) :
    ∃ listILAMM : CVResult K d,
      cvNcvxReg P fuel (Design.included X) Y lSeq nlambda "Lasso" phi0 gamma epsilon_c epsilon_t
        iteMax nfolds intercept = some listILAMM ∧
      tauSeq = (tauConst ntau).map (fun c =>
        P.median (fun i => |(Y i - mulVec X listILAMM.beta i)
            - P.median (fun i => Y i - mulVec X listILAMM.beta i)|) / (6745 / 10000)
          * P.sqrt ((n : K) / P.log ((n : K) * (d : K))) * c) := by
  simp only [tauGrid] at h
  split at h
  · exact absurd h (by simp)
  · rename_i listILAMM hcv
    exact ⟨listILAMM, hcv, (Option.some.inj h).symm⟩

/-- The default grid of `tau` over the reals, with a stand-in 1 for the medians, on
two rows with entries 1, responses 3 and 4, the grid `[10]` and `ntau = 2`. -/
theorem ones_tauGrid_three_four (nfolds : Int) :
    tauGrid (Prims.mk Real.exp Real.log Real.sqrt (fun _ => 1)) 1
        (fun _ _ => 1 : Mat ℝ 2 2) (![3, 4] : Vec ℝ 2) (some [10]) 1 none 2 (1 / 1000) (3 / 2)
        (1 / 10000) (1 / 10000) 500 nfolds false
      = some ((tauConst 2).map (fun c =>
          1 / (6745 / 10000) * Real.sqrt (((2 : Nat) : ℝ) / Real.log (((2 : Nat) : ℝ)
            * ((1 : Nat) : ℝ))) * c)) := by
  unfold tauGrid
  simp only []
  rw [ones_cvNcvxReg (Prims.mk Real.exp Real.log Real.sqrt (fun _ => 1)) 0 (![3, 4] : Vec ℝ 2) 10
    (by norm_num) abs_three_four_le 1 "Lasso" (Or.inl rfl) (1 / 1000) (3 / 2) (1 / 10000)
    (1 / 10000) (by norm_num) (by norm_num) (by norm_num) 500 (by norm_num) nfolds]

/-- The run of `cvNcvxHuberReg` with the default grid of `tau` over the reals
returns. -/
theorem ones_cvNcvxHuberReg_default_tau (nfolds : Int) :
    ∃ r, cvNcvxHuberReg (Prims.mk Real.exp Real.log Real.sqrt (fun _ => 1)) 1
      (Design.included (fun _ _ => 1 : Mat ℝ 2 2)) (![3, 4] : Vec ℝ 2) (some [10]) 1 "SCAD"
      none 2 (1 / 1000) (3 / 2) (1 / 10000) (1 / 10000) 500 nfolds false = some r := by
  have hc : (0 : ℝ) < 1 / (6745 / 10000) * Real.sqrt (((2 : Nat) : ℝ)
      / Real.log (((2 : Nat) : ℝ) * ((1 : Nat) : ℝ))) := by
    have hlog : 0 < Real.log (((2 : Nat) : ℝ) * ((1 : Nat) : ℝ)) :=
      Real.log_pos (by norm_num)
    have : 0 < Real.sqrt (((2 : Nat) : ℝ) / Real.log (((2 : Nat) : ℝ) * ((1 : Nat) : ℝ))) :=
      Real.sqrt_pos.mpr (div_pos (by norm_num) hlog)
    positivity
  refine ones_cvNcvxHuberReg_isSome (Prims.mk Real.exp Real.log Real.sqrt (fun _ => 1)) 0
    (![3, 4] : Vec ℝ 2) 10 (by norm_num) abs_three_four_le 1 "SCAD" (Or.inr (Or.inl rfl))
    none 2 (1 / 1000) (3 / 2) (1 / 10000) (1 / 10000) (by norm_num) (by norm_num)
    (by norm_num) 500 (by norm_num) nfolds _ (ones_tauGrid_three_four nfolds) ?_ ?_ ?_
  · rw [List.length_map, tauConst_length 2 (by norm_num)]
    rfl
  · intro h
    have := congrArg List.length h
    rw [List.length_map, tauConst_length 2 (by norm_num)] at this
    exact absurd this (by decide)
  · intro t ht
    obtain ⟨c, hcm, rfl⟩ := List.mem_map.mp ht
    have hcpos : (0 : ℝ) < c := by
      rw [tauConst_eq 2 (by norm_num) (by norm_num)] at hcm
      obtain ⟨t', _, rfl⟩ := List.mem_map.mp hcm
      positivity
    exact mul_pos hc hcpos

/-- On a design with entries 1, responses bounded by `lambda` and the one-point grid
`[lambda]`, the loops of `cvNcvxReg` leave `YPred` at zero and give the norm of `Y` as
score. -/
theorem ones_cvGrid {n d : Nat} (P : Prims K) (fuel : Nat) (Y : Vec K n) (lambda : K)
    (hlam : 0 < lambda) (hY : ∀ i, |Y i| ≤ lambda) (penalty : String)
    (hp : penalty = "Lasso" ∨ penalty = "SCAD" ∨ penalty = "MCP")
    (phi0 gamma epsilon_c epsilon_t : K) (hphi0 : 0 < phi0) (hc : 0 ≤ epsilon_c)
    (ht : 0 ≤ epsilon_t) (iteMax : Int) (hMax : 0 ≤ iteMax) (nfolds size : Int) :
    cvGrid P (fun (lambda : K) (m : Nat) (X' : Mat K m (d + 1)) (Y' : Vec K m) =>
        (ncvxReg P (fuel + 1) (Design.included X') Y' lambda penalty phi0 gamma epsilon_c
          epsilon_t iteMax false).map (fun listILAMM => listILAMM.beta))
        (fun _ _ => 1 : Mat K n (d + 1)) Y nfolds size [lambda] (fun _ => 0)
      = some ([P.sqrt (∑ r, (Y r - 0) ^ 2)], fun _ => 0) := by
  refine cvGrid_zero P _ (fun _ _ => 1 : Mat K n (d + 1)) Y nfolds size [lambda] ?_
  intro g hg low up
  rw [List.mem_singleton.mp hg]
  have h1 : rows (fun _ _ => 1 : Mat K n (d + 1)) (getIndexComp n low up) = fun _ _ => 1 := rfl
  simp only [h1]
  rw [ones_ncvxReg P fuel (rows Y (getIndexComp n low up)) lambda hlam (fun k => hY _) penalty
    hp phi0 gamma epsilon_c epsilon_t hphi0 hc ht iteMax hMax]
  rfl

/-- The loop of `loss` for the Huber loss, as a sum. -/
theorem huber_loss_foldl {n : Nat} (res : Vec K n) (tau : K) :
    ∀ (l : List (Fin n)) (init : K),
      l.foldl (fun rst i =>
        if |res i| ≤ tau then rst + res i * res i / 2
        else rst + (tau * |res i| - tau * tau / 2)) init
      = init + (l.map (fun i =>
          if |res i| ≤ tau then res i * res i / 2 else tau * |res i| - tau * tau / 2)).sum := by
  intro l
  induction l with
  | nil => intro init; simp
  | cons a l ih =>
    intro init
    rw [List.foldl_cons, ih, List.map_cons, List.sum_cons]
    split_ifs <;> ring

/-- The Huber loss in closed form. -/
theorem loss_Huber_eq {n : Nat} (Y Ynew : Vec K n) (tau : K) :
    loss Y Ynew "Huber" tau
      = (∑ i, if |Y i - Ynew i| ≤ tau then (Y i - Ynew i) * (Y i - Ynew i) / 2
          else tau * |Y i - Ynew i| - tau * tau / 2) / (n : K) := by
  have key := huber_loss_foldl (fun i => Y i - Ynew i) tau (List.finRange n) 0
  simp only [] at key
  unfold loss
  simp only [if_true]
  rw [if_neg (show ¬ "Huber" = "l2" by decide), key, zero_add, Fin.sum_univ_def]

/-- The vector accumulated by `gradLoss` for the Huber loss, before the intercept
is frozen and the division by `n`. -/
theorem huber_foldl_eq {n m : Nat} (X : Mat K n m) (res : Vec K n) (tau : K) :
    (List.finRange n).foldl (fun rst i =>
        if |res i| ≤ tau then fun j => rst j - res i * X i j
        else fun j => rst j - tau * (sgn (res i) : K) * X i j) (fun _ => 0)
      = fun j => -∑ i, (if |res i| ≤ tau then res i else tau * (sgn (res i) : K)) * X i j := by
  funext j
  rw [huber_foldl_apply, Fin.sum_univ_def, zero_sub]

/-- One coordinate of the proximal step, with threshold `t >= 0`. -/
theorem softThresh_scalar_prox (v t b : K) (ht : 0 ≤ t) :
    (sign v * max (|v| - t) 0 - v) ^ 2 / 2 + t * |sign v * max (|v| - t) 0|
      ≤ (b - v) ^ 2 / 2 + t * |b| := by
  rcases le_or_lt (|v|) t with h | h
  · rw [max_eq_right (by linarith), mul_zero, abs_zero, mul_zero, add_zero, zero_sub, neg_sq]
    have h1 : b * v ≤ |b| * |v| := by rw [← abs_mul]; exact le_abs_self _
    have h2 : |b| * |v| ≤ |b| * t := mul_le_mul_of_nonneg_left h (abs_nonneg b)
    nlinarith [sq_nonneg b]
  · rw [max_eq_left (by linarith)]
    rcases lt_trichotomy v 0 with hv | hv | hv
    · have hs : sign v = -1 := by simp [sign, hv]
      rw [abs_of_neg hv] at h
      have habs : |(-1 : K) * (-v - t)| = -v - t := by
        rw [abs_mul, abs_neg, abs_one, one_mul, abs_of_pos (by linarith)]
      rw [hs, abs_of_neg hv, habs]
      nlinarith [sq_nonneg (b - v - t), neg_abs_le b,
        mul_nonneg ht (by linarith [neg_abs_le b] : (0 : K) ≤ |b| + b)]
    · rw [hv, abs_zero] at h
      exact absurd h (not_lt.mpr ht)
    · have hs : sign v = 1 := by simp [sign, not_lt.mpr hv.le, hv.ne']
      rw [abs_of_pos hv] at h
      have habs : |(1 : K) * (v - t)| = v - t := by
        rw [one_mul, abs_of_pos (by linarith)]
      rw [hs, abs_of_pos hv, habs]
      nlinarith [sq_nonneg (b - v + t), le_abs_self b,
        mul_nonneg ht (by linarith [le_abs_self b] : (0 : K) ≤ |b| - b)]

/-- One coordinate of the proximal step with curvature `phi > 0` and weight `L >= 0`. -/
theorem softThresh_prox_coord (v L phi b : K) (hphi : 0 < phi) (hL : 0 ≤ L) :
    phi / 2 * (sign v * max (|v| - L / phi) 0 - v) ^ 2
        + L * |sign v * max (|v| - L / phi) 0|
      ≤ phi / 2 * (b - v) ^ 2 + L * |b| := by
  have ht := div_nonneg hL hphi.le
  have e : L = phi * (L / phi) := by field_simp
  generalize L / phi = t at ht e ⊢
  subst e
  have h := mul_le_mul_of_nonneg_left (softThresh_scalar_prox v t b ht) hphi.le
  linarith

/-- One coordinate of the descent of the surrogate: the proximal step from `beta`
along `g` does not increase the linearization plus quadratic term plus penalty. -/
theorem softThresh_descent_coord (beta g L phi : K) (hphi : 0 < phi) (hL : 0 ≤ L) :
    g * (sign (beta - g / phi) * max (|beta - g / phi| - L / phi) 0 - beta)
        + phi * ((sign (beta - g / phi) * max (|beta - g / phi| - L / phi) 0 - beta)
            * (sign (beta - g / phi) * max (|beta - g / phi| - L / phi) 0 - beta)) / 2
        + L * |sign (beta - g / phi) * max (|beta - g / phi| - L / phi) 0|
      ≤ L * |beta| := by
  have h := softThresh_prox_coord (beta - g / phi) L phi beta hphi hL
  have e : g = phi * (g / phi) := by field_simp
  generalize sign (beta - g / phi) * max (|beta - g / phi| - L / phi) 0 = s at h ⊢
  generalize g / phi = c at h e
  subst e
  nlinarith [h]

/-- The step of `updateBeta` does not increase the surrogate of `cmptPsi` plus the
weighted l1 penalty, for every loss kind and intercept flag. -/
theorem updateBeta_descent {n d : Nat} (X : Mat K n (d + 1)) (Y : Vec K n)
    (beta : Vec K (d + 1)) (phi : K) (Lambda : Vec K (d + 1)) (lossType : String) (tau : K)
    (ic : Bool) (hphi : 0 < phi) (hL : ∀ i, 0 ≤ Lambda i) :
    (∑ j, gradLoss X Y beta lossType tau ic j
        * (updateBeta X Y beta phi Lambda lossType tau ic j - beta j))
      + phi * (∑ j, (updateBeta X Y beta phi Lambda lossType tau ic j - beta j)
          * (updateBeta X Y beta phi Lambda lossType tau ic j - beta j)) / 2
      + ∑ j, Lambda j * |updateBeta X Y beta phi Lambda lossType tau ic j|
      ≤ ∑ j, Lambda j * |beta j| := by
  rw [Finset.mul_sum, Finset.sum_div, ← Finset.sum_add_distrib, ← Finset.sum_add_distrib]
  refine Finset.sum_le_sum fun j _ => ?_
  exact softThresh_descent_coord (beta j) (gradLoss X Y beta lossType tau ic j) (Lambda j) phi
    hphi (hL j)

/-- Every fold holds a row: row `j * size` lies in fold `j`. -/
theorem fold_nonempty (n N : Nat) (hN : 1 ≤ N) (hNn : N ≤ n) (j : Nat) (hj : j < N) :
    ∃ r : Fin n, r ∈ getIndex n (foldLow ((n / N : Nat) : Int) j)
      (foldUp n (N : Int) ((n / N : Nat) : Int) j) := by
  have hs : 0 < n / N := Nat.div_pos hNn hN
  have h1 : j * (n / N) ≤ (N - 1) * (n / N) := Nat.mul_le_mul_right _ (by omega)
  have h2 : (N - 1) * (n / N) + n / N = N * (n / N) := by
    obtain ⟨M, rfl⟩ : ∃ M, N = M + 1 := ⟨N - 1, by omega⟩
    rw [Nat.add_sub_cancel]
    ring
  have h3 : N * (n / N) ≤ n := Nat.mul_div_le n N
  have hlt : j * (n / N) < n := by omega
  refine ⟨⟨j * (n / N), hlt⟩, ?_⟩
  rw [mem_getIndex]
  unfold foldLow foldUp
  have hc : ((j * (n / N) : Nat) : Int) = (j : Int) * ((n / N : Nat) : Int) := by push_cast; rfl
  have he : ((j : Int) + 1) * ((n / N : Nat) : Int)
      = (j : Int) * ((n / N : Nat) : Int) + ((n / N : Nat) : Int) := by ring
  have hlt' : (j : Int) * ((n / N : Nat) : Int) < (n : Int) := by rw [← hc]; exact_mod_cast hlt
  simp only [hc]
  refine ⟨le_refl _, ?_⟩
  split_ifs
  · omega
  · rw [he]
    omega

/-- `tauConst` as its two loops write it, with the shifts evaluated. -/
theorem tauConst_loops (n : Nat) (h1 : 1 ≤ n) (h61 : n ≤ 61) :
    (tauConst n : List K)
      = ((List.range (if n % 2 = 1 then n / 2 else n / 2 - 1)).reverse.map
            (fun i : Nat => (2 : K) ^ (-((i : Int) + 1))))
          ++ (List.range (n / 2 + 1)).map (fun i : Nat => (2 : K) ^ i) := by
  have hS : (if (n : Int) = (n : Int) / 2 * 2 then (n : Int) / 2 - 1 else (n : Int) / 2).toNat
      = if n % 2 = 1 then n / 2 else n / 2 - 1 := by
    split_ifs <;> omega
  have hE : ((n : Int) / 2 + 1).toNat = n / 2 + 1 := by omega
  unfold tauConst
  simp only []
  rw [hS, hE, List.map_map]
  congr 1
  · refine List.map_congr_left fun i hi => ?_
    have hi' : i + 1 ≤ 30 := by
      have := List.mem_range.mp (List.mem_reverse.mp hi)
      split_ifs at this <;> omega
    simp only [Function.comp]
    rw [shl1_eq (i + 1) hi', zpow_neg, one_div]
    norm_cast
  · refine List.map_congr_left fun i hi => ?_
    have hi' : i ≤ 30 := by
      have := List.mem_range.mp hi
      omega
    rw [shl1_eq i hi']
    norm_cast

/-- Writing the predictions of the rows `idx` into `YPred` changes exactly the rows
of `idx`, each to its own prediction. -/
theorem setRows_mulVec {n d : Nat} (X : Mat K n (d + 1)) (YPred : Vec K n)
    (idx : List (Fin n)) (b : Vec K (d + 1)) (r : Fin n) :
    setRows YPred idx (mulVec (rows X idx) b) r
      = if r ∈ idx then mulVec X b r else YPred r := by
  have key : ∀ (l : List (Fin idx.length)) (YP : Vec K n),
      l.foldl (fun YP k => Function.update YP (idx.get k) (mulVec (rows X idx) b k)) YP r
        = if r ∈ l.map idx.get then mulVec X b r else YP r := by
    intro l
    induction l with
    | nil => intro YP; simp
    | cons a l ih =>
      intro YP
      rw [List.foldl_cons, ih, List.map_cons]
      by_cases h1 : r ∈ l.map idx.get
      · rw [if_pos h1, if_pos (List.mem_cons_of_mem _ h1)]
      · by_cases h2 : r = idx.get a
        · subst h2
          rw [if_neg h1, if_pos (List.mem_cons_self _ _), Function.update_same]
          rfl
        · rw [if_neg h1, if_neg (fun h => (List.mem_cons.mp h).elim h2 h1),
            Function.update_noteq h2]
  unfold setRows
  rw [key, List.finRange_map_get]

/-- The loop over the folds: every fit returned, a row of a fold of `js` holds the
prediction of the fit of that fold, and the other rows are unchanged.  The folds of
`js` are assumed not to overlap. -/
theorem cvFolds_spec {n d : Nat}
    (fit : (m : Nat) → Mat K m (d + 1) → Vec K m → Option (Vec K (d + 1)))
    (X : Mat K n (d + 1)) (Y : Vec K n) (nfolds size : Int) :
    ∀ (js : List Nat) (YPred YP : Vec K n),
      (∀ j ∈ js, ∀ j' ∈ js, ∀ row : Fin n,
        row ∈ getIndex n (foldLow size j) (foldUp n nfolds size j) →
        row ∈ getIndex n (foldLow size j') (foldUp n nfolds size j') → j = j') →
      cvFolds fit X Y nfolds size js YPred = some YP →
      (∀ j ∈ js, (fit (getIndexComp n (foldLow size j) (foldUp n nfolds size j)).length
        (rows X (getIndexComp n (foldLow size j) (foldUp n nfolds size j)))
        (rows Y (getIndexComp n (foldLow size j) (foldUp n nfolds size j)))).isSome) ∧
      ∀ row : Fin n,
        (∀ j ∈ js, row ∈ getIndex n (foldLow size j) (foldUp n nfolds size j) →
          YP row = mulVec X
            ((fit (getIndexComp n (foldLow size j) (foldUp n nfolds size j)).length
              (rows X (getIndexComp n (foldLow size j) (foldUp n nfolds size j)))
              (rows Y (getIndexComp n (foldLow size j) (foldUp n nfolds size j)))).getD
              (fun _ => 0)) row) ∧
        ((∀ j ∈ js, row ∉ getIndex n (foldLow size j) (foldUp n nfolds size j)) →
          YP row = YPred row) := by
  intro js
  induction js with
  | nil =>
    intro YPred YP _ h
    simp only [cvFolds, Option.some.injEq] at h
    subst h
    simp
  | cons j js ih =>
    intro YPred YP hdis h
    rw [cvFolds] at h
    cases hf : fit (getIndexComp n (foldLow size j) (foldUp n nfolds size j)).length
        (rows X (getIndexComp n (foldLow size j) (foldUp n nfolds size j)))
        (rows Y (getIndexComp n (foldLow size j) (foldUp n nfolds size j))) with
    | none => simp [hf] at h
    | some b =>
      simp only [hf] at h
      obtain ⟨ih1, ih2⟩ := ih _ _
        (fun a ha a' ha' => hdis a (List.mem_cons_of_mem _ ha) a' (List.mem_cons_of_mem _ ha')) h
      refine ⟨?_, fun row => ⟨?_, ?_⟩⟩
      · intro j' hj'
        rcases List.mem_cons.mp hj' with rfl | hj'
        · rw [hf]; rfl
        · exact ih1 j' hj'
      · intro j' hj' hrow
        rcases List.mem_cons.mp hj' with rfl | hj'
        · by_cases hex : ∃ a ∈ js, row ∈ getIndex n (foldLow size a) (foldUp n nfolds size a)
          · obtain ⟨a, ha, hrowa⟩ := hex
            have hja : j' = a :=
              hdis j' (List.mem_cons_self _ _) a (List.mem_cons_of_mem _ ha) row hrow hrowa
            subst hja
            exact (ih2 row).1 j' ha hrow
          · have hno : ∀ a ∈ js,
                row ∉ getIndex n (foldLow size a) (foldUp n nfolds size a) :=
              fun a ha hra => hex ⟨a, ha, hra⟩
            rw [(ih2 row).2 hno, setRows_mulVec, if_pos hrow, hf]
            rfl
        · exact (ih2 row).1 j' hj' hrow
      · intro hno
        rw [(ih2 row).2 (fun a ha => hno a (List.mem_cons_of_mem _ ha)), setRows_mulVec,
          if_neg (hno j (List.mem_cons_self _ _))]

/-- The loop over the grid: the score of grid point `i` is the norm of `Y` minus the
predictions of the fold fits made at that grid point, whatever `YPred` held before.
Here `f` maps each row to a fold that contains it. -/
theorem cvGrid_entry {n d : Nat} (P : Prims K)
    (fit : K → (m : Nat) → Mat K m (d + 1) → Vec K m → Option (Vec K (d + 1)))
    (X : Mat K n (d + 1)) (Y : Vec K n) (nfolds size : Int)
    (hdis : ∀ j ∈ List.range nfolds.toNat, ∀ j' ∈ List.range nfolds.toNat, ∀ row : Fin n,
      row ∈ getIndex n (foldLow size j) (foldUp n nfolds size j) →
      row ∈ getIndex n (foldLow size j') (foldUp n nfolds size j') → j = j')
    (f : Fin n → Nat)
    (hf : ∀ row : Fin n, f row ∈ List.range nfolds.toNat ∧
      row ∈ getIndex n (foldLow size (f row)) (foldUp n nfolds size (f row))) :
    ∀ (gs : List K) (YPred : Vec K n) (res : List K × Vec K n),
      cvGrid P fit X Y nfolds size gs YPred = some res →
      ∀ i : Nat, i < gs.length →
        (∀ j ∈ List.range nfolds.toNat,
          (fit (gs.getD i 0) (getIndexComp n (foldLow size j) (foldUp n nfolds size j)).length
            (rows X (getIndexComp n (foldLow size j) (foldUp n nfolds size j)))
            (rows Y (getIndexComp n (foldLow size j) (foldUp n nfolds size j)))).isSome) ∧
        res.1.getD i 0 = P.sqrt (∑ row, (Y row - mulVec X
          ((fit (gs.getD i 0)
            (getIndexComp n (foldLow size (f row)) (foldUp n nfolds size (f row))).length
            (rows X (getIndexComp n (foldLow size (f row)) (foldUp n nfolds size (f row))))
            (rows Y (getIndexComp n (foldLow size (f row))
              (foldUp n nfolds size (f row))))).getD (fun _ => 0)) row) ^ 2) := by
  intro gs
  induction gs with
  | nil => intro _ _ _ i hi; simp at hi
  | cons g gs ih =>
    intro YPred res h i hi
    rw [cvGrid] at h
    cases hfo : cvFolds (fit g) X Y nfolds size (List.range nfolds.toNat) YPred with
    | none => simp [hfo] at h
    | some YP =>
      simp only [hfo] at h
      cases hg : cvGrid P fit X Y nfolds size gs YP with
      | none => simp [hg] at h
      | some t =>
        obtain ⟨mse, YP'⟩ := t
        simp only [hg, Option.some.injEq] at h
        subst h
        cases i with
        | zero =>
          obtain ⟨h1, h2⟩ := cvFolds_spec (fit g) X Y nfolds size _ _ _ hdis hfo
          refine ⟨h1, ?_⟩
          simp only [List.getD_cons_zero]
          congr 1
          refine Finset.sum_congr rfl fun row _ => ?_
          rw [(h2 row).1 (f row) (hf row).1 (hf row).2]
        | succ i =>
          have := ih YP (mse, YP') hg i (by simpa using hi)
          simpa only [List.getD_cons_succ] using this

/-- In exact arithmetic a large enough `lambda` gives the all-zero fit: when
`lambda > 0` is at least `|sum_r X[r,j] * Y[r]| / n` for every column `j >= 1`, the
zero vector is a fixed point of `updateBeta` and both stages stop on their first
round.  The source computes the sums and the division in rounded `double`
arithmetic, where the computed gradient can exceed `lambda` although the exact
one does not; this lemma says nothing about such runs. -/
theorem ncvxReg_zero_fit_exact {n d : Nat} (P : Prims K) (fuel : Nat) (X : Design K n d)
    (Y : Vec K n) (lambda : K) (penalty : String)
    (hp : penalty = "Lasso" ∨ penalty = "SCAD" ∨ penalty = "MCP")
    (phi0 gamma epsilon_c epsilon_t : K) (iteMax : Int) (hn : 1 ≤ n) (hphi0 : 0 < phi0)
    (hgamma : 1 < gamma) (hc : 0 ≤ epsilon_c) (ht : 0 ≤ epsilon_t) (hMax : 0 ≤ iteMax)
    (hlam : 0 < lambda)
    (hbig : ∀ j : Fin (d + 1), j ≠ 0 → |∑ r, X.matrix r j * Y r| / (n : K) ≤ lambda) :
    ncvxReg P (fuel + 1) X Y lambda penalty phi0 gamma epsilon_c epsilon_t iteMax false
      = some ⟨fun _ => 0, phi0, penalty, lambda, if penalty = "Lasso" then 0 else 1⟩ := by
  have hnK : (0 : K) < (n : K) := by exact_mod_cast hn
  have hfix : updateBeta X.matrix Y (fun _ => 0) phi0 (cmptLambda (fun _ => 0) lambda penalty)
      "l2" 1 false = fun _ => 0 := by
    refine updateBeta_zero_fixed _ Y _ phi0 "l2" 1 hphi0 (cmptLambda_zero _ _ _) ?_
    intro j hj
    rw [cmptLambda_at_zero lambda hlam.le penalty hp j hj, gradLoss_l2_apply X.matrix Y _ 1 j hj,
      mulVec_zero, abs_div, abs_neg, abs_of_pos hnK]
    have e : ∑ i, (Y i - (fun _ => (0 : K)) i) * X.matrix i j = ∑ r, X.matrix r j * Y r :=
      Finset.sum_congr rfl fun i _ => by simp only [sub_zero]; exact mul_comm _ _
    rw [e]
    exact hbig j hj
  have hmax : max phi0 (phi0 / gamma) = phi0 :=
    max_eq_left (div_le_self hphi0.le hgamma.le)
  unfold ncvxReg
  simp only [lambdaUsed_of_pos P _ Y lambda hlam]
  rw [ilamm_fixed fuel X.matrix Y lambda penalty "l2" 1 phi0 gamma epsilon_c epsilon_t iteMax
    false hMax hc ht hfix, hmax]

end Lemmas

section Claims

variable {K : Type} [LinearOrderedField K]

/-- C1: with `intercept = false`, for `phi0 > 0` and `gamma > 1` (and every `X`, `Y`,
`lambda`, penalty, tolerances and `iteMax`): every `updateBeta` step maps a `beta`
with entry 0 equal to 0 and weights with entry 0 equal to 0 to a vector whose
entry 0 is 0; for `n >= 1` the call of `ncvxReg` returns once the fuel of `LAMM` is
large enough; and whenever `ncvxReg` returns, entry 0 of the returned `beta` is 0. -/
theorem ncvxReg_intercept_zero [Archimedean K] {n d : Nat} (P : Prims K) (X : Design K n d)
    (Y : Vec K n) (lambda : K) (penalty : String) (phi0 gamma epsilon_c epsilon_t : K)
    (iteMax : Int) (hphi0 : 0 < phi0) (hgamma : 1 < gamma) :
    (∀ (beta Lambda : Vec K (d + 1)) (phi : K) (lossType : String) (tau : K),
      beta 0 = 0 → Lambda 0 = 0 →
      updateBeta X.matrix Y beta phi Lambda lossType tau false 0 = 0) ∧
    (0 < n → ∃ fuel0 : Nat, ∀ fuel, fuel0 ≤ fuel →
      ∃ r, ncvxReg P fuel X Y lambda penalty phi0 gamma epsilon_c epsilon_t iteMax false
        = some r) ∧
    (∀ (fuel : Nat) (r : FitResult K d),
      ncvxReg P fuel X Y lambda penalty phi0 gamma epsilon_c epsilon_t iteMax false = some r →
      r.beta 0 = 0) := by
  refine ⟨fun beta Lambda phi lossType tau hb hL => ?_, fun _ => ?_, fun fuel r h => ?_⟩
  · rw [updateBeta_zero X.matrix Y beta Lambda phi lossType tau hL, hb]
  · obtain ⟨k0, hk0⟩ := exists_pow_curvature ((∑ i, ∑ j, X.matrix i j ^ 2) / (n : K)) phi0 gamma
      hphi0 hgamma
    exact ⟨k0 + 1, fun fuel hf => ncvxReg_isSome P X Y lambda penalty phi0 gamma epsilon_c
      epsilon_t iteMax false k0 fuel (by linarith) hk0 hf⟩
  · obtain ⟨t, ht, rfl⟩ := ncvxReg_some P fuel X Y lambda penalty phi0 gamma epsilon_c epsilon_t
      iteMax false r h
    exact ilamm_zero fuel X.matrix Y _ penalty "l2" 1 phi0 gamma epsilon_c epsilon_t iteMax t ht

/-- Witness of C1 on the example `exX1`, `exY` with the default settings. -/
theorem ncvxReg_intercept_zero_witness :
    (0 : ℚ) < 1 / 1000 ∧ (1 : ℚ) < 3 / 2 ∧
    ∃ r, ncvxReg exPrims 1 (Design.included exX1) exY 1 "SCAD" (1 / 1000) (3 / 2) (1 / 10000)
        (1 / 10000) 500 false = some r ∧ r.beta 0 = 0 :=
  ⟨by norm_num, by norm_num, _, exX1_ncvxReg "SCAD" (Or.inr rfl) 500 (by norm_num),
    (ncvxReg_intercept_zero exPrims (Design.included exX1) exY 1 "SCAD" (1 / 1000) (3 / 2)
      (1 / 10000) (1 / 10000) 500 (by norm_num) (by norm_num)).2.2 1 _
      (exX1_ncvxReg "SCAD" (Or.inr rfl) 500 (by norm_num))⟩

/-- C2: whenever `LAMM` returns `(betaNew, phiUsed)` (for any loss kind and
intercept flag): `betaNew` is `updateBeta` at curvature `phiUsed`, the majorization
`cmptF betaNew <= cmptPsi betaNew` holds at `phiUsed`, and `phiUsed = phi * gamma ^ k`
for the least `k >= 0` whose candidate passes the test.  This holds for every
`phi`, in particular for `phi > 0`. -/
theorem LAMM_returns_least_curvature {n d : Nat} (fuel : Nat) (X : Mat K n (d + 1))
    (Y : Vec K n) (Lambda beta : Vec K (d + 1)) (phi : K) (lossType : String) (tau gamma : K)
    (interecept : Bool) (betaNew : Vec K (d + 1)) (phiUsed : K)
    (h : LAMM fuel X Y Lambda beta phi lossType tau gamma interecept = some (betaNew, phiUsed)) :
    betaNew = updateBeta X Y beta phiUsed Lambda lossType tau interecept ∧
    cmptF X Y betaNew lossType tau
      ≤ cmptPsi X Y betaNew beta phiUsed lossType tau interecept ∧
    ∃ k : Nat, phiUsed = phi * gamma ^ k ∧
      majorizes X Y Lambda beta lossType tau interecept (phi * gamma ^ k) ∧
      ∀ j, j < k → ¬ majorizes X Y Lambda beta lossType tau interecept (phi * gamma ^ j) := by
  obtain ⟨k, _, h2, h1, hm, hmin⟩ :=
    LAMM_some X Y Lambda beta lossType tau gamma interecept fuel phi (betaNew, phiUsed) h
  simp only [] at h1 h2
  refine ⟨h1, ?_, k, h2, hm, hmin⟩
  rw [← h2] at hm
  unfold majorizes at hm
  rw [← h1] at hm
  exact hm

/-- Witness of C2: on the example `exX`, `exY`, from `phi = 1` with `gamma = 2`, the
loop of `LAMM` inflates three times and returns the curvature 8. -/
theorem LAMM_returns_least_curvature_witness :
    LAMM 4 exX exY (fun _ => 0) (fun _ => 0) 1 "l2" 1 2 true
      = some (updateBeta exX exY (fun _ => 0) (1 * 2 * 2 * 2) (fun _ => 0) "l2" 1 true,
          1 * 2 * 2 * 2) ∧
    cmptF exX exY (updateBeta exX exY (fun _ => 0) (1 * 2 * 2 * 2) (fun _ => 0) "l2" 1 true)
        "l2" 1
      ≤ cmptPsi exX exY (updateBeta exX exY (fun _ => 0) (1 * 2 * 2 * 2) (fun _ => 0) "l2" 1 true)
        (fun _ => 0) (1 * 2 * 2 * 2) "l2" 1 true :=
  ⟨exX_LAMM, (LAMM_returns_least_curvature 4 exX exY (fun _ => 0) (fun _ => 0) 1 "l2" 1 2 true
    _ _ exX_LAMM).2.1⟩

/-- C4: whenever `ncvxReg` returns with `penalty = "Lasso"` the returned
`IteTightening` is 0, and likewise for `ncvxHuberReg`. -/
theorem Lasso_IteTightening_zero {n d : Nat} (P : Prims K) (fuel : Nat) (X : Design K n d)
    (Y : Vec K n) (lambda tau phi0 gamma epsilon_c epsilon_t : K) (iteMax : Int)
    (intercept : Bool) :
    (∀ r : FitResult K d,
      ncvxReg P fuel X Y lambda "Lasso" phi0 gamma epsilon_c epsilon_t iteMax intercept = some r →
      r.IteTightening = 0) ∧
    (∀ r : HuberFitResult K d,
      ncvxHuberReg P fuel X Y lambda "Lasso" tau phi0 gamma epsilon_c epsilon_t iteMax intercept
        = some r → r.IteTightening = 0) := by
  constructor
  · intro r h
    obtain ⟨t, ht, rfl⟩ := ncvxReg_some P fuel X Y lambda "Lasso" phi0 gamma epsilon_c epsilon_t
      iteMax intercept r h
    exact ilamm_Lasso fuel X.matrix Y _ "l2" 1 phi0 gamma epsilon_c epsilon_t iteMax intercept t ht
  · intro r h
    obtain ⟨tau', t, _, ht, rfl⟩ := ncvxHuberReg_some P fuel X Y lambda "Lasso" tau phi0 gamma
      epsilon_c epsilon_t iteMax intercept r h
    exact ilamm_Lasso fuel X.matrix Y _ "Huber" tau' phi0 gamma epsilon_c epsilon_t iteMax
      intercept t ht

/-- Witness of C4: both fits return on the example `exX1`, `exY`, with
`IteTightening = 0`. -/
theorem Lasso_IteTightening_zero_witness :
    ∃ (r : FitResult ℚ 1) (r' : HuberFitResult ℚ 1),
      ncvxReg exPrims 1 (Design.included exX1) exY 1 "Lasso" (1 / 1000) (3 / 2) (1 / 10000)
        (1 / 10000) 500 false = some r ∧
      ncvxHuberReg exPrims 1 (Design.included exX1) exY 1 "Lasso" 1 (1 / 1000) (3 / 2)
        (1 / 10000) (1 / 10000) 500 false = some r' ∧
      r.IteTightening = 0 ∧ r'.IteTightening = 0 :=
  ⟨_, _, exX1_ncvxReg "Lasso" (Or.inl rfl) 500 (by norm_num),
    exX1_ncvxHuberReg 500 (by norm_num),
    (Lasso_IteTightening_zero exPrims 1 (Design.included exX1) exY 1 1 (1 / 1000) (3 / 2)
      (1 / 10000) (1 / 10000) 500 false).1 _ (exX1_ncvxReg "Lasso" (Or.inl rfl) 500 (by norm_num)),
    (Lasso_IteTightening_zero exPrims 1 (Design.included exX1) exY 1 1 (1 / 1000) (3 / 2)
      (1 / 10000) (1 / 10000) 500 false).2 _ (exX1_ncvxHuberReg 500 (by norm_num))⟩

/-- C5 (the code departs from the claim): with `iteMax = 0` on the example `exX1`,
`exY` and the penalty "SCAD", the contraction loop performs one `LAMM` round
(its counter ends at 1) and `ncvxReg` returns `IteTightening = 1`; both exceed
`iteMax`.  The loops test `ite <= iteMax` with counters that start at 0. -/
theorem ncvxReg_iteMax_exceeded :
    lammLoop 1 exX1 exY (cmptLambda (fun _ => 0) 1 "SCAD") "l2" 1 (3 / 2) (1 / 1000) (1 / 10000)
        0 false ((0 : Int) + 1).toNat ⟨0, fun _ => 0, fun _ => 0, 1 / 1000⟩
      = some ⟨1, fun _ => 0, fun _ => 0, 1 / 1000⟩ ∧
    (ncvxReg exPrims 1 (Design.included exX1) exY 1 "SCAD" (1 / 1000) (3 / 2) (1 / 10000)
        (1 / 10000) 0 false).map (fun r => r.IteTightening) = some 1 := by
  constructor
  · have h := lammLoop_fixed 0 exX1 exY (cmptLambda (fun _ => 0) 1 "SCAD") "l2" 1 (3 / 2)
      (1 / 1000) (1 / 10000) 0 false 0 ⟨0, fun _ => 0, fun _ => 0, 1 / 1000⟩ (le_refl _)
      (by norm_num) (exX1_fixed _ (by norm_num) "SCAD" "l2" (Or.inr rfl) (Or.inl rfl))
    rw [show ((0 : Int) + 1).toNat = 0 + 1 from rfl, h]
    norm_num
  · rw [exX1_ncvxReg "SCAD" (Or.inr rfl) 0 (le_refl _)]
    simp

/-- C6: for the penalty "Lasso", `cmptLambda` returns a vector of the length of
`beta` (by its type) with entry 0 equal to 0 and every entry `i >= 1` equal to
`lambda`; the result is the same for any two `beta` of equal length.  This holds
for every `lambda`, in particular for `lambda > 0`. -/
theorem cmptLambda_Lasso_weights {d : Nat} (beta beta' : Vec K (d + 1)) (lambda : K) :
    cmptLambda beta lambda "Lasso" 0 = 0 ∧
    (∀ i : Fin (d + 1), i ≠ 0 → cmptLambda beta lambda "Lasso" i = lambda) ∧
    cmptLambda beta lambda "Lasso" = cmptLambda beta' lambda "Lasso" := by
  refine ⟨cmptLambda_zero beta lambda "Lasso", ?_, ?_⟩
  · intro i hi
    rw [cmptLambda_Lasso_apply, if_neg hi]
  · funext i
    rw [cmptLambda_Lasso_apply, cmptLambda_Lasso_apply]

/-- C7: for the penalty "SCAD" (`a = 3.7`), `cmptLambda` returns a vector of the
length of `beta` with entry 0 equal to 0 and, for `i >= 1` and `b = |beta i|`:
`lambda` if `b <= lambda`, `(a * lambda - b) / (a - 1)` if `lambda < b <= a * lambda`,
and 0 if `b > a * lambda`.  This holds for every `lambda`, in particular for
`lambda > 0`. -/
theorem cmptLambda_SCAD_weights {d : Nat} (beta : Vec K (d + 1)) (lambda : K) :
    cmptLambda beta lambda "SCAD" 0 = 0 ∧
    ∀ i : Fin (d + 1), i ≠ 0 →
      (|beta i| ≤ lambda → cmptLambda beta lambda "SCAD" i = lambda) ∧
      (lambda < |beta i| → |beta i| ≤ 37 / 10 * lambda →
        cmptLambda beta lambda "SCAD" i = (37 / 10 * lambda - |beta i|) / (37 / 10 - 1)) ∧
      (37 / 10 * lambda < |beta i| → cmptLambda beta lambda "SCAD" i = 0) := by
  refine ⟨cmptLambda_zero beta lambda "SCAD", ?_⟩
  intro i hi
  rw [cmptLambda_SCAD_apply beta lambda i hi]
  refine ⟨fun h => if_pos h, fun h1 h2 => ?_, fun h => ?_⟩
  · rw [if_neg (not_le.mpr h1), if_pos h2]
  · have hb : 0 ≤ |beta i| := abs_nonneg _
    rw [if_neg (by intro h'; nlinarith), if_neg (not_le.mpr h)]

/-- C8: for the penalty "MCP" (`a = 3`), `cmptLambda` returns a vector of the
length of `beta` with entry 0 equal to 0 and, for `i >= 1` and `b = |beta i|`:
`lambda - b / a` if `b <= a * lambda`, and 0 otherwise.  This holds for every
`lambda`, in particular for `lambda > 0`. -/
theorem cmptLambda_MCP_weights {d : Nat} (beta : Vec K (d + 1)) (lambda : K) :
    cmptLambda beta lambda "MCP" 0 = 0 ∧
    ∀ i : Fin (d + 1), i ≠ 0 →
      (|beta i| ≤ 3 * lambda → cmptLambda beta lambda "MCP" i = lambda - |beta i| / 3) ∧
      (¬ |beta i| ≤ 3 * lambda → cmptLambda beta lambda "MCP" i = 0) := by
  refine ⟨cmptLambda_zero beta lambda "MCP", ?_⟩
  intro i hi
  rw [cmptLambda_MCP_apply beta lambda i hi]
  exact ⟨fun h => if_pos h, fun h => if_neg h⟩

/-- C10: entry by entry, `softThresh v t` is `sgn (v i) * max (|v i| - t i) 0`;
hence `softThresh 0 t = 0` for every `t` with entries `>= 0`, and
`|softThresh v t i| <= max (|v i| - t i) 0` for every `v` and `t`. -/
theorem softThresh_spec {m : Nat} :
    (∀ (v t : Vec K m) (i : Fin m),
      softThresh v t i = (sgn (v i) : K) * max (|v i| - t i) 0) ∧
    (∀ t : Vec K m, (∀ i, 0 ≤ t i) → softThresh (fun _ => 0) t = fun _ => 0) ∧
    (∀ (v t : Vec K m) (i : Fin m), |softThresh v t i| ≤ max (|v i| - t i) 0) := by
  refine ⟨fun v t i => ?_, fun t _ => ?_, fun v t i => ?_⟩
  · unfold softThresh
    rw [sign_eq_sgn]
  · funext i
    simp [softThresh, sign]
  · unfold softThresh
    rw [abs_mul, abs_of_nonneg (le_max_right (|v i| - t i) 0)]
    exact mul_le_of_le_one_left (le_max_right _ _) (abs_sign_le_one _)

/-- Witness of C6 at `beta = (5, -7, 0)`, `lambda = 2`, index 1. -/
theorem cmptLambda_Lasso_weights_witness :
    (1 : Fin 3) ≠ 0 ∧ cmptLambda (![5, -7, 0] : Vec ℚ 3) 2 "Lasso" 1 = 2 :=
  ⟨by decide, (cmptLambda_Lasso_weights (![5, -7, 0] : Vec ℚ 3) ![0, 0, 0] 2).2.1 1 (by decide)⟩

/-- Witness of C7 at `beta = (0, 3)`, `lambda = 1`: the middle branch, with value
`(3.7 - 3) / 2.7`. -/
theorem cmptLambda_SCAD_weights_witness :
    (1 : Fin 2) ≠ 0 ∧ (1 : ℚ) < |(![0, 3] : Vec ℚ 2) 1| ∧
      |(![0, 3] : Vec ℚ 2) 1| ≤ 37 / 10 * 1 ∧
      cmptLambda (![0, 3] : Vec ℚ 2) 1 "SCAD" 1
        = (37 / 10 * 1 - |(![0, 3] : Vec ℚ 2) 1|) / (37 / 10 - 1) :=
  ⟨by decide, by norm_num, by norm_num,
    ((cmptLambda_SCAD_weights (![0, 3] : Vec ℚ 2) 1).2 1 (by decide)).2.1 (by norm_num) (by norm_num)⟩

/-- Witness of C8 at `beta = (0, 2)`, `lambda = 1`: the value `1 - 2 / 3`. -/
theorem cmptLambda_MCP_weights_witness :
    (1 : Fin 2) ≠ 0 ∧ |(![0, 2] : Vec ℚ 2) 1| ≤ 3 * 1 ∧
      cmptLambda (![0, 2] : Vec ℚ 2) 1 "MCP" 1 = 1 - |(![0, 2] : Vec ℚ 2) 1| / 3 :=
  ⟨by decide, by norm_num,
    ((cmptLambda_MCP_weights (![0, 2] : Vec ℚ 2) 1).2 1 (by decide)).1 (by norm_num)⟩

/-- Witness of C10 at the thresholds `t = (1, 2)`. -/
theorem softThresh_spec_witness :
    (∀ i, 0 ≤ (![1, 2] : Vec ℚ 2) i) ∧
      softThresh (fun _ => 0) (![1, 2] : Vec ℚ 2) = fun _ => 0 :=
  ⟨fun i => by fin_cases i <;> simp,
    (@softThresh_spec ℚ _ 2).2.1 ![1, 2] (fun i => by fin_cases i <;> simp)⟩

/-- C11: called with `lambda <= 0`, `ncvxReg` uses and returns
`exp(0.7 * log(lambdaMax) + 0.3 * log(lambdaMin))` with
`lambdaMax = max_j |Y^T X_j| / n` over the columns of the design matrix with its
intercept column and `lambdaMin = 0.01 * lambdaMax`; when `lambdaMax > 0` this value
lies strictly between `lambdaMin` and `lambdaMax`.  Of `exp` and `log` the proof
uses that `exp` is strictly increasing and that `exp (log x) = x` for `x > 0`. -/
theorem ncvxReg_default_lambda {n d : Nat} (P : Prims K) (fuel : Nat) (X : Design K n d)
    (Y : Vec K n) (lambda : K) (penalty : String) (phi0 gamma epsilon_c epsilon_t : K)
    (iteMax : Int) (intercept : Bool) (hlam : lambda ≤ 0) (hexp : StrictMono P.exp)
    (hlog : ∀ x : K, 0 < x → P.exp (P.log x) = x) :
    (∀ r : FitResult K d,
      ncvxReg P fuel X Y lambda penalty phi0 gamma epsilon_c epsilon_t iteMax intercept = some r →
      r.lambda = P.exp (7 / 10 * P.log (lambdaMax X.matrix Y)
        + 3 / 10 * P.log (1 / 100 * lambdaMax X.matrix Y))) ∧
    (0 < lambdaMax X.matrix Y →
      1 / 100 * lambdaMax X.matrix Y
        < P.exp (7 / 10 * P.log (lambdaMax X.matrix Y)
            + 3 / 10 * P.log (1 / 100 * lambdaMax X.matrix Y)) ∧
      P.exp (7 / 10 * P.log (lambdaMax X.matrix Y)
            + 3 / 10 * P.log (1 / 100 * lambdaMax X.matrix Y))
        < lambdaMax X.matrix Y) := by
  constructor
  · intro r h
    obtain ⟨t, _, rfl⟩ := ncvxReg_some P fuel X Y lambda penalty phi0 gamma epsilon_c epsilon_t
      iteMax intercept r h
    exact lambdaUsed_of_nonpos P X.matrix Y lambda hlam
  · exact default_between P hexp hlog _

/-- Witness of C11 over the reals with the real `exp` and `log`, on the one-row
design with entries 1, response 1 and `lambda = -1`. -/
theorem ncvxReg_default_lambda_witness :
    (-1 : ℝ) ≤ 0 ∧ StrictMono Real.exp ∧ (∀ x : ℝ, 0 < x → Real.exp (Real.log x) = x) ∧
    ∃ r : FitResult ℝ 1,
      ncvxReg (Prims.mk Real.exp Real.log Real.sqrt (fun _ => 1)) 20
        (Design.included (fun _ _ => 1 : Mat ℝ 1 2)) (fun _ => 1 : Vec ℝ 1) (-1) "SCAD" (1 / 1000) (3 / 2)
        (1 / 10000) (1 / 10000) 500 false = some r ∧
      1 / 100 * lambdaMax (fun _ _ => 1 : Mat ℝ 1 2) (fun _ => 1) < r.lambda ∧
      r.lambda < lambdaMax (fun _ _ => 1 : Mat ℝ 1 2) (fun _ => 1) := by
  have hlog : ∀ x : ℝ, 0 < x → Real.exp (Real.log x) = x := fun x hx => Real.exp_log hx
  obtain ⟨r, hr⟩ := ncvxReg_ones_isSome (Prims.mk Real.exp Real.log Real.sqrt (fun _ => 1))
    (fun _ => 1 : Vec ℝ 1) (-1) "SCAD" false
  have h := ncvxReg_default_lambda (Prims.mk Real.exp Real.log Real.sqrt (fun _ => 1)) 20
    (Design.included (fun _ _ => 1 : Mat ℝ 1 2)) (fun _ => 1 : Vec ℝ 1) (-1) "SCAD" (1 / 1000) (3 / 2) (1 / 10000)
    (1 / 10000) 500 false (by norm_num) Real.exp_strictMono hlog
  refine ⟨by norm_num, Real.exp_strictMono, hlog, r, hr, ?_⟩
  rw [h.1 r hr]
  exact h.2 lambdaMax_ones_pos

/-- C12: for `n >= 1` and `1 <= nfolds <= min(10, n)`, with `size = n / nfolds`,
`low = j * size` and `up = n - 1` for the last fold, `(j + 1) * size - 1` otherwise:
`getIndex(n, low, up)` returns exactly the rows of `[low, up]`, each once; every
row of `0, ..., n - 1` lies in the range of some fold `j < nfolds`; and the ranges
of two different folds share no row. -/
theorem fold_ranges_partition (n : Nat) (nfolds : Int) (h1 : 1 ≤ nfolds)
    (h2 : nfolds ≤ min 10 (n : Int)) :
    (∀ (low up : Int) (r : Fin n),
      r ∈ getIndex n low up ↔ (low ≤ (r.val : Int) ∧ (r.val : Int) ≤ up)) ∧
    (∀ low up : Int, (getIndex n low up).Nodup) ∧
    (∀ r : Fin n, ∃ j : Nat, (j : Int) < nfolds ∧
      r ∈ getIndex n (foldLow (Int.tdiv (n : Int) nfolds) j)
        (foldUp n nfolds (Int.tdiv (n : Int) nfolds) j)) ∧
    (∀ j j' : Nat, (j : Int) < nfolds → (j' : Int) < nfolds → j ≠ j' → ∀ r : Fin n,
      ¬ (r ∈ getIndex n (foldLow (Int.tdiv (n : Int) nfolds) j)
            (foldUp n nfolds (Int.tdiv (n : Int) nfolds) j) ∧
          r ∈ getIndex n (foldLow (Int.tdiv (n : Int) nfolds) j')
            (foldUp n nfolds (Int.tdiv (n : Int) nfolds) j'))) := by
  obtain ⟨N, rfl⟩ := Int.eq_ofNat_of_zero_le (le_trans zero_le_one h1)
  have hN : 1 ≤ N := by exact_mod_cast h1
  have hNn : N ≤ n := by
    have := le_trans h2 (min_le_right _ _)
    exact_mod_cast this
  rw [tdiv_natCast]
  refine ⟨mem_getIndex, nodup_getIndex n, ?_, ?_⟩
  · intro r
    obtain ⟨j, hj, hlow, hup⟩ := fold_cover n N hN hNn r.val r.isLt
    exact ⟨j, by exact_mod_cast hj, (mem_getIndex _ _ r).mpr ⟨hlow, hup⟩⟩
  · intro j j' hj hj' hne r ⟨hr, hr'⟩
    rw [mem_getIndex] at hr hr'
    have hj : j < N := by exact_mod_cast hj
    have hj' : j' < N := by exact_mod_cast hj'
    have hsize : (0 : Int) ≤ ((n / N : Nat) : Int) := Int.natCast_nonneg _
    rcases Nat.lt_or_gt_of_ne hne with h | h
    · exact fold_disjoint n N _ hsize j j' h hj' _ hr.2 hr'.1
    · exact fold_disjoint n N _ hsize j' j h hj _ hr'.2 hr.1

/-- Witness of C12 at `n = 7`, `nfolds = 3`: row 6 lies in the last fold. -/
theorem fold_ranges_partition_witness :
    (1 : Int) ≤ 3 ∧ (3 : Int) ≤ min 10 ((7 : Nat) : Int) ∧
    ∃ j : Nat, (j : Int) < 3 ∧
      (6 : Fin 7) ∈ getIndex 7 (foldLow (Int.tdiv ((7 : Nat) : Int) 3) j)
        (foldUp 7 3 (Int.tdiv ((7 : Nat) : Int) 3) j) :=
  ⟨by decide, by decide,
    (fold_ranges_partition 7 3 (by decide) (by decide)).2.2.1 6⟩

/-- C13: whenever `cvNcvxReg` returns (its grid is then non-empty): `mse` has one
entry for each grid point, every entry is `>= 0`, `lambdaMin` is `lambdaSeq[k]` for an
index `k` of the grid whose score is the least one, the first such index on ties,
and `beta` is the `beta` of `ncvxReg` fitted on the full data at `lambdaMin`.  Of
`sqrt` the proof uses that it is non-negative on non-negative numbers. -/
theorem cvNcvxReg_selects_minimum {n d : Nat} (P : Prims K) (fuel : Nat) (X : Design K n d)
    (Y : Vec K n) (lSeq : Option (List K)) (nlambda : Nat) (penalty : String)
    (phi0 gamma epsilon_c epsilon_t : K) (iteMax : Int) (nfolds : Int) (intercept : Bool)
    (hsqrt : ∀ x : K, 0 ≤ x → 0 ≤ P.sqrt x) (r : CVResult K d)
    (h : cvNcvxReg P fuel X Y lSeq nlambda penalty phi0 gamma epsilon_c epsilon_t iteMax nfolds
      intercept = some r) :
    r.lambdaSeq ≠ [] ∧ r.mse.length = r.lambdaSeq.length ∧ (∀ x ∈ r.mse, 0 ≤ x) ∧
    (∃ k : Nat, k < r.lambdaSeq.length ∧ r.lambdaSeq[k]? = some r.lambdaMin ∧
      ∀ i, i < r.mse.length →
        r.mse.getD k 0 ≤ r.mse.getD i 0 ∧ (i < k → r.mse.getD k 0 < r.mse.getD i 0)) ∧
    ∃ listILAMM : FitResult K d,
      ncvxReg P fuel (Design.included X.matrix) Y r.lambdaMin penalty phi0 gamma epsilon_c
        epsilon_t iteMax intercept = some listILAMM ∧ r.beta = listILAMM.beta := by
  obtain ⟨YPred, cvIdx, listILAMM, hg, hi, hl, hfit, hr⟩ := cvNcvxReg_some P fuel X Y lSeq
    nlambda penalty phi0 gamma epsilon_c epsilon_t iteMax nfolds intercept r h
  obtain ⟨hlen, hall⟩ := cvGrid_scores P _ X.matrix Y _ _ _ _ _ hg
  obtain ⟨hk, hmin⟩ := index_min_spec r.mse cvIdx hi
  have hseq : r.lambdaSeq = lambdaGrid P X.matrix Y lSeq nlambda := by rw [hr]
  simp only [] at hlen
  rw [← hseq] at hlen hl
  refine ⟨?_, hlen, ?_, ⟨cvIdx, hlen ▸ hk, hl, hmin⟩, listILAMM, hfit, by rw [hr]⟩
  · intro hnil
    rw [hnil] at hlen
    simp only [List.length_nil] at hlen
    omega
  · intro x hx
    obtain ⟨YP, rfl⟩ := hall x hx
    exact hsqrt _ (Finset.sum_nonneg fun i _ => sq_nonneg _)

/-- Witness of C13 over the reals with the real `sqrt`: two rows with entries 1,
responses 3 and 4, the grid `[10]`, three folds requested. -/
theorem cvNcvxReg_selects_minimum_witness :
    (∀ x : ℝ, 0 ≤ x → 0 ≤ Real.sqrt x) ∧
    ∃ r : CVResult ℝ 1,
      cvNcvxReg (Prims.mk Real.exp Real.log Real.sqrt (fun _ => 1)) 1
        (Design.included (fun _ _ => 1 : Mat ℝ 2 2)) (![3, 4] : Vec ℝ 2) (some [10]) 1 "SCAD"
        (1 / 1000) (3 / 2) (1 / 10000) (1 / 10000) 500 3 false = some r ∧
      r.mse.length = r.lambdaSeq.length ∧ ∀ x ∈ r.mse, 0 ≤ x :=
  ⟨fun x _ => Real.sqrt_nonneg x, _, ones_cvNcvxReg_three_four "SCAD" (Or.inr (Or.inl rfl)) 3,
    (cvNcvxReg_selects_minimum (Prims.mk Real.exp Real.log Real.sqrt (fun _ => 1)) 1
      (Design.included (fun _ _ => 1 : Mat ℝ 2 2)) (![3, 4] : Vec ℝ 2) (some [10]) 1 "SCAD"
      (1 / 1000) (3 / 2) (1 / 10000) (1 / 10000) 500 3 false (fun x _ => Real.sqrt_nonneg x) _
      (ones_cvNcvxReg_three_four "SCAD" (Or.inr (Or.inl rfl)) 3)).2.1,
    (cvNcvxReg_selects_minimum (Prims.mk Real.exp Real.log Real.sqrt (fun _ => 1)) 1
      (Design.included (fun _ _ => 1 : Mat ℝ 2 2)) (![3, 4] : Vec ℝ 2) (some [10]) 1 "SCAD"
      (1 / 1000) (3 / 2) (1 / 10000) (1 / 10000) 500 3 false (fun x _ => Real.sqrt_nonneg x) _
      (ones_cvNcvxReg_three_four "SCAD" (Or.inr (Or.inl rfl)) 3)).2.2.1⟩

/-- C20 (the code departs from the claim): over the reals, on two rows with
entries 1, responses 3 and 4, the grid `[10]` and two folds, the loops of
`cvNcvxReg` end with `YPred = 0` (every fold fit is the zero vector) and the score 5;
`cvNcvxReg` returns `mse = [5]`, the norm of `Y - YPred`, while the mean squared
error `(1 / n) * sum (Y - YPred)^2` is `25 / 2`. -/
theorem cvNcvxReg_mse_is_norm :
    cvGrid (Prims.mk Real.exp Real.log Real.sqrt (fun _ => 1))
        (fun (lambda : ℝ) (m : Nat) (X' : Mat ℝ m 2) (Y' : Vec ℝ m) =>
          (ncvxReg (Prims.mk Real.exp Real.log Real.sqrt (fun _ => 1)) 1 (Design.included X') Y'
            lambda "SCAD" (1 / 1000) (3 / 2) (1 / 10000) (1 / 10000) 500 false).map
            (fun listILAMM => listILAMM.beta))
        (fun _ _ => 1 : Mat ℝ 2 2) (![3, 4] : Vec ℝ 2) (foldsUsed 2 2)
        (Int.tdiv ((2 : Nat) : Int) (foldsUsed 2 2)) [10] (fun _ => 0)
      = some ([5], fun _ => 0) ∧
    (cvNcvxReg (Prims.mk Real.exp Real.log Real.sqrt (fun _ => 1)) 1
        (Design.included (fun _ _ => 1 : Mat ℝ 2 2)) (![3, 4] : Vec ℝ 2) (some [10]) 1 "SCAD"
        (1 / 1000) (3 / 2) (1 / 10000) (1 / 10000) 500 2 false).map (fun r => r.mse)
      = some [5] ∧
    (1 / 2 : ℝ) * ∑ r, ((![3, 4] : Vec ℝ 2) r - (fun _ => 0 : Vec ℝ 2) r) ^ 2 = 25 / 2 := by
  refine ⟨?_, ?_, ?_⟩
  · rw [ones_cvGrid (Prims.mk Real.exp Real.log Real.sqrt (fun _ => 1)) 0 (![3, 4] : Vec ℝ 2) 10
      (by norm_num) abs_three_four_le "SCAD" (Or.inr (Or.inl rfl)) (1 / 1000) (3 / 2)
      (1 / 10000) (1 / 10000) (by norm_num) (by norm_num) (by norm_num) 500 (by norm_num)]
    simp only [sqrt_three_four]
  · rw [ones_cvNcvxReg_three_four "SCAD" (Or.inr (Or.inl rfl)) 2]
    rfl
  · rw [Fin.sum_univ_two]
    norm_num

/-- C15: the number of folds used and returned by `cvNcvxReg` and `cvNcvxHuberReg` is
`min(nfolds, 10, n)`: the requested number when `nfolds <= 10` and `nfolds <= n`, and
`min(10, n)` otherwise.  This holds for every `n` and `nfolds`, in particular for
`n >= 1` and `nfolds >= 1`. -/
theorem nfolds_capped {n d : Nat} (P : Prims K) (fuel : Nat) (X : Design K n d) (Y : Vec K n)
    (lSeq : Option (List K)) (nlambda : Nat) (penalty : String) (tSeq : Option (List K))
    (ntau : Nat) (phi0 gamma epsilon_c epsilon_t : K) (iteMax : Int) (nfolds : Int)
    (intercept : Bool) :
    foldsUsed nfolds n = min nfolds (min 10 (n : Int)) ∧
    (nfolds ≤ 10 → nfolds ≤ (n : Int) → foldsUsed nfolds n = nfolds) ∧
    (¬ (nfolds ≤ 10 ∧ nfolds ≤ (n : Int)) → foldsUsed nfolds n = min 10 (n : Int)) ∧
    (∀ r : CVResult K d,
      cvNcvxReg P fuel X Y lSeq nlambda penalty phi0 gamma epsilon_c epsilon_t iteMax nfolds
        intercept = some r → r.nfolds = foldsUsed nfolds n) ∧
    (∀ r : CVHuberResult K d,
      cvNcvxHuberReg P fuel X Y lSeq nlambda penalty tSeq ntau phi0 gamma epsilon_c epsilon_t
        iteMax nfolds intercept = some r → r.nfolds = foldsUsed nfolds n) := by
  refine ⟨?_, ?_, ?_, ?_, ?_⟩
  · unfold foldsUsed
    split_ifs <;> omega
  · intro h1 h2
    unfold foldsUsed
    rw [if_neg (by omega)]
  · intro h
    unfold foldsUsed
    split_ifs <;> omega
  · intro r h
    obtain ⟨_, _, _, _, _, _, _, hr⟩ := cvNcvxReg_some P fuel X Y lSeq nlambda penalty phi0
      gamma epsilon_c epsilon_t iteMax nfolds intercept r h
    rw [hr]
  · intro r h
    obtain ⟨_, _, _, _, _, _, _, _, _, hr⟩ := cvNcvxHuberReg_some P fuel X Y lSeq nlambda
      penalty tSeq ntau phi0 gamma epsilon_c epsilon_t iteMax nfolds intercept r h
    rw [hr]

/-- Witness of C15 over the reals: two rows, 3 folds requested, 2 folds used and
returned by both functions. -/
theorem nfolds_capped_witness :
    ¬ ((3 : Int) ≤ 10 ∧ (3 : Int) ≤ ((2 : Nat) : Int)) ∧
    foldsUsed 3 2 = min 10 ((2 : Nat) : Int) ∧
    ∃ (r : CVResult ℝ 1) (r' : CVHuberResult ℝ 1),
      cvNcvxReg (Prims.mk Real.exp Real.log Real.sqrt (fun _ => 1)) 1
        (Design.included (fun _ _ => 1 : Mat ℝ 2 2)) (![3, 4] : Vec ℝ 2) (some [10]) 1 "SCAD"
        (1 / 1000) (3 / 2) (1 / 10000) (1 / 10000) 500 3 false = some r ∧
      cvNcvxHuberReg (Prims.mk Real.exp Real.log Real.sqrt (fun _ => 1)) 1
        (Design.included (fun _ _ => 1 : Mat ℝ 2 2)) (![3, 4] : Vec ℝ 2) (some [10]) 1 "SCAD"
        (some [1]) 1 (1 / 1000) (3 / 2) (1 / 10000) (1 / 10000) 500 3 false = some r' ∧
      r.nfolds = foldsUsed 3 2 ∧ r'.nfolds = foldsUsed 3 2 := by
  have hthm := nfolds_capped (Prims.mk Real.exp Real.log Real.sqrt (fun _ => 1)) 1
    (Design.included (fun _ _ => 1 : Mat ℝ 2 2)) (![3, 4] : Vec ℝ 2) (some [10]) 1 "SCAD"
    (some [1]) 1 (1 / 1000) (3 / 2) (1 / 10000) (1 / 10000) 500 3 false
  obtain ⟨r', hr'⟩ := ones_cvNcvxHuberReg_three_four 3
  have hr := ones_cvNcvxReg_three_four "SCAD" (Or.inr (Or.inl rfl)) 3
  exact ⟨by decide, hthm.2.2.1 (by decide), _, r', hr, hr', hthm.2.2.2.1 _ hr,
    hthm.2.2.2.2 r' hr'⟩

/-- C16: the curvature never falls below its floor.  For `phi0 > 0` and `gamma > 1`,
in every run of the two stages (for every `lambda`, penalty, loss and `tau`) each
value that `phi` takes, that is each value passed to `LAMM`, each value assigned
to `phi` after a `LAMM` round and each reset, is `>= phi0`; and the `phi` returned
by `ncvxReg` and by `ncvxHuberReg` is one of these values, hence `>= phi0`. -/
theorem phi_never_below_phi0 {n d : Nat} (P : Prims K) (fuel : Nat) (X : Design K n d)
    (Y : Vec K n) (lambda : K) (penalty : String) (tau phi0 gamma epsilon_c epsilon_t : K)
    (iteMax : Int) (intercept : Bool) (hphi0 : 0 < phi0) (hgamma : 1 < gamma) :
    (∀ (lam : K) (pen lossType : String) (t : K),
      ∀ p ∈ ilammPhis fuel X.matrix Y lam pen lossType t phi0 gamma epsilon_c epsilon_t iteMax
        intercept, phi0 ≤ p) ∧
    (∀ r : FitResult K d,
      ncvxReg P fuel X Y lambda penalty phi0 gamma epsilon_c epsilon_t iteMax intercept = some r →
      r.phi ∈ ilammPhis fuel X.matrix Y r.lambda penalty "l2" 1 phi0 gamma epsilon_c epsilon_t
        iteMax intercept ∧ phi0 ≤ r.phi) ∧
    (∀ r : HuberFitResult K d,
      ncvxHuberReg P fuel X Y lambda penalty tau phi0 gamma epsilon_c epsilon_t iteMax intercept
        = some r →
      r.phi ∈ ilammPhis fuel X.matrix Y r.lambda penalty "Huber" r.tau phi0 gamma epsilon_c
        epsilon_t iteMax intercept ∧ phi0 ≤ r.phi) := by
  have hall : ∀ (lam : K) (pen lossType : String) (t : K),
      ∀ p ∈ ilammPhis fuel X.matrix Y lam pen lossType t phi0 gamma epsilon_c epsilon_t iteMax
        intercept, phi0 ≤ p := fun lam pen lossType t =>
    ilammPhis_ge fuel X.matrix Y lam pen lossType t phi0 gamma epsilon_c epsilon_t iteMax
      intercept hphi0.le hgamma.le
  refine ⟨hall, ?_, ?_⟩
  · intro r h
    obtain ⟨t, ht, rfl⟩ := ncvxReg_some P fuel X Y lambda penalty phi0 gamma epsilon_c epsilon_t
      iteMax intercept r h
    have hm := ilamm_phi_mem fuel X.matrix Y _ penalty "l2" 1 phi0 gamma epsilon_c epsilon_t
      iteMax intercept t ht
    exact ⟨hm, hall _ _ _ _ _ hm⟩
  · intro r h
    obtain ⟨tau', t, _, ht, rfl⟩ := ncvxHuberReg_some P fuel X Y lambda penalty tau phi0 gamma
      epsilon_c epsilon_t iteMax intercept r h
    have hm := ilamm_phi_mem fuel X.matrix Y _ penalty "Huber" tau' phi0 gamma epsilon_c
      epsilon_t iteMax intercept t ht
    exact ⟨hm, hall _ _ _ _ _ hm⟩

/-- Witness of C16 on the example `exX1`, `exY` with the default settings. -/
theorem phi_never_below_phi0_witness :
    (0 : ℚ) < 1 / 1000 ∧ (1 : ℚ) < 3 / 2 ∧
    ∃ r, ncvxReg exPrims 1 (Design.included exX1) exY 1 "SCAD" (1 / 1000) (3 / 2) (1 / 10000)
        (1 / 10000) 500 false = some r ∧ (1 / 1000 : ℚ) ≤ r.phi :=
  ⟨by norm_num, by norm_num, _, exX1_ncvxReg "SCAD" (Or.inr rfl) 500 (by norm_num),
    ((phi_never_below_phi0 exPrims 1 (Design.included exX1) exY 1 "SCAD" 1 (1 / 1000) (3 / 2)
      (1 / 10000) (1 / 10000) 500 false (by norm_num) (by norm_num)).2.1 _
      (exX1_ncvxReg "SCAD" (Or.inr rfl) 500 (by norm_num))).2⟩

/-- C17 (the claim fails on the code): `ncvxReg` returns a fit where the claim asks
for a rejection.  Over the reals, with the one-row design with entries 1, response
1 and `lambda = -1`, a fit is returned; and on the example `exX1`, `exY` with
`gamma = -1` the fit `beta = 0` is returned after one `LAMM` round in each stage. -/
theorem ncvxReg_rejects_nothing :
    (∃ r : FitResult ℝ 1,
      ncvxReg (Prims.mk Real.exp Real.log Real.sqrt (fun _ => 1)) 20
        (Design.included (fun _ _ => 1 : Mat ℝ 1 2)) (fun _ => 1 : Vec ℝ 1) (-1) "SCAD"
        (1 / 1000) (3 / 2) (1 / 10000) (1 / 10000) 500 false = some r) ∧
    ncvxReg exPrims 1 (Design.included exX1) exY 1 "SCAD" (1 / 1000) (-1) (1 / 10000)
        (1 / 10000) 500 false
      = some ⟨fun _ => 0, 1 / 1000, "SCAD", 1, 1⟩ := by
  constructor
  · exact ncvxReg_ones_isSome _ _ _ _ _
  · have hlam : lambdaUsed exPrims exX1 exY 1 = 1 := by simp [lambdaUsed]
    unfold ncvxReg
    simp only [Design.matrix, hlam]
    rw [ilamm_fixed 0 exX1 exY 1 "SCAD" "l2" 1 _ _ _ _ 500 false (by norm_num) (by norm_num)
      (by norm_num) (exX1_fixed _ (by norm_num) "SCAD" "l2" (Or.inr rfl) (Or.inl rfl))]
    norm_num
    decide

/-- C17, amended: `ncvxReg` checks none of `lambda`, `phi0` and `gamma`, and a
non-positive `lambda` is not rejected.  For every `lambda`, `phi0` and `gamma`:
when `lambda <= 0` the `lambda` used is the default
`exp(0.7 * log(lambdaMax) + 0.3 * log(lambdaMin))`; whenever the call returns, it
returns the `lambda` used, the `penalty`, and the `beta`, `phi` and `IteTightening`
of the two stages run with this `lambda`; and it yields no result exactly when the
two stages yield none, which is when a search of `LAMM` does not leave its loop
within the fuel. -/
theorem ncvxReg_nonpositive_lambda_fits {n d : Nat} (P : Prims K) (fuel : Nat)
    (X : Design K n d) (Y : Vec K n) (lambda : K) (penalty : String)
    (phi0 gamma epsilon_c epsilon_t : K) (iteMax : Int) (intercept : Bool) :
    (lambda ≤ 0 → lambdaUsed P X.matrix Y lambda
      = P.exp (7 / 10 * P.log (lambdaMax X.matrix Y)
        + 3 / 10 * P.log (1 / 100 * lambdaMax X.matrix Y))) ∧
    (∀ r : FitResult K d,
      ncvxReg P fuel X Y lambda penalty phi0 gamma epsilon_c epsilon_t iteMax intercept = some r →
      r.lambda = lambdaUsed P X.matrix Y lambda ∧ r.penalty = penalty ∧
      ilamm fuel X.matrix Y r.lambda penalty "l2" 1 phi0 gamma epsilon_c epsilon_t iteMax
        intercept = some (r.beta, r.phi, r.IteTightening)) ∧
    (ncvxReg P fuel X Y lambda penalty phi0 gamma epsilon_c epsilon_t iteMax intercept = none ↔
      ilamm fuel X.matrix Y (lambdaUsed P X.matrix Y lambda) penalty "l2" 1 phi0 gamma
        epsilon_c epsilon_t iteMax intercept = none) := by
  refine ⟨lambdaUsed_of_nonpos P X.matrix Y lambda, fun r hr => ?_, ?_⟩
  · obtain ⟨t, ht, rfl⟩ := ncvxReg_some P fuel X Y lambda penalty phi0 gamma epsilon_c
      epsilon_t iteMax intercept r hr
    exact ⟨rfl, rfl, ht⟩
  · unfold ncvxReg
    simp only []
    cases ilamm fuel X.matrix Y (lambdaUsed P X.matrix Y lambda) penalty "l2" 1 phi0 gamma
        epsilon_c epsilon_t iteMax intercept with
    | none => simp
    | some t => simp

/-- Witness of the amended C17 over the reals, on the one-row design with entries
1, response 1 and `lambda = -1`: the call returns, with the default `lambda`. -/
theorem ncvxReg_nonpositive_lambda_fits_witness :
    (-1 : ℝ) ≤ 0 ∧
    ∃ r : FitResult ℝ 1,
      ncvxReg (Prims.mk Real.exp Real.log Real.sqrt (fun _ => 1)) 20
        (Design.included (fun _ _ => 1 : Mat ℝ 1 2)) (fun _ => 1 : Vec ℝ 1) (-1) "SCAD"
        (1 / 1000) (3 / 2) (1 / 10000) (1 / 10000) 500 false = some r ∧
      r.lambda = Real.exp (7 / 10 * Real.log (lambdaMax (fun _ _ => 1 : Mat ℝ 1 2)
          (fun _ => 1 : Vec ℝ 1))
        + 3 / 10 * Real.log (1 / 100 * lambdaMax (fun _ _ => 1 : Mat ℝ 1 2)
          (fun _ => 1 : Vec ℝ 1))) := by
  obtain ⟨r, hr⟩ := ncvxReg_ones_isSome (Prims.mk Real.exp Real.log Real.sqrt (fun _ => 1))
    (fun _ => 1 : Vec ℝ 1) (-1) "SCAD" false
  obtain ⟨h1, h2, _⟩ := ncvxReg_nonpositive_lambda_fits
    (Prims.mk Real.exp Real.log Real.sqrt (fun _ => 1)) 20
    (Design.included (fun _ _ => 1 : Mat ℝ 1 2)) (fun _ => 1 : Vec ℝ 1) (-1) "SCAD"
    (1 / 1000) (3 / 2) (1 / 10000) (1 / 10000) 500 false
  refine ⟨by norm_num, r, hr, ?_⟩
  rw [(h2 r hr).1]
  exact h1 (by norm_num)

/-- C19 (the code departs from the claim): over the reals, on two rows with
entries 1 and responses 1, `lambdaMax = 1` and the default grid with `nlambda = 2` is
`[1 / 100, 1]`: its first entry is `lambdaMin`, its last entry is `lambdaMax`, and it
increases, because `linspace` runs from `log(lambdaMin)` to `log(lambdaMax)`. -/
theorem lambdaGrid_starts_at_lambdaMin :
    lambdaMax (fun _ _ => 1 : Mat ℝ 2 2) (![1, 1] : Vec ℝ 2) = 1 ∧
    lambdaGrid (Prims.mk Real.exp Real.log Real.sqrt (fun _ => 1))
      (fun _ _ => 1 : Mat ℝ 2 2) (![1, 1] : Vec ℝ 2) none 2 = [1 / 100, 1] :=
  ⟨lambdaMax_ones_one_one, lambdaGrid_ones_two⟩

/-- C18 (the claim fails on the code): for `ntau = 4`, `tauConst` gives the four
multipliers `1 / 2, 1, 2, 4`, not the five powers `2 ^ j` for `j` from `-(4 / 2)` to
`4 / 2`. -/
theorem tauConst_four_not_symmetric :
    (tauConst 4 : List ℚ) = [1 / 2, 1, 2, 4] ∧
    (tauConst 4 : List ℚ)
      ≠ (List.range (2 * (4 / 2) + 1)).map
          (fun t : Nat => (2 : ℚ) ^ ((t : Int) - ((4 / 2 : Nat) : Int))) := by
  refine ⟨tauConst_four, fun h => ?_⟩
  have := congrArg List.length h
  rw [tauConst_four] at this
  simp at this

/-- C18, amended: for `1 <= ntau <= 61`, `tauConst ntau` is the list of the `ntau`
powers `2 ^ j` for `j` from `-start` to `ntau / 2`, with `start = ntau / 2` for odd
`ntau` (then `j` runs from `-(ntau / 2)` to `ntau / 2`) and `start = ntau / 2 - 1` for
even `ntau`; and when `cvNcvxHuberReg` returns without a `tSeq` from the caller, its
grid of `tau` is `sigmaHat * sqrt(n / log(n * d))` times these multipliers, where
`sigmaHat = median(|res - median(res)|) / 0.6745` for the residuals `res` of the
Lasso fit selected by `cvNcvxReg`. -/
theorem default_tau_grid {n d : Nat} (P : Prims K) (fuel : Nat) (X : Design K n d)
    (Y : Vec K n) (lSeq : Option (List K)) (nlambda : Nat) (penalty : String) (ntau : Nat)
    (phi0 gamma epsilon_c epsilon_t : K) (iteMax : Int) (nfolds : Int) (intercept : Bool)
    (h1 : 1 ≤ ntau) (h61 : ntau ≤ 61) :
    (tauConst ntau : List K) = (List.range ntau).map (fun t : Nat =>
      (2 : K) ^ ((t : Int) - (if ntau % 2 = 0 then (ntau : Int) / 2 - 1 else (ntau : Int) / 2))) ∧
    (ntau % 2 = 1 → (tauConst ntau : List K) = (List.range (2 * (ntau / 2) + 1)).map
      (fun t : Nat => (2 : K) ^ ((t : Int) - ((ntau / 2 : Nat) : Int)))) ∧
    (∀ r : CVHuberResult K d,
      cvNcvxHuberReg P fuel X Y lSeq nlambda penalty none ntau phi0 gamma epsilon_c epsilon_t
        iteMax nfolds intercept = some r →
      ∃ listILAMM : CVResult K d,
        cvNcvxReg P fuel (Design.included X.matrix) Y lSeq (gridSize lSeq nlambda) "Lasso" phi0
          gamma epsilon_c epsilon_t iteMax nfolds intercept = some listILAMM ∧
        r.tauSeq = (tauConst ntau).map (fun c =>
          P.median (fun i => |(Y i - mulVec X.matrix listILAMM.beta i)
              - P.median (fun i => Y i - mulVec X.matrix listILAMM.beta i)|) / (6745 / 10000)
            * P.sqrt ((n : K) / P.log ((n : K) * (d : K))) * c)) := by
  refine ⟨tauConst_eq ntau h1 h61, fun hodd => ?_, fun r h => ?_⟩
  · rw [tauConst_eq ntau h1 h61, if_neg (by omega)]
    have hn : 2 * (ntau / 2) + 1 = ntau := by omega
    have hc : ((ntau / 2 : Nat) : Int) = (ntau : Int) / 2 := by omega
    rw [hn, hc]
  · obtain ⟨_, _, _, htau, _⟩ := cvNcvxHuberReg_some P fuel X Y lSeq nlambda penalty none ntau
      phi0 gamma epsilon_c epsilon_t iteMax nfolds intercept r h
    exact tauGrid_none P fuel X.matrix Y lSeq _ ntau phi0 gamma epsilon_c epsilon_t iteMax
      nfolds intercept r.tauSeq htau

/-- Witness of the amended C18: the five multipliers for `ntau = 5` over the
rationals. -/
theorem default_tau_grid_witness :
    1 ≤ 5 ∧ 5 ≤ 61 ∧ 5 % 2 = 1 ∧
    (tauConst 5 : List ℚ) = (List.range (2 * (5 / 2) + 1)).map
      (fun t : Nat => (2 : ℚ) ^ ((t : Int) - ((5 / 2 : Nat) : Int))) ∧
    ∃ r : CVHuberResult ℝ 1,
      cvNcvxHuberReg (Prims.mk Real.exp Real.log Real.sqrt (fun _ => 1)) 1
        (Design.included (fun _ _ => 1 : Mat ℝ 2 2)) (![3, 4] : Vec ℝ 2) (some [10]) 1 "SCAD"
        none 2 (1 / 1000) (3 / 2) (1 / 10000) (1 / 10000) 500 2 false = some r ∧
      r.tauSeq = (tauConst 2).map (fun c =>
        1 / (6745 / 10000) * Real.sqrt (((2 : Nat) : ℝ) / Real.log (((2 : Nat) : ℝ)
          * ((1 : Nat) : ℝ))) * c) := by
  refine ⟨by decide, by decide, by decide,
    (default_tau_grid exPrims 1 (Design.included exX1) exY none 1 "SCAD" 5 (1 / 1000) (3 / 2)
      (1 / 10000) (1 / 10000) 500 3 false (by decide) (by decide)).2.1 (by decide), ?_⟩
  obtain ⟨r, hr⟩ := ones_cvNcvxHuberReg_default_tau 2
  obtain ⟨_, _, htau⟩ := (default_tau_grid
    (Prims.mk Real.exp Real.log Real.sqrt (fun _ => 1)) 1
    (Design.included (fun _ _ => 1 : Mat ℝ 2 2)) (![3, 4] : Vec ℝ 2) (some [10]) 1 "SCAD" 2
    (1 / 1000) (3 / 2) (1 / 10000) (1 / 10000) 500 2 false (by decide) (by decide)).2.2 r hr
  exact ⟨r, hr, htau⟩

/-- C24: the intercept flag of `gradLoss` freezes entry 0 only: with the flag false
the gradient is 0 at index 0 and equals the gradient with the flag true at every
index `i >= 1`, for every loss kind; and for the squared-error loss with the flag
true the gradient is `-X^T (Y - X * beta) / n`. -/
theorem gradLoss_flag_freezes_intercept {n d : Nat} (X : Mat K n (d + 1)) (Y : Vec K n)
    (beta : Vec K (d + 1)) (lossType : String) (tau : K) :
    gradLoss X Y beta lossType tau false 0 = 0 ∧
    (∀ i : Fin (d + 1), i ≠ 0 →
      gradLoss X Y beta lossType tau false i = gradLoss X Y beta lossType tau true i) ∧
    (∀ j : Fin (d + 1),
      gradLoss X Y beta "l2" tau true j = -(∑ i, X i j * (Y i - mulVec X beta i)) / (n : K)) := by
  refine ⟨gradLoss_zero X Y beta lossType tau, fun i hi => ?_, fun j => ?_⟩
  · unfold gradLoss
    simp only [Bool.not_false, Bool.not_true, if_true, Function.update_noteq hi]
    rfl
  · unfold gradLoss
    simp only [Bool.not_true, if_true, Bool.false_eq_true, if_false]
    rw [neg_one_mul]
    congr 2
    exact Finset.sum_congr rfl fun i _ => mul_comm _ _

/-- Witness of C24 on the example `exX1`, `exY` at index 1. -/
theorem gradLoss_flag_freezes_intercept_witness :
    (1 : Fin 2) ≠ 0 ∧
    gradLoss exX1 exY (fun _ => 0) "Huber" 1 false 1
      = gradLoss exX1 exY (fun _ => 0) "Huber" 1 true 1 :=
  ⟨by decide,
    (gradLoss_flag_freezes_intercept exX1 exY (fun _ => 0) "Huber" 1).2.1 1 (by decide)⟩

/-- C27: when no residual is clipped, `|Y i - (X * beta) i| <= tau` for every row, the
Huber loss and gradient are those of the squared error: `loss` agrees for the two
loss kinds and `gradLoss` agrees for both values of the intercept flag. -/
theorem huber_is_l2_when_unclipped {n d : Nat} (X : Mat K n (d + 1)) (Y : Vec K n)
    (beta : Vec K (d + 1)) (tau : K) (h : ∀ i, |Y i - mulVec X beta i| ≤ tau) :
    loss Y (mulVec X beta) "Huber" tau = loss Y (mulVec X beta) "l2" tau ∧
    ∀ flag : Bool,
      gradLoss X Y beta "Huber" tau flag = gradLoss X Y beta "l2" tau flag := by
  constructor
  · rw [loss_Huber_eq]
    unfold loss
    simp only [if_true]
    rw [div_div, mul_comm (n : K) 2, ← div_div _ (2 : K) (n : K)]
    congr 1
    rw [Finset.sum_div]
    refine Finset.sum_congr rfl fun i _ => ?_
    rw [if_pos (h i)]
    ring
  · intro flag
    have key := huber_foldl_eq X (fun i => Y i - mulVec X beta i) tau
    simp only [] at key
    unfold gradLoss
    simp only [if_true]
    rw [key]
    have : (fun j => -∑ i, (if |Y i - mulVec X beta i| ≤ tau then Y i - mulVec X beta i
        else tau * (sgn (Y i - mulVec X beta i) : K)) * X i j)
        = fun j => -1 * ∑ i, (Y i - mulVec X beta i) * X i j := by
      funext j
      rw [neg_one_mul]
      congr 1
      exact Finset.sum_congr rfl fun i _ => by rw [if_pos (h i)]
    rw [this, if_neg (show ¬ "Huber" = "l2" by decide)]

/-- Witness of C27 on the example `exX1`, `exY` at `beta = 0`, `tau = 1`. -/
theorem huber_is_l2_when_unclipped_witness :
    (∀ i, |exY i - mulVec exX1 (fun _ => 0) i| ≤ 1) ∧
    loss exY (mulVec exX1 (fun _ => 0)) "Huber" 1 = loss exY (mulVec exX1 (fun _ => 0)) "l2" 1 :=
  ⟨fun i => by simp [exY, mulVec],
    (huber_is_l2_when_unclipped exX1 exY (fun _ => 0) 1
      (fun i => by simp [exY, mulVec])).1⟩

/-- C21: `updateBeta` is the proximal operator of the weighted l1 penalty applied to a
gradient step of size `1 / phi`: for `phi > 0` and weights `Lambda >= 0`, with
`g = gradLoss X Y beta` the result `b* = updateBeta ...` satisfies, for every vector
`b`, `(phi / 2) * ||b* - (beta - g / phi)||^2 + sum_i Lambda i * |b* i|
<= (phi / 2) * ||b - (beta - g / phi)||^2 + sum_i Lambda i * |b i|`, for every loss
kind and intercept flag. -/
theorem updateBeta_is_proximal {n d : Nat} (X : Mat K n (d + 1)) (Y : Vec K n)
    (beta : Vec K (d + 1)) (phi : K) (Lambda : Vec K (d + 1)) (lossType : String) (tau : K)
    (intercept : Bool) (hphi : 0 < phi) (hL : ∀ i, 0 ≤ Lambda i) (b : Vec K (d + 1)) :
    phi / 2 * (∑ i, (updateBeta X Y beta phi Lambda lossType tau intercept i
          - (beta i - gradLoss X Y beta lossType tau intercept i / phi)) ^ 2)
        + ∑ i, Lambda i * |updateBeta X Y beta phi Lambda lossType tau intercept i|
      ≤ phi / 2 * (∑ i, (b i
          - (beta i - gradLoss X Y beta lossType tau intercept i / phi)) ^ 2)
        + ∑ i, Lambda i * |b i| := by
  rw [Finset.mul_sum, Finset.mul_sum, ← Finset.sum_add_distrib, ← Finset.sum_add_distrib]
  refine Finset.sum_le_sum fun i _ => ?_
  exact softThresh_prox_coord _ (Lambda i) phi (b i) hphi (hL i)

/-- Witness of C21 on the example `exX1`, `exY` at `beta = 0`, `phi = 1`, weights
`(0, 1)`, compared with `b = (1, 1)`. -/
theorem updateBeta_is_proximal_witness :
    (0 : ℚ) < 1 ∧ (∀ i, 0 ≤ (![0, 1] : Vec ℚ 2) i) ∧
    1 / 2 * (∑ i, (updateBeta exX1 exY (fun _ => 0) 1 ![0, 1] "l2" 1 false i
          - ((fun _ => 0 : Vec ℚ 2) i - gradLoss exX1 exY (fun _ => 0) "l2" 1 false i / 1)) ^ 2)
        + ∑ i, (![0, 1] : Vec ℚ 2) i * |updateBeta exX1 exY (fun _ => 0) 1 ![0, 1] "l2" 1 false i|
      ≤ 1 / 2 * (∑ i, ((fun _ => 1 : Vec ℚ 2) i
          - ((fun _ => 0 : Vec ℚ 2) i - gradLoss exX1 exY (fun _ => 0) "l2" 1 false i / 1)) ^ 2)
        + ∑ i, (![0, 1] : Vec ℚ 2) i * |(fun _ => 1 : Vec ℚ 2) i| :=
  ⟨by norm_num, fun i => by fin_cases i <;> simp,
    updateBeta_is_proximal exX1 exY (fun _ => 0) 1 ![0, 1] "l2" 1 false (by norm_num)
      (fun i => by fin_cases i <;> simp) (fun _ => 1)⟩

/-- C25 (the claim fails for a negative `gamma`): on one row with the single
column 1, `Y = 9/4`, `beta = 1`, weight 1, `phi = 1`, `gamma = -1` and the flag false,
`LAMM` rejects the candidate 0 for `phi = 1`, accepts the candidate 2 for
`phi = -1`, and the penalized objective rises from `57/32` to `65/32`. -/
theorem LAMM_negative_gamma_ascent :
    LAMM 2 (![![1]] : Mat ℚ 1 1) ![9 / 4] ![1] ![1] 1 "l2" 0 (-1) false = some (![2], -1) ∧
    loss (![9 / 4] : Vec ℚ 1) (mulVec (![![1]] : Mat ℚ 1 1) ![1]) "l2" 0
        + ∑ i, (![1] : Vec ℚ 1) i * |(![1] : Vec ℚ 1) i| = 57 / 32 ∧
    loss (![9 / 4] : Vec ℚ 1) (mulVec (![![1]] : Mat ℚ 1 1) ![2]) "l2" 0
        + ∑ i, (![1] : Vec ℚ 1) i * |(![2] : Vec ℚ 1) i| = 65 / 32 := by
  have u1 : updateBeta (![![1]] : Mat ℚ 1 1) ![9 / 4] ![1] 1 ![1] "l2" 0 false = ![0] := by
    funext j
    fin_cases j
    simp [updateBeta, gradLoss, softThresh, sign]
  have u2 : updateBeta (![![1]] : Mat ℚ 1 1) ![9 / 4] ![1] (1 * -1) ![1] "l2" 0 false
      = ![2] := by
    funext j
    fin_cases j
    simp [updateBeta, gradLoss, softThresh, sign]
    norm_num
  have e1 : ¬ majorizes (![![1]] : Mat ℚ 1 1) ![9 / 4] ![1] ![1] "l2" 0 false 1 := by
    unfold majorizes
    rw [u1]
    simp [cmptF, cmptPsi, loss, gradLoss, mulVec]
    norm_num
  have e2 : majorizes (![![1]] : Mat ℚ 1 1) ![9 / 4] ![1] ![1] "l2" 0 false (1 * -1) := by
    unfold majorizes
    rw [u2]
    simp [cmptF, cmptPsi, loss, gradLoss, mulVec]
    norm_num
  refine ⟨?_, ?_, ?_⟩
  · rw [LAMM_of_not_majorizes _ _ _ _ _ _ _ _ _ _ e1, LAMM_of_majorizes _ _ _ _ _ _ _ _ _ _ e2,
      u2]
    norm_num
  · simp [loss, mulVec]
    norm_num
  · simp [loss, mulVec]
    norm_num

/-- C25 (amended): for `phi > 0`, `gamma > 0` and weights `Lambda >= 0`, whenever
`LAMM` returns `betaNew`, the penalized objective does not increase:
`loss(Y, X * betaNew) + sum_i Lambda i * |betaNew i|
<= loss(Y, X * beta) + sum_i Lambda i * |beta i|`, for every loss kind and
intercept flag. -/
theorem LAMM_step_descends {n d : Nat} (fuel : Nat) (X : Mat K n (d + 1)) (Y : Vec K n)
    (Lambda beta : Vec K (d + 1)) (phi : K) (lossType : String) (tau gamma : K) (ic : Bool)
    (hphi : 0 < phi) (hgamma : 0 < gamma) (hL : ∀ i, 0 ≤ Lambda i)
    (r : Vec K (d + 1) × K)
    (h : LAMM fuel X Y Lambda beta phi lossType tau gamma ic = some r) :
    loss Y (mulVec X r.1) lossType tau + ∑ i, Lambda i * |r.1 i|
      ≤ loss Y (mulVec X beta) lossType tau + ∑ i, Lambda i * |beta i| := by
  obtain ⟨k, _, hphi2, hbeta, hmaj, _⟩ :=
    LAMM_some X Y Lambda beta lossType tau gamma ic fuel phi r h
  have hP : 0 < r.2 := by
    rw [hphi2]
    exact mul_pos hphi (pow_pos hgamma k)
  have hd := updateBeta_descent X Y beta r.2 Lambda lossType tau ic hP hL
  unfold majorizes cmptF cmptPsi at hmaj
  rw [← hphi2, ← hbeta] at hmaj
  rw [← hbeta] at hd
  simp only [] at hmaj
  linarith

/-- Witness of C25 (amended) on the example `exX`, `exY`, where `LAMM` returns after
three increases of `phi`. -/
theorem LAMM_step_descends_witness :
    (0 : ℚ) < 1 ∧ (0 : ℚ) < 2 ∧ (∀ i, 0 ≤ (fun _ => 0 : Vec ℚ 2) i) ∧
    LAMM 4 exX exY (fun _ => 0) (fun _ => 0) 1 "l2" 1 2 true
      = some (updateBeta exX exY (fun _ => 0) (1 * 2 * 2 * 2) (fun _ => 0) "l2" 1 true,
          1 * 2 * 2 * 2) ∧
    loss exY (mulVec exX
          (updateBeta exX exY (fun _ => 0) (1 * 2 * 2 * 2) (fun _ => 0) "l2" 1 true)) "l2" 1
        + ∑ i, (fun _ => 0 : Vec ℚ 2) i
          * |updateBeta exX exY (fun _ => 0) (1 * 2 * 2 * 2) (fun _ => 0) "l2" 1 true i|
      ≤ loss exY (mulVec exX (fun _ => 0)) "l2" 1
        + ∑ i, (fun _ => 0 : Vec ℚ 2) i * |(fun _ => 0 : Vec ℚ 2) i| :=
  ⟨by norm_num, by norm_num, fun _ => le_refl _, exX_LAMM,
    LAMM_step_descends 4 exX exY (fun _ => 0) (fun _ => 0) 1 "l2" 1 2 true (by norm_num)
      (by norm_num) (fun _ => le_refl _)
      (updateBeta exX exY (fun _ => 0) (1 * 2 * 2 * 2) (fun _ => 0) "l2" 1 true, 1 * 2 * 2 * 2)
      exX_LAMM⟩

/-- C22: for `1 <= n <= 61`, with `half = n div 2` and `start = half` for odd `n`,
`half - 1` for even `n`: `tauConst n` writes exactly `n` entries; entry `j` is
`2^(j - start)`; the entries are `2^(-i)` for `i` from `start` down to 1 followed by
`2^i` for `i` from 0 to `half`; each entry is twice the one before it, so the
sequence is strictly increasing; and 1 is among the entries. -/
theorem tauConst_geometric (n : Nat) (h1 : 1 ≤ n) (h61 : n ≤ 61) :
    (tauConst n : List K).length = n ∧
    (∀ j : Nat, j < n → (tauConst n : List K).getD j 0
      = (2 : K) ^ ((j : Int) - (if n % 2 = 1 then ((n / 2 : Nat) : Int)
          else ((n / 2 : Nat) : Int) - 1))) ∧
    (tauConst n : List K)
      = ((List.range (if n % 2 = 1 then n / 2 else n / 2 - 1)).reverse.map
            (fun i : Nat => (2 : K) ^ (-((i : Int) + 1))))
          ++ (List.range (n / 2 + 1)).map (fun i : Nat => (2 : K) ^ i) ∧
    (∀ j : Nat, j + 1 < n →
      (tauConst n : List K).getD (j + 1) 0 = 2 * (tauConst n : List K).getD j 0) ∧
    (∀ j : Nat, j + 1 < n →
      (tauConst n : List K).getD j 0 < (tauConst n : List K).getD (j + 1) 0) ∧
    (1 : K) ∈ (tauConst n : List K) := by
  have hst : (if n % 2 = 0 then (n : Int) / 2 - 1 else (n : Int) / 2)
      = if n % 2 = 1 then ((n / 2 : Nat) : Int) else ((n / 2 : Nat) : Int) - 1 := by
    split_ifs <;> omega
  have hget : ∀ j : Nat, j < n → (tauConst n : List K).getD j 0
      = (2 : K) ^ ((j : Int) - (if n % 2 = 1 then ((n / 2 : Nat) : Int)
          else ((n / 2 : Nat) : Int) - 1)) := by
    intro j hj
    rw [tauConst_eq n h1 h61, hst, List.getD_eq_getElem?_getD, List.getElem?_map,
      List.getElem?_range hj]
    rfl
  have hstep : ∀ j : Nat, j + 1 < n →
      (tauConst n : List K).getD (j + 1) 0 = 2 * (tauConst n : List K).getD j 0 := by
    intro j hj
    rw [hget (j + 1) hj, hget j (by omega)]
    push_cast
    rw [add_sub_right_comm, zpow_add_one₀ (two_ne_zero), mul_comm]
  refine ⟨tauConst_length n h1, hget, tauConst_loops n h1 h61, hstep, ?_, ?_⟩
  · intro j hj
    rw [hstep j hj, hget j (by omega)]
    have : (0 : K) < 2 ^ ((j : Int) - (if n % 2 = 1 then ((n / 2 : Nat) : Int)
        else ((n / 2 : Nat) : Int) - 1)) := zpow_pos (by norm_num) _
    linarith
  · rw [tauConst_eq n h1 h61, hst, List.mem_map]
    refine ⟨if n % 2 = 1 then n / 2 else n / 2 - 1, ?_, ?_⟩
    · rw [List.mem_range]
      split_ifs <;> omega
    · have : (((if n % 2 = 1 then n / 2 else n / 2 - 1 : Nat) : Int)
          - (if n % 2 = 1 then ((n / 2 : Nat) : Int) else ((n / 2 : Nat) : Int) - 1)) = 0 := by
        split_ifs <;> omega
      rw [this, zpow_zero]

/-- Witness of C22 at `n = 5`: five entries, the one at index 2 is `2^0`. -/
theorem tauConst_geometric_witness :
    1 ≤ 5 ∧ 5 ≤ 61 ∧ (tauConst 5 : List ℚ).length = 5 ∧
    (tauConst 5 : List ℚ).getD 3 0 = 2 * (tauConst 5 : List ℚ).getD 2 0 :=
  ⟨by decide, by decide, (@tauConst_geometric ℚ _ 5 (by decide) (by decide)).1,
    (@tauConst_geometric ℚ _ 5 (by decide) (by decide)).2.2.2.1 2 (by decide)⟩

/-- C28: for `2 <= nfolds <= min(10, n)` (so `n >= 2`; the cap leaves `nfolds` as it
is) and every fold `j < nfolds`, the held-out index set `getIndex n low up` and the
training index set `getIndexComp n low up` are both non-empty, a row is in one of
them exactly when it is not in the other, and every row is in one of them; so the
training sample size is at least 1 and its cast, by which `loss` and `gradLoss`
divide, is not zero. -/
theorem fold_sets_nonempty (n : Nat) (nfolds : Int) (h2 : 2 ≤ nfolds)
    (hcap : nfolds ≤ min 10 (n : Int)) (j : Nat) (hj : (j : Int) < nfolds) :
    foldsUsed nfolds n = nfolds ∧
    getIndex n (foldLow (Int.tdiv (n : Int) nfolds) j)
      (foldUp n nfolds (Int.tdiv (n : Int) nfolds) j) ≠ [] ∧
    getIndexComp n (foldLow (Int.tdiv (n : Int) nfolds) j)
      (foldUp n nfolds (Int.tdiv (n : Int) nfolds) j) ≠ [] ∧
    (∀ r : Fin n,
      r ∈ getIndex n (foldLow (Int.tdiv (n : Int) nfolds) j)
          (foldUp n nfolds (Int.tdiv (n : Int) nfolds) j)
        ↔ r ∉ getIndexComp n (foldLow (Int.tdiv (n : Int) nfolds) j)
          (foldUp n nfolds (Int.tdiv (n : Int) nfolds) j)) ∧
    (∀ r : Fin n,
      r ∈ getIndex n (foldLow (Int.tdiv (n : Int) nfolds) j)
          (foldUp n nfolds (Int.tdiv (n : Int) nfolds) j)
        ∨ r ∈ getIndexComp n (foldLow (Int.tdiv (n : Int) nfolds) j)
          (foldUp n nfolds (Int.tdiv (n : Int) nfolds) j)) ∧
    1 ≤ (getIndexComp n (foldLow (Int.tdiv (n : Int) nfolds) j)
      (foldUp n nfolds (Int.tdiv (n : Int) nfolds) j)).length ∧
    (((getIndexComp n (foldLow (Int.tdiv (n : Int) nfolds) j)
      (foldUp n nfolds (Int.tdiv (n : Int) nfolds) j)).length : Nat) : K) ≠ 0 := by
  obtain ⟨N, rfl⟩ := Int.eq_ofNat_of_zero_le (le_trans (by norm_num) h2)
  have hN2 : 2 ≤ N := by exact_mod_cast h2
  have hN10 : N ≤ 10 := by
    have := le_trans hcap (min_le_left _ _)
    exact_mod_cast this
  have hNn : N ≤ n := by
    have := le_trans hcap (min_le_right _ _)
    exact_mod_cast this
  have hjN : j < N := by exact_mod_cast hj
  have hsize : (0 : Int) ≤ ((n / N : Nat) : Int) := Int.natCast_nonneg _
  have hiff : ∀ r : Fin n,
      r ∈ getIndex n (foldLow ((n / N : Nat) : Int) j) (foldUp n (N : Int) ((n / N : Nat) : Int) j)
        ↔ r ∉ getIndexComp n (foldLow ((n / N : Nat) : Int) j)
          (foldUp n (N : Int) ((n / N : Nat) : Int) j) := by
    intro r
    rw [mem_getIndex, mem_getIndexComp]
    omega
  have hcomp : getIndexComp n (foldLow ((n / N : Nat) : Int) j)
      (foldUp n (N : Int) ((n / N : Nat) : Int) j) ≠ [] := by
    obtain ⟨r, hr⟩ := fold_nonempty n N (by omega) hNn (if j = 0 then 1 else 0)
      (by split_ifs <;> omega)
    refine List.ne_nil_of_mem (not_not.mp (mt (hiff r).mpr ?_))
    intro hrj
    rw [mem_getIndex] at hr hrj
    by_cases h0 : j = 0
    · rw [if_pos h0] at hr
      exact fold_disjoint n N _ hsize j 1 (by omega) (by omega) _ hrj.2 hr.1
    · rw [if_neg h0] at hr
      exact fold_disjoint n N _ hsize 0 j (by omega) hjN _ hr.2 hrj.1
  rw [tdiv_natCast]
  refine ⟨?_, ?_, hcomp, hiff, fun r => ?_, ?_, ?_⟩
  · unfold foldsUsed
    rw [if_neg (by omega)]
  · obtain ⟨r, hr⟩ := fold_nonempty n N (by omega) hNn j hjN
    exact List.ne_nil_of_mem hr
  · by_cases hr : r ∈ getIndexComp n (foldLow ((n / N : Nat) : Int) j)
        (foldUp n (N : Int) ((n / N : Nat) : Int) j)
    · exact Or.inr hr
    · exact Or.inl ((hiff r).mpr hr)
  · exact List.length_pos.mpr hcomp
  · exact Nat.cast_ne_zero.mpr (Nat.pos_iff_ne_zero.mp (List.length_pos.mpr hcomp))

/-- Witness of C28 at `n = 7`, `nfolds = 3`, fold 2. -/
theorem fold_sets_nonempty_witness :
    (2 : Int) ≤ 3 ∧ (3 : Int) ≤ min 10 ((7 : Nat) : Int) ∧ ((2 : Nat) : Int) < 3 ∧
    getIndexComp 7 (foldLow (Int.tdiv ((7 : Nat) : Int) 3) 2)
      (foldUp 7 3 (Int.tdiv ((7 : Nat) : Int) 3) 2) ≠ [] :=
  ⟨by decide, by decide, by decide,
    (@fold_sets_nonempty ℚ _ 7 3 (by decide) (by decide) 2 (by decide)).2.2.1⟩

/-- C23: for `1 <= nfolds <= min(10, n)` (so `n >= 1`), whenever `cvNcvxReg` returns,
for every grid index `i`: every fold fit of `ncvxReg` at `lambdaSeq[i]` on the rows
outside fold `j` returned some `betaHat j`; every row `r` lies in exactly one fold
`f r`; and `mse[i]` is the Euclidean norm of `Y - P_i` with
`P_i[r] = X[r,:] * betaHat (f r)`.  The score of a grid point is thus a function
of the fits made at that grid point only, although `YPred` is shared. -/
theorem cvNcvxReg_mse_entry {n d : Nat} (P : Prims K) (fuel : Nat) (X : Design K n d)
    (Y : Vec K n) (lSeq : Option (List K)) (nlambda : Nat) (penalty : String)
    (phi0 gamma epsilon_c epsilon_t : K) (iteMax : Int) (nfolds : Int) (intercept : Bool)
    (h1 : 1 ≤ nfolds) (hcap : nfolds ≤ min 10 (n : Int)) (r : CVResult K d)
    (h : cvNcvxReg P fuel X Y lSeq nlambda penalty phi0 gamma epsilon_c epsilon_t iteMax nfolds
      intercept = some r) (i : Nat) (hi : i < r.lambdaSeq.length) :
    ∃ (betaHat : Nat → Vec K (d + 1)) (f : Fin n → Nat),
      (∀ j : Nat, (j : Int) < nfolds →
        (ncvxReg P fuel
          (Design.included (rows X.matrix (getIndexComp n
            (foldLow (Int.tdiv (n : Int) nfolds) j)
            (foldUp n nfolds (Int.tdiv (n : Int) nfolds) j))))
          (rows Y (getIndexComp n (foldLow (Int.tdiv (n : Int) nfolds) j)
            (foldUp n nfolds (Int.tdiv (n : Int) nfolds) j)))
          (r.lambdaSeq.getD i 0) penalty phi0 gamma epsilon_c epsilon_t iteMax intercept).map
          (fun listILAMM => listILAMM.beta) = some (betaHat j)) ∧
      (∀ row : Fin n, (f row : Int) < nfolds ∧
        row ∈ getIndex n (foldLow (Int.tdiv (n : Int) nfolds) (f row))
          (foldUp n nfolds (Int.tdiv (n : Int) nfolds) (f row))) ∧
      (∀ (row : Fin n) (j : Nat), (j : Int) < nfolds →
        row ∈ getIndex n (foldLow (Int.tdiv (n : Int) nfolds) j)
          (foldUp n nfolds (Int.tdiv (n : Int) nfolds) j) → j = f row) ∧
      r.mse.getD i 0
        = P.sqrt (∑ row, (Y row - mulVec X.matrix (betaHat (f row)) row) ^ 2) := by
  obtain ⟨YPred, cvIdx, listILAMM, hg, _, _, _, hr⟩ := cvNcvxReg_some P fuel X Y lSeq
    nlambda penalty phi0 gamma epsilon_c epsilon_t iteMax nfolds intercept r h
  have hseq : r.lambdaSeq = lambdaGrid P X.matrix Y lSeq nlambda := by rw [hr]
  have h10 : nfolds ≤ 10 := le_trans hcap (min_le_left _ _)
  have hle : nfolds ≤ (n : Int) := le_trans hcap (min_le_right _ _)
  have hfu : foldsUsed nfolds n = nfolds := by
    unfold foldsUsed
    rw [if_neg (by omega)]
  rw [hfu] at hg
  obtain ⟨N, rfl⟩ := Int.eq_ofNat_of_zero_le (le_trans zero_le_one h1)
  have hN : 1 ≤ N := by exact_mod_cast h1
  have hNn : N ≤ n := by exact_mod_cast hle
  have hsize : (0 : Int) ≤ ((n / N : Nat) : Int) := Int.natCast_nonneg _
  rw [tdiv_natCast] at hg ⊢
  have hdis : ∀ j ∈ List.range (N : Int).toNat, ∀ j' ∈ List.range (N : Int).toNat,
      ∀ row : Fin n,
      row ∈ getIndex n (foldLow ((n / N : Nat) : Int) j)
        (foldUp n (N : Int) ((n / N : Nat) : Int) j) →
      row ∈ getIndex n (foldLow ((n / N : Nat) : Int) j')
        (foldUp n (N : Int) ((n / N : Nat) : Int) j') → j = j' := by
    intro j hj j' hj' row hrow hrow'
    rw [List.mem_range, Int.toNat_ofNat] at hj hj'
    rw [mem_getIndex] at hrow hrow'
    by_contra hne
    rcases Nat.lt_or_gt_of_ne hne with hlt | hlt
    · exact fold_disjoint n N _ hsize j j' hlt hj' _ hrow.2 hrow'.1
    · exact fold_disjoint n N _ hsize j' j hlt hj _ hrow'.2 hrow.1
  choose f hf using fun row : Fin n => fold_cover n N hN hNn row.val row.isLt
  have hmem : ∀ row : Fin n, f row ∈ List.range (N : Int).toNat ∧
      row ∈ getIndex n (foldLow ((n / N : Nat) : Int) (f row))
        (foldUp n (N : Int) ((n / N : Nat) : Int) (f row)) := by
    intro row
    rw [List.mem_range, Int.toNat_ofNat, mem_getIndex]
    exact ⟨(hf row).1, (hf row).2.1, (hf row).2.2⟩
  rw [← hseq] at hg
  obtain ⟨k1, k2⟩ := cvGrid_entry P _ X.matrix Y _ _ hdis f hmem _ _ _ hg i hi
  obtain ⟨betaHat, hbeta⟩ : ∃ betaHat : Nat → Vec K (d + 1), ∀ j : Nat,
      betaHat j = ((ncvxReg P fuel
        (Design.included (rows X.matrix (getIndexComp n (foldLow ((n / N : Nat) : Int) j)
          (foldUp n (N : Int) ((n / N : Nat) : Int) j))))
        (rows Y (getIndexComp n (foldLow ((n / N : Nat) : Int) j)
          (foldUp n (N : Int) ((n / N : Nat) : Int) j)))
        (r.lambdaSeq.getD i 0) penalty phi0 gamma epsilon_c epsilon_t iteMax intercept).map
        (fun listILAMM => listILAMM.beta)).getD (fun _ => 0) := ⟨_, fun _ => rfl⟩
  refine ⟨betaHat, f, ?_, ?_, ?_, ?_⟩
  rotate_left
  · intro row
    exact ⟨by exact_mod_cast (hf row).1, (hmem row).2⟩
  · intro row j hj hrow
    have hj' : j ∈ List.range (N : Int).toNat := by
      rw [List.mem_range, Int.toNat_ofNat]
      exact_mod_cast hj
    exact hdis j hj' (f row) (hmem row).1 row hrow (hmem row).2
  · simp only [hbeta]
    exact k2
  · intro j hj
    have hj' : j ∈ List.range (N : Int).toNat := by
      rw [List.mem_range, Int.toNat_ofNat]
      exact_mod_cast hj
    obtain ⟨b, hb⟩ := Option.isSome_iff_exists.mp (k1 j hj')
    rw [hbeta j]
    rw [hb]
    rfl

/-- Witness of C23 over the reals with the real `sqrt`: two rows with entries 1,
responses 3 and 4, the grid `[10]`, two folds. -/
theorem cvNcvxReg_mse_entry_witness :
    (1 : Int) ≤ 2 ∧ (2 : Int) ≤ min 10 ((2 : Nat) : Int) ∧
    ∃ r : CVResult ℝ 1,
      cvNcvxReg (Prims.mk Real.exp Real.log Real.sqrt (fun _ => 1)) 1
        (Design.included (fun _ _ => 1 : Mat ℝ 2 2)) (![3, 4] : Vec ℝ 2) (some [10]) 1 "SCAD"
        (1 / 1000) (3 / 2) (1 / 10000) (1 / 10000) 500 2 false = some r ∧
      0 < r.lambdaSeq.length ∧
      ∃ (betaHat : Nat → Vec ℝ 2) (f : Fin 2 → Nat),
        r.mse.getD 0 0 = Real.sqrt (∑ row, ((![3, 4] : Vec ℝ 2) row
          - mulVec (fun _ _ => 1 : Mat ℝ 2 2) (betaHat (f row)) row) ^ 2) :=
  ⟨by decide, by decide, ⟨fun _ => 0, "SCAD", [10], [5], 10, foldsUsed 2 2⟩,
    ones_cvNcvxReg_three_four "SCAD" (Or.inr (Or.inl rfl)) 2, Nat.zero_lt_one,
    let ⟨betaHat, f, _, _, _, hm⟩ :=
      cvNcvxReg_mse_entry (Prims.mk Real.exp Real.log Real.sqrt (fun _ => 1)) 1
        (Design.included (fun _ _ => 1 : Mat ℝ 2 2)) (![3, 4] : Vec ℝ 2) (some [10]) 1 "SCAD"
        (1 / 1000) (3 / 2) (1 / 10000) (1 / 10000) 500 2 false (by decide) (by decide)
        ⟨fun _ => 0, "SCAD", [10], [5], 10, foldsUsed 2 2⟩
        (ones_cvNcvxReg_three_four "SCAD" (Or.inr (Or.inl rfl)) 2) 0 Nat.zero_lt_one
    ⟨betaHat, f, hm⟩⟩

end Claims

end ILAMM
